import Mathlib

/-!
Shellax: the command parser and the launcher.

A shallow embedding of `parse_command`, `process_command`, `createpipe`, `amountpipes`,
`redirect` and `amountredirections` from `src/shellax-skeleton.c` together with the facts
about them that the specification states.

Modelling conventions:

* A `char *` is the list of bytes found from the pointer onwards, terminator and the bytes
  behind it included.  Reading past the end of that list gives the terminator `NUL`.
  A C string `s` lying in a buffer is therefore `s ++ NUL :: rest`, or just `s` when nothing
  is known to follow.
* `strtok` keeps a hidden pointer between calls; here every call receives that pointer and
  returns the new one.  `parse_command` hands the pointer it leaves behind back to its caller,
  because the recursive call made for `|` shares it with the loop that made the call.
* `malloc(sizeof(struct command_t))` returns a block whose fields have not been written.  What
  such a block holds is not known: the functions take a parameter `malloc` that gives the
  contents of the block returned by the first, second, ... of these calls, counted from the
  call of `parse_command` at hand, and the statements quantify over it or name the contents
  they evaluate.  A pointer field of such a block is `NULL` or points to some command.  Only
  the command that `main` passes in has been cleared with `memset`.
* The array `temp_buf` of `parse_command` has 1024 bytes and `path` of `process_command` has
  256.  A copy that does not fit overruns the frame; from there on nothing is known, so
  `parse_command` gives no result (`none`) and the process counts as crashed.  The blocks for
  the name, the arguments and the paths are allocated with the size of what is copied.
* A process is the tree of what it does from the point where it enters `process_command`:
  the calls it makes in their order, the processes it forks, and how it ends.  The result of
  every call that the code tests comes from an environment, so that a statement covers every
  answer of the system.  The handlers `uniq`, `palindrome`, `mycp` and `chat` are calls whose
  inside is not modelled; the environment tells whether such a call returns.
* Loops and recursive calls carry a bound on the steps left.  The bounds are chosen from the
  length of the buffer and are never reached: `parsed_fuel_ok`, `parsed_loop_eq` and
  `tokens_fuel_eq` show that every larger bound gives the same result.
* `parsed` and the functions it is built from say what `parse_command` leaves when every
  copy fits; `parse_command_eq_parsed` shows that `parse_command` gives exactly that when
  `fits` holds of the buffer and nothing otherwise.
-/

namespace Shellax

/-! ## Bytes, strings and the library routines used by the parser -/

/-- The byte that terminates a C string. -/
def NUL : Char := Char.ofNat 0

/-- The constant `splitters = " \t"` of `parse_command`. -/
def splitters : List Char := [' ', '\t']

/-- The byte `p[i]`; past the end of what is known of the memory it reads as `NUL`. -/
def peek (p : List Char) (i : Nat) : Char := p.getD i NUL

/-- The C string that starts at `p`: the bytes before the first `NUL`. -/
def cstr : List Char → List Char
  | [] => []
  | c :: p => if c == NUL then [] else c :: cstr p

/-- Library `strlen`. -/
def strlen (p : List Char) : Nat := (cstr p).length

/-- The test `strchr(s, c) != NULL`; the terminator of `s` counts as part of `s`. -/
def strchr (s : List Char) (c : Char) : Bool := c == NUL || s.contains c

/-- Library `strspn`: length of the leading run of bytes of `p` that occur in `accept`. -/
def strspn (p accept : List Char) : Nat :=
  (p.takeWhile (fun c => c != NUL && accept.contains c)).length

/-- Library `strcspn`: length of the leading run of bytes of `p` that do not occur in
`reject`; the run ends at the terminator at the latest. -/
def strcspn (p reject : List Char) : Nat :=
  (p.takeWhile (fun c => c != NUL && !reject.contains c)).length

/-- One call of `strtok`, with the hidden pointer made explicit.  `s` is the string handed in
on a first call and the hidden pointer on a call with `NULL`.  The result is the token
(`none` for `NULL`; otherwise the memory from the start of the token, already cut by the
`NUL` that `strtok` writes behind it) and the new hidden pointer. -/
def strtok (s delim : List Char) : Option (List Char) × List Char :=
  let s := s.drop (strspn s delim)
  if peek s 0 == NUL then (none, s)
  else
    let n := strcspn s delim
    if peek s n == NUL then (some s, s.drop n)
    else (some (s.set n NUL), s.drop (n + 1))

/-- The test `strcmp(a, b) == 0` for a string in memory and a literal. -/
def strcmp_eq (p : List Char) (lit : List Char) : Bool := cstr p == lit

/-- The effect of `strcpy(dst, src)` on `dst`: the string and its terminator. -/
def strcpy (src : List Char) : List Char := cstr src ++ [NUL]

/-- Library `realloc` on an array of pointers: the first `n` slots are kept, new slots hold
nothing yet. -/
def realloc (a : List (Option (List Char))) (n : Nat) : List (Option (List Char)) :=
  a.take n ++ List.replicate (n - a.length) none

/-! ## The command structure -/

/-- The record `struct command_t`.  A `NULL` pointer is `none`; `args` is the array behind
`char **args` and `redirects` the three slots of `char *redirects[3]`. -/
structure command_t where
  name : Option (List Char)
  background : Bool
  auto_complete : Bool
  arg_count : Nat
  args : List (Option (List Char))
  redirects : List (Option (List Char))
  next : Option command_t

/-- The command `main` passes in: `memset(command, 0, sizeof(struct command_t))`. -/
def command_t.zero : command_t :=
  { name := none, background := false, auto_complete := false, arg_count := 0,
    args := [], redirects := [none, none, none], next := none }

/-- The blocks that the calls of `malloc(sizeof(struct command_t))` behind the first one
return: the contents of the second, third, ... block. -/
def later (malloc : Nat → command_t) : Nat → command_t := fun n => malloc (n + 1)

/-- A run in which every fresh block happens to hold zero bytes only. -/
def zeroed : Nat → command_t := fun _ => command_t.zero

/-- A run in which every fresh block holds what an earlier use left behind: three paths in
`redirects`, a flag, and a pointer in `next` to a block of zero bytes. -/
def stale : Nat → command_t := fun _ =>
  { name := none, background := true, auto_complete := false, arg_count := 0, args := [],
    redirects := [some ['4'], some ['5'], some ['6']], next := some command_t.zero }

/-! ## parse_command -/

/-- The loop `while (len > 0 && strchr(splitters, buf[0]) != NULL) { buf++; len--; }`.
The first argument counts the iterations left, which `len` bounds. -/
def trim_left : Nat → List Char → Nat → List Char × Nat
  | 0, buf, len => (buf, len)
  | fuel + 1, buf, len =>
    if len > 0 && strchr splitters (peek buf 0) then trim_left fuel (buf.drop 1) (len - 1)
    else (buf, len)

/-- The loop `while (len > 0 && strchr(splitters, buf[len - 1]) != NULL) buf[--len] = 0;`. -/
def trim_right : Nat → List Char → Nat → List Char × Nat
  | 0, buf, len => (buf, len)
  | fuel + 1, buf, len =>
    if len > 0 && strchr splitters (peek buf (len - 1)) then
      trim_right fuel (buf.set (len - 1) NUL) (len - 1)
    else (buf, len)

/-- The loop `while (pch[index] == ' ' || pch[index] == '\t') index++;`.  It stops at the
terminator at the latest, so the length of the memory bounds the iterations. -/
def skip_blanks (pch : List Char) : Nat → Nat → Nat
  | 0, index => index
  | fuel + 1, index =>
    if peek pch index == ' ' || peek pch index == '\t' then skip_blanks pch fuel (index + 1)
    else index

/-- The loop `for (i = arg_count - 2; i > 0; --i) args[i] = args[i - 1];`, entered with
`i` at its first value. -/
def shift_args (args : List (Option (List Char))) : Nat → List (Option (List Char))
  | 0 => args
  | i + 1 => shift_args (args.set (i + 1) (args.getD i none)) i

/-- The body of the `while (1)` loop of `parse_command` for one token `pch` that `strtok`
returned, `olds` being the hidden pointer of `strtok` after that call.  `call` is
`parse_command` itself, used for the command behind a `|`, and `fresh` is what the block
holds that `malloc` returns for that command.  The result is the command, the value of
`arg_index` and the hidden pointer at the end of the iteration.  `strcpy(arg, pch)` writes
the token and its terminator into the 1024 bytes of `temp_buf`; a token of 1024 bytes or
more does not fit and there is no result.  In the branch for `|` the blank written over the
terminator of the token is replaced by the terminator again after the call (`pch[l] = 0`);
nothing reads that byte afterwards, so the write is left out.  The variable `len` only sizes
the blocks for the copies where it is not used here. -/
def parse_token (call : List Char → command_t → Option (command_t × List Char))
    (fresh : command_t) (pch olds : List Char) (command : command_t) (arg_index : Nat) :
    Option (command_t × Nat × List Char) :=
  if strlen pch ≥ 1024 then none
  else
    let arg := strcpy pch
    let len := strlen arg
    if len == 0 then some (command, arg_index, olds)
    else
      let (arg, len) := trim_left len arg len
      let (arg, len) := trim_right len arg len
      if len == 0 then some (command, arg_index, olds)
      else if strcmp_eq arg ['|'] then
        let c := fresh
        let l := strlen pch
        let pch := pch.set l (peek splitters 0)
        let index := skip_blanks pch pch.length 1
        match call (pch.drop index) c with
        | none => none
        | some (c, olds) => some ({ command with next := some c }, arg_index, olds)
      else if strcmp_eq arg ['&'] then some (command, arg_index, olds)
      else
        let redirect_index : Int := -1
        let redirect_index := if peek arg 0 == '<' then 0 else redirect_index
        let (redirect_index, arg, len) :=
          if peek arg 0 == '>' then
            if len > 1 && peek arg 1 == '>' then ((2 : Int), arg.drop 1, len - 1)
            else (1, arg, len)
          else (redirect_index, arg, len)
        if redirect_index != -1 then
          some ({ command with
              redirects :=
                command.redirects.set redirect_index.toNat (some (cstr (arg.drop 1))) },
            arg_index, olds)
        else
          let arg :=
            if len > 2 && ((peek arg 0 == '"' && peek arg (len - 1) == '"') ||
                (peek arg 0 == '\'' && peek arg (len - 1) == '\'')) then
              (arg.set (len - 1) NUL).drop 1
            else arg
          let args := realloc command.args (arg_index + 1)
          let args := args.set arg_index (some (cstr arg))
          some ({ command with args := args }, arg_index + 1, olds)

/-- The `while (1)` loop of `parse_command`: ask `strtok` for the next token, stop when there
is none.  Every token uses up at least one byte behind the hidden pointer, which bounds the
iterations; the first argument counts the iterations left. -/
def parse_loop (call : List Char → command_t → Option (command_t × List Char))
    (fresh : command_t) :
    Nat → List Char → command_t → Nat → Option (command_t × Nat × List Char)
  | 0, olds, command, arg_index => some (command, arg_index, olds)
  | fuel + 1, olds, command, arg_index =>
    match strtok olds splitters with
    | (none, olds) => some (command, arg_index, olds)
    | (some pch, olds) =>
      match parse_token call fresh pch olds command arg_index with
      | none => none
      | some (command, arg_index, olds) => parse_loop call fresh fuel olds command arg_index

/-- The two assignments to the flags at the start of `parse_command`, `buf` and `len` being
what the trimming loops have left:
`if (len > 0 && buf[len - 1] == '?') command->auto_complete = true;` and the same with `&`
and `background`. -/
def set_flags (buf : List Char) (len : Nat) (command : command_t) : command_t :=
  let command :=
    if len > 0 && peek buf (len - 1) == '?' then { command with auto_complete := true }
    else command
  if len > 0 && peek buf (len - 1) == '&' then { command with background := true }
  else command

/-- The assignment to `name` behind the first call of `strtok`: the empty string when there
is no token, a copy of the token otherwise. -/
def set_name (pch : Option (List Char)) (command : command_t) : command_t :=
  match pch with
  | none => { command with name := some [] }
  | some pch => { command with name := some (cstr pch) }

/-- The end of `parse_command`, behind the loop: `arg_count` is set and raised by two, the
array of arguments grows to that size, its entries move up by one, a copy of the name goes
into slot 0 and `NULL` into the last slot. -/
def finish (command : command_t) (arg_index : Nat) : command_t :=
  let command := { command with arg_count := arg_index }
  let command := { command with arg_count := command.arg_count + 2 }
  let command := { command with args := realloc command.args command.arg_count }
  let command := { command with args := shift_args command.args (command.arg_count - 2) }
  let command := { command with args := command.args.set 0 command.name }
  { command with args := command.args.set (command.arg_count - 1) none }

/-- The function `parse_command(buf, command)`.  The first argument bounds the nesting of the
recursive calls; it is enough when it exceeds the length of `buf`, since every nested call
receives a strictly shorter piece of the same buffer.  `malloc` gives the contents of the
blocks for the commands behind a `|`: the first one is used by this call, the others by the
nested calls.  The result is the command as the call leaves it and the hidden pointer of
`strtok` at that moment, or nothing when a token overran `temp_buf`. -/
def parse_command_fuel :
    Nat → (Nat → command_t) → List Char → command_t → Option (command_t × List Char)
  | 0, _, buf, command => some (command, buf)
  | fuel + 1, malloc, buf, command =>
    let len := strlen buf
    let (buf, len) := trim_left len buf len
    let (buf, len) := trim_right len buf len
    let command := set_flags buf len command
    let (pch, olds) := strtok buf splitters
    let command := set_name pch command
    let command := { command with args := realloc [] 1 }
    (parse_loop (parse_command_fuel fuel (later malloc)) (malloc 0) (olds.length + 1) olds
        command 0).map
      (fun (command, arg_index, olds) => (finish command arg_index, olds))

/-- The function `parse_command(buf, command)`: the command it leaves in `*command`. -/
def parse_command (malloc : Nat → command_t) (buf : List Char) (command : command_t) :
    Option command_t :=
  (parse_command_fuel (buf.length + 1) malloc buf command).map Prod.fst

/-! ## Reading a parsed chain -/

/-- The commands of a chain in order, following `next`. -/
def chain : command_t → List command_t
  | c@⟨_, _, _, _, _, _, none⟩ => [c]
  | c@⟨_, _, _, _, _, _, some n⟩ => c :: chain n

/-! ## Describing the parser through the tokens of the buffer -/

/-- A byte at which `strtok` splits: a space or a tab. -/
def blank (c : Char) : Bool := c == ' ' || c == '\t'

/-- A byte that can stand inside a token: neither a blank nor the terminator. -/
def tokch (c : Char) : Bool := c != NUL && !blank c

/-- The token that a call of `strtok` finds at the hidden pointer `s`. -/
def tok_at (s : List Char) : List Char := (s.dropWhile blank).takeWhile tokch

/-- The memory from the byte that ends the token found at `s`. -/
def tok_end (s : List Char) : List Char := (s.dropWhile blank).dropWhile tokch

/-- The memory the right-trimming loop leaves: the string without its trailing blanks, a
`NUL` in place of each of them, and what lay behind the string. -/
def rtrim_mem (s tl : List Char) : List Char :=
  s.rdropWhile blank ++ List.replicate (s.length - (s.rdropWhile blank).length) NUL ++ tl

/-- A token without the pair of quotes around it, when it is longer than two bytes and its
first and last byte are the same quote character; the token itself otherwise. -/
def unquote (t : List Char) : List Char :=
  if 2 < t.length ∧ ((peek t 0 = '"' ∧ peek t (t.length - 1) = '"') ∨
      (peek t 0 = '\'' ∧ peek t (t.length - 1) = '\'')) then
    t.dropLast.drop 1
  else t

/-- What a token other than `|` does to the command and to `arg_index`: `&` is skipped, a
token that starts with `<`, `>>` or `>` fills a slot of `redirects`, any other token is
stored as the next argument. -/
def token_step (t : List Char) (command : command_t) (arg_index : Nat) : command_t × Nat :=
  if t = ['&'] then (command, arg_index)
  else if peek t 0 = '<' then
    ({ command with redirects := command.redirects.set 0 (some (t.drop 1)) }, arg_index)
  else if peek t 0 = '>' then
    if peek t 1 = '>' then
      ({ command with redirects := command.redirects.set 2 (some (t.drop 2)) }, arg_index)
    else ({ command with redirects := command.redirects.set 1 (some (t.drop 1)) }, arg_index)
  else
    let args := realloc command.args (arg_index + 1)
    ({ command with args := args.set arg_index (some (unquote t)) }, arg_index + 1)

/-- The tokens that calls of `strtok` deliver one after the other, the first call finding the
hidden pointer at `s`: each token comes with the memory behind the byte that ended it.  The
first argument bounds the number of tokens. -/
def tokens_fuel : Nat → List Char → List (List Char × List Char)
  | 0, _ => []
  | fuel + 1, s =>
    if tok_at s = [] then []
    else (tok_at s, (tok_end s).drop 1) ::
      (if peek (tok_end s) 0 = NUL then [] else tokens_fuel fuel ((tok_end s).drop 1))

/-- The tokens of the string at `s`, each with the memory behind the byte that ended it. -/
def tokens (s : List Char) : List (List Char × List Char) := tokens_fuel s.length s

/-- The loop of `parse_command` over the tokens of one command: the tokens up to the first
`|` change the command as `token_step` says; at a `|` the rest of the buffer, blanks skipped,
goes to `call` together with the block `fresh` and the command it returns becomes `next`. -/
def stage_fold (call : List Char → command_t → command_t) (fresh : command_t) :
    List (List Char × List Char) → command_t → Nat → command_t × Nat
  | [], command, arg_index => (command, arg_index)
  | (t, rest) :: ts, command, arg_index =>
    if t = ['|'] then
      ({ command with next := some (call (rest.dropWhile blank) fresh) }, arg_index)
    else
      stage_fold call fresh ts (token_step t command arg_index).1
        (token_step t command arg_index).2

/-- The buffer as the two trimming loops of `parse_command` leave it: leading blanks are
stepped over, every trailing blank of the line is overwritten by a `NUL`. -/
def trimmed (buf : List Char) : List Char :=
  rtrim_mem (cstr (buf.dropWhile blank)) ((buf.dropWhile blank).drop (strlen (buf.dropWhile blank)))

/-- One call of `parse_command` described through the tokens of the trimmed buffer: the flags
follow the last byte of the line, the first token is the name, the other tokens go through
`stage_fold`, and `finish` builds the final array of arguments.  `call` stands for the
recursive call and `fresh` for the block it works on. -/
def parse_stage (call : List Char → command_t → command_t) (fresh : command_t)
    (buf : List Char) (command : command_t) : command_t :=
  let m := trimmed buf
  let command := set_flags m (strlen m) command
  let name := match tokens m with
    | [] => []
    | t :: _ => t.1
  let command := { command with name := some name, args := realloc [] 1 }
  let r := stage_fold call fresh (tokens m).tail command 0
  finish r.1 r.2

/-- What `parse_token` gives when the token fits into `temp_buf` and the call for the command
behind a `|` gives a result: the same steps without the test of the size. -/
def parsed_token (call : List Char → command_t → command_t × List Char) (fresh : command_t)
    (pch olds : List Char) (command : command_t) (arg_index : Nat) :
    command_t × Nat × List Char :=
  let arg := strcpy pch
  let len := strlen arg
  if len == 0 then (command, arg_index, olds)
  else
    let (arg, len) := trim_left len arg len
    let (arg, len) := trim_right len arg len
    if len == 0 then (command, arg_index, olds)
    else if strcmp_eq arg ['|'] then
      let c := fresh
      let l := strlen pch
      let pch := pch.set l (peek splitters 0)
      let index := skip_blanks pch pch.length 1
      let (c, olds) := call (pch.drop index) c
      ({ command with next := some c }, arg_index, olds)
    else if strcmp_eq arg ['&'] then (command, arg_index, olds)
    else
      let redirect_index : Int := -1
      let redirect_index := if peek arg 0 == '<' then 0 else redirect_index
      let (redirect_index, arg, len) :=
        if peek arg 0 == '>' then
          if len > 1 && peek arg 1 == '>' then ((2 : Int), arg.drop 1, len - 1)
          else (1, arg, len)
        else (redirect_index, arg, len)
      if redirect_index != -1 then
        ({ command with
            redirects := command.redirects.set redirect_index.toNat (some (cstr (arg.drop 1))) },
          arg_index, olds)
      else
        let arg :=
          if len > 2 && ((peek arg 0 == '"' && peek arg (len - 1) == '"') ||
              (peek arg 0 == '\'' && peek arg (len - 1) == '\'')) then
            (arg.set (len - 1) NUL).drop 1
          else arg
        let args := realloc command.args (arg_index + 1)
        let args := args.set arg_index (some (cstr arg))
        ({ command with args := args }, arg_index + 1, olds)

/-- What `parse_loop` gives when every token fits: the loop over `parsed_token`. -/
def parsed_loop (call : List Char → command_t → command_t × List Char) (fresh : command_t) :
    Nat → List Char → command_t → Nat → command_t × Nat × List Char
  | 0, olds, command, arg_index => (command, arg_index, olds)
  | fuel + 1, olds, command, arg_index =>
    match strtok olds splitters with
    | (none, olds) => (command, arg_index, olds)
    | (some pch, olds) =>
      let (command, arg_index, olds) := parsed_token call fresh pch olds command arg_index
      parsed_loop call fresh fuel olds command arg_index

/-- What `parse_command_fuel` gives when every token fits. -/
def parsed_fuel : Nat → (Nat → command_t) → List Char → command_t → command_t × List Char
  | 0, _, buf, command => (command, buf)
  | fuel + 1, malloc, buf, command =>
    let len := strlen buf
    let (buf, len) := trim_left len buf len
    let (buf, len) := trim_right len buf len
    let command := set_flags buf len command
    let (pch, olds) := strtok buf splitters
    let command := set_name pch command
    let command := { command with args := realloc [] 1 }
    let (command, arg_index, olds) :=
      parsed_loop (parsed_fuel fuel (later malloc)) (malloc 0) (olds.length + 1) olds command 0
    (finish command arg_index, olds)

/-- What `parse_command` leaves in `*command` when every token fits into `temp_buf`. -/
def parsed (malloc : Nat → command_t) (buf : List Char) (command : command_t) : command_t :=
  (parsed_fuel (buf.length + 1) malloc buf command).1

/-- The test that no copy overruns `temp_buf` while the loop of `parse_command` works
through the tokens `ts`: every token up to the first `|` has fewer than 1024 bytes, and
`good` holds of the piece handed to the call for the command behind that `|`. -/
def stage_fits (good : List Char → Bool) : List (List Char × List Char) → Bool
  | [] => true
  | (t, rest) :: ts =>
    decide (t.length < 1024) &&
      (if t = ['|'] then good (rest.dropWhile blank) else stage_fits good ts)

/-- The test that no copy overruns `temp_buf` in a call of `parse_command` on `buf` or in
one of its nested calls; the first argument bounds the nesting as in
`parse_command_fuel`. -/
def fits_fuel : Nat → List Char → Bool
  | 0, _ => true
  | fuel + 1, buf => stage_fits (fits_fuel fuel) (tokens (trimmed buf)).tail

/-- The test that every token `parse_command` copies while it parses `buf` fits into
`temp_buf`.  The first token of a command is its name and is not copied there. -/
def fits (buf : List Char) : Bool := fits_fuel (buf.length + 1) buf

/-- What a list of tokens other than `|` does, one after the other, to the command and to
`arg_index`. -/
def steps (ts : List (List Char)) (command : command_t) (arg_index : Nat) : command_t × Nat :=
  ts.foldl (fun s t => token_step t s.1 s.2) (command, arg_index)

/-- The name the command at the start of `buf` gets: its first token, or the empty string. -/
def first_token (buf : List Char) : List Char :=
  match tokens (trimmed buf) with
  | [] => []
  | t :: _ => t.1

/-- The tokens of the command at the start of `buf` that follow its name, up to the first
token `|`. -/
def stage_tokens (buf : List Char) : List (List Char) :=
  (((tokens (trimmed buf)).tail).takeWhile (fun x => x.1 != ['|'])).map Prod.fst

/-- The piece of `buf` that the recursive call receives: what lies behind the first token `|`
that follows the name, blanks skipped; `none` when there is no such token. -/
def pipe_rest (buf : List Char) : Option (List Char) :=
  ((((tokens (trimmed buf)).tail).dropWhile (fun x => x.1 != ['|'])).head?).map
    (fun x => x.2.dropWhile blank)

/-- The argument a token stands for: none for `&` and for a redirection, the token without
a pair of wrapping quotes otherwise. -/
def plain_arg (t : List Char) : Option (List Char) :=
  if t = ['&'] ∨ peek t 0 = '<' ∨ peek t 0 = '>' then none else some (unquote t)

/-- The plain arguments among the tokens of a command, in their order. -/
def plain_args (ts : List (List Char)) : List (List Char) := ts.filterMap plain_arg

/-- What one token does to the three slots of `redirects`. -/
def redirect_step (r : List (Option (List Char))) (t : List Char) : List (Option (List Char)) :=
  if peek t 0 = '<' then r.set 0 (some (t.drop 1))
  else if peek t 0 = '>' then
    if peek t 1 = '>' then r.set 2 (some (t.drop 2)) else r.set 1 (some (t.drop 1))
  else r

/-- The last byte of the line after both trimming loops, if the line is not empty then. -/
def last_byte (buf : List Char) : Option Char := (cstr (trimmed buf)).getLast?

/-- The path a token gives to the slot `role` of `redirects`, if it is a redirection for
that slot: `<path` for slot 0, `>path` for slot 1, `>>path` for slot 2. -/
def redirect_path (role : Nat) (t : List Char) : Option (List Char) :=
  match role with
  | 0 => if peek t 0 = '<' then some (t.drop 1) else none
  | 1 => if peek t 0 = '>' ∧ peek t 1 ≠ '>' then some (t.drop 1) else none
  | 2 => if peek t 0 = '>' ∧ peek t 1 = '>' then some (t.drop 2) else none
  | _ => none

/-- The paths that the tokens of a command give to the slot `role`, in their order. -/
def redirections (role : Nat) (ts : List (List Char)) : List (List Char) :=
  ts.filterMap (redirect_path role)

/-- The words joined by `" | "`. -/
def pipeline : List (List Char) → List Char
  | [] => []
  | [w] => w
  | w :: ws => w ++ [' ', '|', ' '] ++ pipeline ws

/-- The words joined by single spaces. -/
def spaced : List (List Char) → List Char
  | [] => []
  | [w] => w
  | w :: ws => w ++ ' ' :: spaced ws

/-- A non-empty word without a blank, a tab or a `NUL`. -/
def is_word (w : List Char) : Prop := w ≠ [] ∧ ∀ c ∈ w, c ≠ ' ' ∧ c ≠ '\t' ∧ c ≠ NUL

/-- A non-empty word without whitespace and without the operator characters `|`, `&`, `<`,
`>`. -/
def is_plain (w : List Char) : Prop :=
  w ≠ [] ∧ ∀ c ∈ w, c ≠ ' ' ∧ c ≠ '\t' ∧ c ≠ NUL ∧ c ≠ '|' ∧ c ≠ '&' ∧ c ≠ '<' ∧ c ≠ '>'

/-- A plain word that can stand as an argument unchanged: it does not begin with a quote. -/
def is_argument (a : List Char) : Prop :=
  is_plain a ∧ a.head? ≠ some '"' ∧ a.head? ≠ some '\''

/-- The tokens of the string at `s`, in their order. -/
def words (s : List Char) : List (List Char) := (tokens s).map Prod.fst

/-- Return code `SUCCESS` of `enum return_codes`. -/
def SUCCESS : Int := 0

/-- Return code `EXIT` of `enum return_codes`. -/
def EXIT : Int := 1

/-- Return code `UNKNOWN` of `enum return_codes`. -/
def UNKNOWN : Int := 2

/-- The status `EXIT_FAILURE` of the C library. -/
def EXIT_FAILURE : Int := 1

/-- The value of an `int` that the code uses as a file descriptor: an end of the pipe that
the `i`-th call of `pipe` made, the descriptor `creat` returned for a path, or a slot of the
array `wr` that was never written. -/
inductive fd_t
  | pipe_read (i : Nat)
  | pipe_write (i : Nat)
  | created (path : Option (List Char))
  | unset
  deriving DecidableEq, Repr

/-- The calls of a process that the model records.  `pipe slot` is `pipe(wr + slot)`;
`dup2 old new` and `close d` carry the descriptor value handed in; `creat` carries the path
and the mode; `open_read` is `open(path, O_RDONLY)`; `call` is a call of one of the
handlers `uniq`, `palindrome`, `mycp`, `chat` with its arguments; the three output calls
carry their format text. -/
inductive action
  | chdir (path : Option (List Char))
  | waitpid
  | wait
  | pipe (slot : Nat)
  | dup2 (old : fd_t) (new : Nat)
  | close (d : fd_t)
  | creat (path : Option (List Char)) (mode : Nat)
  | open_read (path : Option (List Char))
  | execv (path : List Char) (args : List (Option (List Char)))
  | execvp (file : List Char) (args : List (Option (List Char)))
  | call (handler : List Char) (args : List (Option (List Char)))
  | printf (format : String)
  | fprintf (format : String)
  | perror (msg : String)
  deriving DecidableEq, Repr

/-- How a process leaves the code that is modelled: `process_command` returns `code` to the
loop of `main`; the process ends with `exit(status)`; `execv` or `execvp` replaced its
program; it read through a `NULL` pointer or wrote behind an array; or it stays inside a
handler that does not
return. -/
inductive outcome
  | returned (code : Int)
  | exited (status : Int)
  | replaced
  | crashed
  | inside_handler
  deriving DecidableEq, Repr

/-- A process from the point where it enters the modelled code: it ends, makes a call and
goes on, or forks.  At a fork `child` is what the new process does (`pid == 0`) and `parent`
what the forking process does afterwards.  `stage` is `none` for the fork of
`process_command` and the position in the chain of the command being launched for a fork of
`createpipe`. -/
inductive proc
  | done (o : outcome)
  | act (a : action) (k : proc)
  | fork (stage : Option Nat) (child : proc) (parent : proc)
  deriving DecidableEq, Repr

/-- The answers of the system.  `chdir`, `fork_shell` (the fork of `process_command`),
`fork_stage` (the fork of `createpipe` at a value of `index`), `pipe` (the `i`-th pipe),
`dup2` and `creat` tell whether the call succeeds.  `execv` and `execvp` give `none` when
the program is replaced and otherwise the value returned.  `handler` gives `none` when the
handler returns to its caller and otherwise how the process ends inside it.  `garbage` is
what the uninitialised `count` of `amountredirections` holds. -/
structure env_t where
  chdir : Option (List Char) → Bool
  fork_shell : Bool
  fork_stage : Nat → Bool
  pipe : Nat → Bool
  dup2 : fd_t → Nat → Bool
  creat : Option (List Char) → Bool
  execv : List Char → List (Option (List Char)) → Option Int
  execvp : List Char → List (Option (List Char)) → Option Int
  handler : List Char → Option outcome
  garbage : Int

/-- How the process itself ends. -/
def proc.outcome : proc → outcome
  | proc.done o => o
  | proc.act _ k => k.outcome
  | proc.fork _ _ k => k.outcome

/-- The calls the process itself makes, in their order. -/
def proc.trace : proc → List action
  | proc.done _ => []
  | proc.act a k => a :: k.trace
  | proc.fork _ _ k => k.trace

/-- The processes the process itself forks, in their order. -/
def proc.children : proc → List (Option Nat × proc)
  | proc.done _ => []
  | proc.act _ k => k.children
  | proc.fork s c k => (s, c) :: k.children

/-- Every process forked by the process or by one of its descendants, each before its own
descendants. -/
def proc.descendants : proc → List (Option Nat × proc)
  | proc.done _ => []
  | proc.act _ k => k.descendants
  | proc.fork s c k => (s, c) :: (c.descendants ++ k.descendants)

/-- The calls made by the process and by all its descendants. -/
def proc.calls (p : proc) : List action :=
  p.trace ++ (p.descendants.map (fun d => d.2.trace)).flatten

/-- The descriptor a list of calls leaves on `new` when every `dup2` in it succeeds: the one
the last `dup2(_, new)` handed in. -/
def binding (new : Nat) (t : List action) : Option fd_t :=
  (t.filterMap (fun a =>
    match a with
    | action.dup2 old n => if n = new then some old else none
    | _ => none)).getLast?

/-- A call of `pipe`. -/
def action.is_pipe : action → Bool
  | action.pipe _ => true
  | _ => false

/-- A call of `dup2`. -/
def action.is_dup2 : action → Bool
  | action.dup2 _ _ => true
  | _ => false

/-- The process that makes the calls `as` in their order and goes on as `k`. -/
def acts (as : List action) (k : proc) : proc := as.foldr proc.act k

/-- A call that opens a file. -/
def action.opens : action → Bool
  | action.creat _ _ => true
  | action.open_read _ => true
  | _ => false

/-- The test `code == EXIT` failing in the loop of `main`: the process is back in the loop
and goes on to the next prompt. -/
def back_in_main (o : outcome) : Bool :=
  match o with
  | outcome.returned code => code != EXIT
  | _ => false

/-! ## amountpipes, amountredirections, redirect -/

/-- The loop `while (c != NULL) { c = c->next; i++; }` of `amountpipes`, entered with a
command `c` that is not `NULL`. -/
def amountpipes_loop : command_t → Nat → Nat
  | ⟨_, _, _, _, _, _, none⟩, i => i + 1
  | ⟨_, _, _, _, _, _, some n⟩, i => amountpipes_loop n (i + 1)

/-- Function `amountpipes`. -/
def amountpipes (command : command_t) : Nat :=
  match command.next with
  | none => 0
  | some c => amountpipes_loop c 0

/-- Function `amountredirections`.  `count` starts with whatever the stack holds; `strcmp`
on a slot that is `NULL` ends the process (`none`). -/
def amountredirections (env : env_t) (command : command_t) : Option Int :=
  (List.range 3).foldlM (fun count a =>
    match command.redirects.getD a none with
    | none => none
    | some r => some (if !strcmp_eq r "N/A".toList then count + 1 else count)) env.garbage

/-- The values of `input_redirection` and `output_redirection` after the three tests of
`redirect`; `none` when `strcmp` reads a slot that is `NULL`. -/
def redirect_flags (command : command_t) : Option (Bool × Bool) :=
  match command.redirects.getD 1 none with
  | none => none
  | some r1 =>
    match command.redirects.getD 0 none with
    | none => none
    | some r0 =>
      if !strcmp_eq r1 "N/A".toList && !strcmp_eq r0 "N/A".toList then some (true, true)
      else if !strcmp_eq r0 "N/A".toList then some (true, false)
      else if !strcmp_eq r1 "N/A".toList then some (false, true)
      else some (false, false)

/-- The block `if (output_redirection == 1)` of `redirect`; `ret` is what follows a
`return` with the value given, `k` what follows the block. -/
def redirect_output (env : env_t) (command : command_t) (flag : Bool) (ret : Int → proc)
    (k : proc) : proc :=
  if flag then
    let path := command.redirects.getD 1 none
    proc.act (action.creat path 0o644)
      (if env.creat path then
        proc.act (action.dup2 (fd_t.created path) 1)
          (if env.dup2 (fd_t.created path) 1 then proc.act (action.close (fd_t.created path)) k
           else proc.act (action.printf "Unable to write the file.")
             (proc.done (outcome.exited EXIT_FAILURE)))
       else proc.act (action.fprintf "Failed writing on %d\n") (ret EXIT_FAILURE))
  else k

/-- The block `if (input_redirection == 1)` of `redirect`.  The file is the one named by
slot 1 of `redirects` and it is opened with `creat`. -/
def redirect_input (env : env_t) (command : command_t) (flag : Bool) (ret : Int → proc)
    (k : proc) : proc :=
  if flag then
    let path := command.redirects.getD 1 none
    proc.act (action.creat path 0o644)
      (if env.creat path then
        proc.act (action.dup2 (fd_t.created path) 0)
          (if env.dup2 (fd_t.created path) 0 then proc.act (action.close (fd_t.created path)) k
           else proc.act (action.printf "Unable to read the file.")
             (proc.done (outcome.exited EXIT_FAILURE)))
       else proc.act (action.fprintf "Failed reading on %d\n") (ret EXIT_FAILURE))
  else k

/-- Function `redirect`; `ret` is what the caller does with the value returned. -/
def redirect (env : env_t) (command : command_t) (ret : Int → proc) : proc :=
  match amountredirections env command with
  | none => proc.done outcome.crashed
  | some amount =>
    if amount ≤ 0 then ret 0
    else
      match redirect_flags command with
      | none => proc.done outcome.crashed
      | some (input_redirection, output_redirection) =>
        redirect_output env command output_redirection ret
          (redirect_input env command input_redirection ret (ret 1))

/-! ## createpipe -/

/-- The loop `for (i = 0; i < amount; i++)` of `createpipe` that makes the pipes, entered
with `n` iterations left at the value `i`; `wr` is the array and `k` what follows the
loop. -/
def pipe_loop (env : env_t) (k : List fd_t → proc) : Nat → Nat → List fd_t → proc
  | 0, _, wr => k wr
  | n + 1, i, wr =>
    proc.act (action.pipe (i * 2))
      (if env.pipe i then
        pipe_loop env k n (i + 1)
          ((wr.set (i * 2) (fd_t.pipe_read i)).set (i * 2 + 1) (fd_t.pipe_write i))
       else proc.act (action.perror "Error occured during piping")
         (proc.done (outcome.exited 1)))

/-- The loops `for (i = 0; i < amount * 2; i++) close(wr[i]);`, `n` being the bound. -/
def close_loop (wr : List fd_t) (n : Nat) (k : proc) : proc :=
  (List.range n).foldr (fun i p => proc.act (action.close (wr.getD i fd_t.unset)) p) k

/-- The loop `for (a = 0; a < amount + 1; a++) wait(0);`, `n` being the bound. -/
def wait_loop (n : Nat) (k : proc) : proc :=
  (List.range n).foldr (fun _ p => proc.act action.wait p) k

/-- The chain of `if (strcmp(c->name, ...) == 0)` in the child of `createpipe`: the
handlers and `execvp`.  `next` is what the process does when control leaves the chain,
which is the rest of the `while` loop. -/
def dispatch (env : env_t) (c : command_t) (name : List Char) (next : proc) : proc :=
  let returns (handler : List Char) (args : List (Option (List Char))) : proc :=
    proc.act (action.call handler args)
      (match env.handler handler with
        | none => next
        | some o => proc.done o)
  if strcmp_eq name "uniq".toList then
    if c.arg_count > 2 then returns "uniq".toList [c.name, c.args.getD 1 none]
    else returns "uniq".toList [c.name, some []]
  else if strcmp_eq name "palindrome".toList then
    if c.arg_count ≥ 3 then returns "palindrome".toList c.args
    else proc.act (action.perror "palindrome command takes more than 1 argument!") next
  else if strcmp_eq name "mycp".toList then
    if c.arg_count ≠ 4 then proc.act (action.perror "2 text files must be given") next
    else
      match c.args.getD 1 none, c.args.getD 2 none with
      | some a1, some a2 =>
        if strcmp_eq a1 (cstr a2) then
          proc.act (action.perror "File names must be different") next
        else returns "mycp".toList [some a1, some a2]
      | _, _ => proc.done outcome.crashed
  else if strcmp_eq name "chatroom".toList then
    proc.act (action.call "chat".toList [c.args.getD 1 none, c.args.getD 2 none])
      (proc.done ((env.handler "chat".toList).getD outcome.inside_handler))
  else
    proc.act (action.execvp name c.args)
      (match env.execvp name c.args with
        | none => proc.done outcome.replaced
        | some process =>
          if process < 0 then
            proc.act (action.perror "Error occured during piping") (proc.done (outcome.exited 1))
          else next)

/-- The branch `if (pid == 0)` of the `while` loop of `createpipe` for the command `c` at
the value `index`, followed by what the process does next (`next`): nothing in the branch
leaves the loop, so a process that comes out of `dispatch` goes on with `index += 2;
c = c->next;`. -/
def stage_child (env : env_t) (amount : Nat) (wr : List fd_t) (c : command_t) (index : Nat)
    (next : proc) : proc :=
  let fail : proc :=
    proc.act (action.perror "Error occured during piping") (proc.done (outcome.exited 1))
  let fail2 : proc :=
    proc.act (action.perror "Error occured during piping!") (proc.done (outcome.exited 1))
  let body : proc :=
    close_loop wr (amount * 2)
      (match c.name with
        | none => proc.done outcome.crashed
        | some name => dispatch env c name next)
  let input : proc :=
    if index ≠ 0 then
      proc.act (action.dup2 (wr.getD (index - 2) fd_t.unset) 0)
        (if env.dup2 (wr.getD (index - 2) fd_t.unset) 0 then body else fail2)
    else body
  if c.next.isSome then
    proc.act (action.dup2 (wr.getD (index + 1) fd_t.unset) 1)
      (if env.dup2 (wr.getD (index + 1) fd_t.unset) 1 then input else fail)
  else input

/-- The loop `while (c != NULL)` of `createpipe` over the commands still to be launched,
entered at the value `index`; `finish` is what follows the loop. -/
def stage_loop (env : env_t) (amount : Nat) (wr : List fd_t) (finish : proc) :
    List command_t → Nat → proc
  | [], _ => finish
  | c :: cs, index =>
    let next := stage_loop env amount wr finish cs (index + 2)
    if env.fork_stage index then
      proc.fork (some (index / 2)) (stage_child env amount wr c index next) next
    else proc.act (action.perror "Error occured during piping") (proc.done (outcome.exited 1))

/-- The array `wr` of `createpipe` when every call of `pipe` has succeeded. -/
def pipe_table (amount : Nat) : List fd_t :=
  ((List.range amount).map (fun i => [fd_t.pipe_read i, fd_t.pipe_write i])).flatten

/-- Function `createpipe`; `ret` is what the caller does with the value returned. -/
def createpipe (env : env_t) (command : command_t) (amount1 : Nat) (ret : Int → proc) : proc :=
  let amount := amount1
  let pipecount := amount * 2
  pipe_loop env
    (fun wr =>
      stage_loop env amount wr
        (close_loop wr pipecount (wait_loop (amount + 1) (ret 0))) (chain command) 0)
    amount 0 (List.replicate (amount * 2) fd_t.unset)

/-! ## process_command -/

/-- The size of the array `path` of `process_command`: `#define MAX_STRING_LENGTH 256`. -/
def MAX_STRING_LENGTH : Nat := 256

/-- The branch `if (pid == 0)` of `process_command`, `name` being the string at
`command->name`.  `sprintf(path, "/bin/%s", command->name)` writes the five bytes of `/bin/`,
the bytes of the name and a terminator into `char path[MAX_STRING_LENGTH]`: with a name of
251 bytes or more it writes behind the array, and the process is lost. -/
def process_command_child (env : env_t) (command : command_t) (name : List Char) : proc :=
  let amount := amountpipes command
  if 5 + strlen name + 1 > MAX_STRING_LENGTH then proc.done outcome.crashed
  else
    let path := "/bin/".toList ++ cstr name
    if strcmp_eq name "mycp".toList || strcmp_eq name "palindrome".toList ||
        strcmp_eq name "chatroom".toList || decide (amount > 0) then
      createpipe env command amount (fun _ => proc.done (outcome.exited 0))
    else
      proc.act (action.execv path command.args)
        (match env.execv path command.args with
          | none => proc.done outcome.replaced
          | some r =>
            if r < 0 then
              proc.act (action.perror "Command not found!") (proc.done (outcome.returned (-1)))
            else redirect env command (fun _ => proc.done (outcome.exited 0)))

/-- Function `process_command`, run by the shell process. -/
def process_command (env : env_t) (command : command_t) : proc :=
  match command.name with
  | none => proc.done outcome.crashed
  | some name =>
    if strcmp_eq name [] then proc.done (outcome.returned SUCCESS)
    else if strcmp_eq name "exit".toList then proc.done (outcome.returned EXIT)
    else if strcmp_eq name "cd".toList && decide (command.arg_count > 0) then
      proc.act (action.chdir (command.args.getD 0 none))
        (if env.chdir (command.args.getD 0 none) then proc.done (outcome.returned SUCCESS)
         else proc.act (action.printf "-%s: %s: %s\n") (proc.done (outcome.returned SUCCESS)))
    else if env.fork_shell then
      proc.fork none (process_command_child env command name)
        (proc.act action.waitpid (proc.done (outcome.returned SUCCESS)))
    else proc.act action.waitpid (proc.done (outcome.returned SUCCESS))

/-- An environment in which every call succeeds: `execv` and `execvp` replace the program
and the handlers return. -/
def env_t.ok : env_t :=
  { chdir := fun _ => true, fork_shell := true, fork_stage := fun _ => true,
    pipe := fun _ => true, dup2 := fun _ _ => true, creat := fun _ => true,
    execv := fun _ _ => none, execvp := fun _ _ => none, handler := fun _ => none,
    garbage := 0 }

/-- The environment `env_t.ok` except that the program `prog` cannot be executed: `execv`
of `/bin/prog` and `execvp` of `prog` return -1. -/
def env_t.missing (prog : List Char) : env_t :=
  { env_t.ok with
    execv := fun path _ => if path = "/bin/".toList ++ prog then some (-1) else none
    execvp := fun file _ => if file = prog then some (-1) else none }

/-- The environment `env_t.ok` except that `chdir` fails. -/
def env_t.no_dir : env_t := { env_t.ok with chdir := fun _ => false }

/-- The environment `env_t.ok` except that every call of `pipe` fails. -/
def env_t.no_pipe : env_t := { env_t.ok with pipe := fun _ => false }

/-! ## Writing a chain back as a line -/

/-- The plain arguments of a command: the entries of `args` behind the name, the final `NULL`
left out. -/
def plain_arguments (σ : command_t) : List (List Char) := (σ.args.drop 1).reduceOption

/-- The redirections of a command written as `<path`, `>path` and `>>path`, one word for
each slot of `redirects` that is set. -/
def redirection_words (σ : command_t) : List (List Char) :=
  (match σ.redirects.getD 0 none with
    | some p => ['<' :: p]
    | none => []) ++
  (match σ.redirects.getD 1 none with
    | some p => ['>' :: p]
    | none => []) ++
  (match σ.redirects.getD 2 none with
    | some p => ['>' :: '>' :: p]
    | none => [])

/-- The words a command is written with: its name, its plain arguments, its redirections. -/
def stage_words (σ : command_t) : List (List Char) :=
  σ.name.getD [] :: (plain_arguments σ ++ redirection_words σ)

/-- A command written out, its words separated by single spaces. -/
def stage_text (σ : command_t) : List Char := spaced (stage_words σ)

/-- The chain written back as a command line, following the words of the specification: the
commands joined by `" | "`, then `&` when `background` is set and `?` when `auto_complete`
is set.  `sep` is what stands between the line and such a flag character. -/
def serialize (sep : List Char) (c : command_t) : List Char :=
  pipeline ((chain c).map stage_text) ++ (if c.background then sep ++ ['&'] else []) ++
    (if c.auto_complete then sep ++ ['?'] else [])

/-- What the round trip compares of a command: the name, the arguments, the redirections
and the two flags. -/
def stage_view (σ : command_t) :
    Option (List Char) × List (Option (List Char)) × List (Option (List Char)) × Bool × Bool :=
  (σ.name, σ.args, σ.redirects, σ.background, σ.auto_complete)

/-- An argument that reads as itself when it is parsed again: a word that is not `|`, not
`&`, does not begin with `<` or `>` and is not wrapped in a pair of quotes. -/
def stable_argument (a : List Char) : Prop := is_word a ∧ a ≠ ['|'] ∧ plain_arg a = some a

/-- A command that can be written as words and read again: its name is a word, `args` holds
the name, stable arguments and the final `NULL`, the paths in the three slots of `redirects`
hold no blank and no `NUL`, the path of slot 1 does not begin with `>`, `background` is `bg`
and `auto_complete` is unset. -/
def plain_stage (bg : Bool) (σ : command_t) : Prop :=
  is_word (σ.name.getD []) ∧
    σ.args = σ.name :: (plain_arguments σ).map some ++ [none] ∧
    (∀ a ∈ plain_arguments σ, stable_argument a) ∧
    σ.redirects.length = 3 ∧
    (∀ p ∈ σ.redirects.reduceOption, ∀ ch ∈ p, tokch ch = true) ∧
    peek ((σ.redirects.getD 1 none).getD []) 0 ≠ '>' ∧
    σ.background = bg ∧ σ.auto_complete = false

instance (w : List Char) : Decidable (is_word w) := by
  unfold is_word; infer_instance

instance (a : List Char) : Decidable (stable_argument a) := by
  unfold stable_argument; infer_instance

instance (bg : Bool) (σ : command_t) : Decidable (plain_stage bg σ) := by
  unfold plain_stage; infer_instance

/-! ## Blanks and token bytes -/

theorem NUL_not_blank : blank NUL = false := by decide

theorem blank_iff {c : Char} : blank c = true ↔ c = ' ' ∨ c = '\t' := by
  simp [blank]

theorem blank_ne_NUL {c : Char} (h : blank c = true) : c ≠ NUL := by
  intro e; rw [e] at h; exact absurd h (by decide)

theorem contains_splitters (c : Char) : splitters.contains c = blank c := by
  by_cases h1 : c = ' '
  · subst h1; decide
  · by_cases h2 : c = '\t'
    · subst h2; decide
    · simp [splitters, blank, h1, h2]

theorem accept_eq_blank : (fun c => c != NUL && splitters.contains c) = blank := by
  funext c
  rw [contains_splitters]
  by_cases h : blank c = true
  · simp [h, blank_ne_NUL h]
  · simp [h]

theorem reject_eq_tokch : (fun c => c != NUL && !splitters.contains c) = tokch := by
  funext c
  rw [contains_splitters]; rfl

theorem strchr_splitters (c : Char) : strchr splitters c = (c == NUL || blank c) := by
  unfold strchr; rw [contains_splitters]

theorem drop_length_takeWhile (p : Char → Bool) (l : List Char) :
    l.drop (l.takeWhile p).length = l.dropWhile p := by
  induction l with
  | nil => rfl
  | cons a l ih =>
    by_cases h : p a = true
    · simp [List.takeWhile_cons, List.dropWhile_cons, h, ih]
    · simp [List.takeWhile_cons, List.dropWhile_cons, h]

theorem peek_zero_cons (c : Char) (l : List Char) : peek (c :: l) 0 = c := rfl

theorem peek_nil (i : Nat) : peek [] i = NUL := rfl

theorem peek_succ_cons (c : Char) (l : List Char) (i : Nat) : peek (c :: l) (i + 1) = peek l i := rfl

/-! ## C strings in memory -/

theorem cstr_nil : cstr [] = [] := rfl

theorem cstr_cons_NUL (p : List Char) : cstr (NUL :: p) = [] := by
  simp [cstr]

theorem cstr_cons_of_ne {c : Char} (h : c ≠ NUL) (p : List Char) : cstr (c :: p) = c :: cstr p := by
  simp [cstr, h]

theorem cstr_eq_takeWhile (p : List Char) : cstr p = p.takeWhile (fun c => c != NUL) := by
  induction p with
  | nil => rfl
  | cons c p ih =>
    by_cases h : c = NUL
    · subst h; simp [cstr]
    · simp [cstr, h, ih, List.takeWhile_cons]

theorem not_mem_cstr (p : List Char) : NUL ∉ cstr p := by
  induction p with
  | nil => simp [cstr]
  | cons c p ih =>
    by_cases h : c = NUL
    · subst h; simp [cstr]
    · rw [cstr_cons_of_ne h]
      simp only [List.mem_cons, not_or]
      exact ⟨fun e => h e.symm, ih⟩

theorem cstr_append_of_not_mem {s : List Char} (h : NUL ∉ s) (p : List Char) :
    cstr (s ++ p) = s ++ cstr p := by
  induction s with
  | nil => rfl
  | cons c s ih =>
    simp only [List.mem_cons, not_or] at h
    have hc : c ≠ NUL := fun e => h.1 e.symm
    simp [cstr_cons_of_ne hc, ih h.2]

theorem cstr_of_not_mem {s : List Char} (h : NUL ∉ s) : cstr s = s := by
  have := cstr_append_of_not_mem h []
  simpa [cstr] using this

theorem cstr_append_NUL {s : List Char} (h : NUL ∉ s) (p : List Char) :
    cstr (s ++ NUL :: p) = s := by
  rw [cstr_append_of_not_mem h, cstr_cons_NUL, List.append_nil]

theorem cstr_append_drop (p : List Char) : cstr p ++ p.drop (strlen p) = p := by
  unfold strlen
  rw [cstr_eq_takeWhile, drop_length_takeWhile, List.takeWhile_append_dropWhile]

theorem peek_drop_strlen (p : List Char) : peek (p.drop (strlen p)) 0 = NUL := by
  induction p with
  | nil => rfl
  | cons c p ih =>
    by_cases h : c = NUL
    · subst h; simp [strlen, cstr, peek]
    · simpa [strlen, cstr_cons_of_ne h] using ih

theorem peek_append_left {s : List Char} {i : Nat} (h : i < s.length) (p : List Char) :
    peek (s ++ p) i = s.get ⟨i, h⟩ := by
  simp [peek, List.getD_eq_getElem?_getD, List.getElem?_append_left h, List.getElem?_eq_getElem h]

theorem peek_append_length (s p : List Char) : peek (s ++ p) s.length = peek p 0 := by
  simp [peek, List.getD_eq_getElem?_getD, List.getElem?_append_right]

theorem tokch_iff {c : Char} : tokch c = true ↔ c ≠ NUL ∧ blank c = false := by
  simp [tokch]

theorem not_mem_of_all_tokch {t : List Char} (h : ∀ c ∈ t, tokch c = true) : NUL ∉ t :=
  fun hm => (tokch_iff.1 (h _ hm)).1 rfl

/-! ## What one call of strtok does -/

theorem blank_peek_dropWhile (s : List Char) : blank (peek (s.dropWhile blank) 0) = false := by
  induction s with
  | nil => exact NUL_not_blank
  | cons c s ih =>
    by_cases h : blank c = true
    · simpa [List.dropWhile_cons, h] using ih
    · simp [List.dropWhile_cons, h, peek]

theorem tokch_peek_dropWhile (s : List Char) : tokch (peek (s.dropWhile tokch) 0) = false := by
  induction s with
  | nil => decide
  | cons c s ih =>
    by_cases h : tokch c = true
    · simpa [List.dropWhile_cons, h] using ih
    · simp [List.dropWhile_cons, h, peek]

theorem all_tokch_takeWhile (s : List Char) : ∀ c ∈ s.takeWhile tokch, tokch c = true :=
  fun _ hc => List.mem_takeWhile_imp hc

theorem tok_at_append_tok_end (s : List Char) : tok_at s ++ tok_end s = s.dropWhile blank :=
  List.takeWhile_append_dropWhile _ _

theorem tok_at_eq_nil_iff (s : List Char) : tok_at s = [] ↔ peek (s.dropWhile blank) 0 = NUL := by
  have hb := blank_peek_dropWhile s
  unfold tok_at
  cases h : s.dropWhile blank with
  | nil => simp [peek]
  | cons c r =>
    rw [h] at hb
    simp only [peek_zero_cons] at hb ⊢
    by_cases hc : c = NUL
    · subst hc; simp [List.takeWhile_cons, tokch]
    · simp [List.takeWhile_cons, tokch, hc, hb]

theorem strspn_splitters (s : List Char) : strspn s splitters = (s.takeWhile blank).length := by
  unfold strspn; rw [accept_eq_blank]

theorem strcspn_splitters (s : List Char) :
    strcspn s splitters = (s.takeWhile tokch).length := by
  unfold strcspn; rw [reject_eq_tokch]

theorem strtok_none {s : List Char} (h : tok_at s = []) :
    strtok s splitters = (none, s.dropWhile blank) := by
  have h2 := (tok_at_eq_nil_iff s).1 h
  simp only [strtok, strspn_splitters, drop_length_takeWhile, h2, beq_self_eq_true, if_true]

theorem strtok_some {s : List Char} (h : tok_at s ≠ []) :
    strtok s splitters =
      (some (tok_at s ++ (tok_end s).set 0 NUL),
        if peek (tok_end s) 0 = NUL then tok_end s else (tok_end s).drop 1) := by
  have h2 : peek (s.dropWhile blank) 0 ≠ NUL := fun e => h ((tok_at_eq_nil_iff s).2 e)
  have hs := tok_at_append_tok_end s
  have hn : strcspn (s.dropWhile blank) splitters = (tok_at s).length := by
    rw [strcspn_splitters]; rfl
  have hd : (s.dropWhile blank).drop (tok_at s).length = tok_end s := by
    simp [tok_at, tok_end, drop_length_takeWhile]
  have hp : peek (s.dropWhile blank) (tok_at s).length = peek (tok_end s) 0 := by
    conv_lhs => rw [← hs]
    exact peek_append_length _ _
  simp only [strtok, strspn_splitters, drop_length_takeWhile, hn, hp, beq_iff_eq, h2,
    if_false]
  by_cases he : peek (tok_end s) 0 = NUL
  · simp only [he, if_true, hd]
    congr 2
    conv_lhs => rw [← hs]
    congr 1
    cases hte : tok_end s with
    | nil => rfl
    | cons c r =>
      rw [hte] at he
      simp only [peek_zero_cons] at he
      simp [he]
  · simp only [he, if_false]
    congr 1
    · congr 1
      conv_lhs => rw [← hs]
      rw [List.set_append_right _ _ (le_refl _)]
      simp
    · rw [← hd, List.drop_drop]

/-! ## The trimming loops -/

theorem strlen_cons_NUL (p : List Char) : strlen (NUL :: p) = 0 := by
  simp [strlen, cstr_cons_NUL]

theorem strlen_cons_of_ne {c : Char} (h : c ≠ NUL) (p : List Char) :
    strlen (c :: p) = strlen p + 1 := by
  simp [strlen, cstr_cons_of_ne h]

theorem trim_left_eq (buf : List Char) : ∀ n, strlen buf ≤ n →
    trim_left n buf (strlen buf) = (buf.dropWhile blank, strlen (buf.dropWhile blank)) := by
  induction buf with
  | nil => intro n _; cases n <;> simp [trim_left, strlen, cstr]
  | cons c buf ih =>
    intro n hn
    by_cases hc : c = NUL
    · subst hc
      cases n <;> simp [trim_left, strlen_cons_NUL, List.dropWhile_cons, NUL_not_blank]
    · rw [strlen_cons_of_ne hc] at hn ⊢
      obtain ⟨n, rfl⟩ : ∃ m, n = m + 1 := ⟨n - 1, by omega⟩
      by_cases hb : blank c = true
      · have := ih n (by omega)
        simp [trim_left, strchr_splitters, peek, hb, List.dropWhile_cons, this]
      · simp [trim_left, strchr_splitters, peek, hb, hc, List.dropWhile_cons,
          strlen_cons_of_ne hc]

theorem trim_right_succ (n : Nat) (buf : List Char) (len : Nat) :
    trim_right (n + 1) buf len =
      if (decide (len > 0) && strchr splitters (peek buf (len - 1))) = true then
        trim_right n (buf.set (len - 1) NUL) (len - 1)
      else (buf, len) := rfl

theorem trim_right_eq (s : List Char) : ∀ (tl : List Char) (n : Nat), NUL ∉ s → s.length ≤ n →
    trim_right n (s ++ tl) s.length = (rtrim_mem s tl, (s.rdropWhile blank).length) := by
  induction s using List.reverseRecOn with
  | nil => intro tl n _ _; cases n <;> simp [trim_right, rtrim_mem]
  | append_singleton s c ih =>
    intro tl n hs hn
    have hc : c ≠ NUL := fun e => hs (by simp [e])
    have hs2 : NUL ∉ s := fun h => hs (by simp [h])
    simp only [List.length_append, List.length_singleton] at hn ⊢
    obtain ⟨n, rfl⟩ : ∃ m, n = m + 1 := ⟨n - 1, by omega⟩
    have hpk : peek (s ++ [c] ++ tl) s.length = c := by
      rw [List.append_assoc, peek_append_length]; rfl
    rw [trim_right_succ, Nat.add_sub_cancel, hpk, strchr_splitters]
    by_cases hb : blank c = true
    · have hset : (s ++ [c] ++ tl).set s.length NUL = s ++ NUL :: tl := by
        rw [List.append_assoc, List.set_append_right _ _ (le_refl _)]
        simp
      have := ih (NUL :: tl) n hs2 (by omega)
      simp only [hb, Bool.or_true, Bool.and_true, Nat.succ_pos, decide_True, if_true, hset,
        this, gt_iff_lt]
      simp only [rtrim_mem, List.rdropWhile_concat_pos _ _ _ hb, List.length_append,
        List.length_singleton, Prod.mk.injEq, and_true]
      have hle : (s.rdropWhile blank).length ≤ s.length :=
        (List.rdropWhile_prefix blank s).length_le
      have : s.length + 1 - (s.rdropWhile blank).length
          = (s.length - (s.rdropWhile blank).length) + 1 := by omega
      rw [this, List.replicate_succ']
      simp
    · have hb' : blank c = false := by simpa using hb
      have hcb : (c == NUL) = false := by simpa using hc
      simp only [hb', hcb, Bool.or_false, Bool.and_false, if_false, Bool.false_eq_true]
      simp [rtrim_mem, List.rdropWhile_concat_neg _ _ _ hb]

theorem skip_blanks_succ (pch : List Char) (fuel index : Nat) :
    skip_blanks pch (fuel + 1) index =
      if blank (peek pch index) = true then skip_blanks pch fuel (index + 1) else index := rfl

theorem skip_blanks_eq (pch : List Char) : ∀ (fuel index : Nat), pch.length ≤ fuel + index →
    skip_blanks pch fuel index = index + ((pch.drop index).takeWhile blank).length := by
  intro fuel
  induction fuel with
  | zero =>
    intro index h
    simp [skip_blanks, List.drop_of_length_le (by omega : pch.length ≤ index)]
  | succ fuel ih =>
    intro index h
    rw [skip_blanks_succ]
    by_cases hi : index < pch.length
    · have hd : pch.drop index = peek pch index :: pch.drop (index + 1) := by
        rw [List.drop_eq_getElem_cons hi]
        congr 1
        simp [peek, List.getD_eq_getElem?_getD, List.getElem?_eq_getElem hi]
      rw [hd]
      by_cases hb : blank (peek pch index) = true
      · rw [if_pos hb, ih (index + 1) (by omega), List.takeWhile_cons, if_pos hb,
          List.length_cons]
        omega
      · rw [if_neg hb, List.takeWhile_cons, if_neg hb]; rfl
    · have hp : peek pch index = NUL :=
        List.getD_eq_default _ _ (by omega : pch.length ≤ index)
      rw [hp, NUL_not_blank, List.drop_of_length_le (by omega : pch.length ≤ index)]
      rfl

/-! ## What one iteration of the loop does -/

theorem peek_append_NUL (t : List Char) (i : Nat) : peek (t ++ [NUL]) i = peek t i := by
  rcases Nat.lt_trichotomy i t.length with h | h | h
  · simp [peek, List.getD_eq_getElem?_getD, List.getElem?_append_left h]
  · subst h
    rw [peek_append_length]
    exact (List.getD_eq_default _ _ (le_refl _)).symm
  · rw [peek, peek, List.getD_eq_default _ _ (by simp; omega),
      List.getD_eq_default _ _ (by omega)]

theorem dropWhile_blank_of_tok {t : List Char} (ht : t ≠ []) (h : ∀ c ∈ t, tokch c = true)
    (p : List Char) : (t ++ p).dropWhile blank = t ++ p := by
  cases t with
  | nil => exact absurd rfl ht
  | cons c t =>
    have := (tokch_iff.1 (h c (by simp))).2
    simp [List.dropWhile_cons, this]

theorem rdropWhile_blank_of_tok {t : List Char} (h : ∀ c ∈ t, tokch c = true) :
    t.rdropWhile blank = t := by
  induction t using List.reverseRecOn with
  | nil => rfl
  | append_singleton t c _ =>
    have := (tokch_iff.1 (h c (by simp))).2
    exact List.rdropWhile_concat_neg _ _ _ (by simp [this])

theorem trim_token {t : List Char} (ht : t ≠ []) (h : ∀ c ∈ t, tokch c = true) :
    trim_left t.length (t ++ [NUL]) t.length = (t ++ [NUL], t.length) ∧
    trim_right t.length (t ++ [NUL]) t.length = (t ++ [NUL], t.length) := by
  have hN := not_mem_of_all_tokch h
  have hl : strlen (t ++ [NUL]) = t.length := by simp [strlen, cstr_append_NUL hN]
  constructor
  · have := trim_left_eq (t ++ [NUL]) t.length (by omega)
    rw [hl, dropWhile_blank_of_tok ht h, hl] at this
    exact this
  · have := trim_right_eq t [NUL] t.length hN (le_refl _)
    simpa [rtrim_mem, rdropWhile_blank_of_tok h] using this

theorem parsed_token_pipe (call : List Char → command_t → command_t × List Char)
    (fresh : command_t)
    (pch olds : List Char) (command : command_t) (arg_index : Nat)
    (hp : cstr pch = ['|']) :
    parsed_token call fresh pch olds command arg_index =
      ({ command with next := some (call ((pch.drop 2).dropWhile blank) fresh).1 },
        arg_index, (call ((pch.drop 2).dropWhile blank) fresh).2) := by
  have htok : ∀ c ∈ ['|'], tokch c = true := by decide
  have htr := trim_token (t := ['|']) (by simp) htok
  have hd : (pch.set 1 ' ').drop (skip_blanks (pch.set 1 ' ') (pch.set 1 ' ').length 1)
      = (pch.drop 2).dropWhile blank := by
    rw [skip_blanks_eq _ _ _ (by omega), ← List.drop_drop, drop_length_takeWhile]
    cases pch with
    | nil => rfl
    | cons a tl =>
      cases tl with
      | nil => rfl
      | cons b r => simp [List.dropWhile_cons, blank]
  have hl : strlen pch = 1 := by simp [strlen, hp]
  have h1 : strcpy pch = ['|'] ++ [NUL] := by simp [strcpy, hp]
  have h2 : strlen (['|'] ++ [NUL]) = 1 := by decide
  have h3 : peek splitters 0 = ' ' := by decide
  have h4 : strcmp_eq (['|'] ++ [NUL]) ['|'] = true := by decide
  simp only [parsed_token, h1, h2, htr.1, htr.2, List.length_singleton, h4, hl, h3, hd]
  rfl

theorem cstr_drop_of_tok {t : List Char} (hN : NUL ∉ t) {k : Nat} (hk : k ≤ t.length) :
    cstr ((t ++ [NUL]).drop k) = t.drop k := by
  rw [List.drop_append_of_le_length hk]
  exact cstr_append_NUL (fun h => hN (List.mem_of_mem_drop h)) []

theorem peek_ne_NUL_lt {t : List Char} {i : Nat} (h : peek t i ≠ NUL) : i < t.length := by
  by_contra hc
  exact h (List.getD_eq_default _ _ (by omega))

theorem cstr_unquoted {t : List Char} (hN : NUL ∉ t) (h : 2 < t.length) :
    cstr (((t ++ [NUL]).set (t.length - 1) NUL).drop 1) = t.dropLast.drop 1 := by
  have hne : t ≠ [] := by intro e; simp [e] at h
  obtain ⟨d, c, rfl⟩ : ∃ d c, t = d ++ [c] :=
    ⟨t.dropLast, t.getLast hne, (List.dropLast_append_getLast hne).symm⟩
  have hd : 1 ≤ d.length := by simp at h; omega
  have hN2 : NUL ∉ d := fun hm => hN (by simp [hm])
  have h1 : (d ++ [c]).length - 1 = d.length := by simp
  rw [h1, List.append_assoc, List.set_append_right _ _ (le_refl _), List.dropLast_concat,
    List.drop_append_of_le_length hd, Nat.sub_self]
  exact cstr_append_NUL (fun hm => hN2 (List.mem_of_mem_drop hm)) [NUL]

theorem parsed_token_step (call : List Char → command_t → command_t × List Char)
    (fresh : command_t)
    (pch olds : List Char) (command : command_t) (arg_index : Nat)
    (hne : cstr pch ≠ []) (htok : ∀ c ∈ cstr pch, tokch c = true) (hp : cstr pch ≠ ['|']) :
    parsed_token call fresh pch olds command arg_index =
      ((token_step (cstr pch) command arg_index).1,
        (token_step (cstr pch) command arg_index).2, olds) := by
  generalize ht : cstr pch = t at hne htok hp
  have hN := not_mem_of_all_tokch htok
  have htr := trim_token hne htok
  have hlen : 0 < t.length := List.length_pos.2 hne
  have h1 : strcpy pch = t ++ [NUL] := by simp [strcpy, ht]
  have h2 : strlen (t ++ [NUL]) = t.length := by simp [strlen, cstr_append_NUL hN]
  have h3 : (t.length == 0) = false := by rw [beq_eq_false_iff_ne]; omega
  have h4 : strcmp_eq (t ++ [NUL]) ['|'] = false := by
    simp [strcmp_eq, cstr_append_NUL hN, hp]
  have h5 : strcmp_eq (t ++ [NUL]) ['&'] = decide (t = ['&']) := by
    rw [strcmp_eq, cstr_append_NUL hN]
    by_cases h : t = ['&'] <;> simp [h]
  have hd1 : cstr (t ++ [NUL]).tail = t.tail := by
    rw [← List.drop_one, ← List.drop_one]
    exact cstr_drop_of_tok hN (by omega)
  simp only [parsed_token, h1, h2, h3, htr.1, htr.2, h4, h5, peek_append_NUL, Bool.false_eq_true,
    if_false]
  unfold token_step
  by_cases ha : t = ['&']
  · simp [ha]
  · simp only [ha, decide_False, Bool.false_eq_true, if_false]
    by_cases hlt : peek t 0 = '<'
    · have hgt : ¬ (peek t 0 = '>') := by rw [hlt]; decide
      simp [hlt, hd1]
    · by_cases hgt : peek t 0 = '>'
      · by_cases hgg : peek t 1 = '>'
        · have : 1 < t.length := peek_ne_NUL_lt (by rw [hgg]; decide)
          simp [hlt, hgt, hgg, this, cstr_drop_of_tok hN (k := 2) (by omega)]
        · simp [hlt, hgt, hgg, hd1]
      · have hneg : ((-1 : Int) != -1) = false := by decide
        have hq : cstr (if (decide (t.length > 2) &&
              (peek t 0 == '"' && peek t (t.length - 1) == '"' ||
                peek t 0 == '\'' && peek t (t.length - 1) == '\'')) = true
            then List.drop 1 ((t ++ [NUL]).set (t.length - 1) NUL) else t ++ [NUL])
            = unquote t := by
          unfold unquote
          by_cases hc : 2 < t.length ∧ ((peek t 0 = '"' ∧ peek t (t.length - 1) = '"') ∨
              (peek t 0 = '\'' ∧ peek t (t.length - 1) = '\''))
          · rw [if_pos hc, if_pos (by simpa using hc)]
            exact cstr_unquoted hN hc.1
          · rw [if_neg hc, if_neg (by simpa using hc)]
            exact cstr_append_NUL hN []
        simp only [hlt, hgt, beq_iff_eq, if_false, hneg, Bool.false_eq_true, peek_append_NUL]
        rw [hq]

/-! ## The tokens of a buffer -/

theorem tok_length_le (s : List Char) : (tok_at s).length + (tok_end s).length ≤ s.length := by
  have h := congrArg List.length (tok_at_append_tok_end s)
  have h2 : (s.dropWhile blank).length ≤ s.length := (List.dropWhile_suffix blank).length_le
  simp only [List.length_append] at h
  omega

theorem tok_at_of_peek_NUL {s : List Char} (h : peek s 0 = NUL) : tok_at s = [] := by
  cases s with
  | nil => rfl
  | cons c r =>
    simp only [peek_zero_cons] at h
    subst h
    rfl

theorem dropWhile_of_peek_NUL {s : List Char} (h : peek s 0 = NUL) : s.dropWhile blank = s := by
  cases s with
  | nil => rfl
  | cons c r =>
    simp only [peek_zero_cons] at h
    subst h
    rfl

theorem tokens_fuel_of_peek_NUL {s : List Char} (h : peek s 0 = NUL) (n : Nat) :
    tokens_fuel n s = [] := by
  cases n with
  | zero => rfl
  | succ n => simp [tokens_fuel, tok_at_of_peek_NUL h]

theorem peek_tok_end_set (s : List Char) : peek ((tok_end s).set 0 NUL) 0 = NUL := by
  cases tok_end s <;> rfl

theorem cstr_append_of_peek_NUL {s : List Char} (h : NUL ∉ s) {p : List Char}
    (hp : peek p 0 = NUL) : cstr (s ++ p) = s := by
  cases p with
  | nil => simpa using cstr_of_not_mem h
  | cons c r =>
    simp only [peek_zero_cons] at hp
    subst hp
    exact cstr_append_NUL h r

theorem cstr_pch (s : List Char) : cstr (tok_at s ++ (tok_end s).set 0 NUL) = tok_at s :=
  cstr_append_of_peek_NUL (not_mem_of_all_tokch (all_tokch_takeWhile _)) (peek_tok_end_set s)

theorem drop_pch (s : List Char) :
    (tok_at s ++ (tok_end s).set 0 NUL).drop ((tok_at s).length + 1) = (tok_end s).drop 1 := by
  rw [← List.drop_drop, List.drop_left]
  cases tok_end s <;> rfl

theorem parsed_loop_of_peek_NUL (call : List Char → command_t → command_t × List Char)
    (fresh : command_t)
    {olds : List Char} (h : peek olds 0 = NUL) (n : Nat) (command : command_t) (arg_index : Nat) :
    parsed_loop call fresh n olds command arg_index = (command, arg_index, olds) := by
  cases n with
  | zero => rfl
  | succ n =>
    simp only [parsed_loop, strtok_none (tok_at_of_peek_NUL h), dropWhile_of_peek_NUL h]

theorem parsed_loop_succ (call : List Char → command_t → command_t × List Char)
    (fresh : command_t)
    (n : Nat) (olds : List Char) (command : command_t) (arg_index : Nat) :
    parsed_loop call fresh (n + 1) olds command arg_index =
      match strtok olds splitters with
      | (none, olds) => (command, arg_index, olds)
      | (some pch, olds) =>
        parsed_loop call fresh n (parsed_token call fresh pch olds command arg_index).2.2
          (parsed_token call fresh pch olds command arg_index).1
          (parsed_token call fresh pch olds command arg_index).2.1 := by
  rw [parsed_loop]

/-- The loop of `parsed` computes what `stage_fold` says about the tokens behind the
hidden pointer, and with enough iterations it leaves the hidden pointer at a terminator. -/
theorem parsed_loop_eq (call : List Char → command_t → command_t × List Char)
    (fresh : command_t) (N : Nat)
    (hcall : ∀ p c, p.length < N → peek (call p c).2 0 = NUL) :
    ∀ (n : Nat) (olds : List Char) (command : command_t) (arg_index : Nat), olds.length ≤ N →
      ((parsed_loop call fresh n olds command arg_index).1,
          (parsed_loop call fresh n olds command arg_index).2.1) =
        stage_fold (fun p c => (call p c).1) fresh (tokens_fuel n olds) command arg_index ∧
      (olds.length < n → peek (parsed_loop call fresh n olds command arg_index).2.2 0 = NUL) := by
  intro n
  induction n with
  | zero =>
    intro olds command arg_index _
    exact ⟨rfl, fun h => absurd h (Nat.not_lt_zero _)⟩
  | succ n ih =>
    intro olds command arg_index hN
    have hlen := tok_length_le olds
    by_cases ht : tok_at olds = []
    · rw [parsed_loop_succ, strtok_none ht]
      simp only [tokens_fuel, ht, if_true, stage_fold, true_and]
      exact fun _ => (tok_at_eq_nil_iff olds).1 ht
    · have hpos : 0 < (tok_at olds).length := List.length_pos.2 ht
      rw [parsed_loop_succ, strtok_some ht]
      simp only [tokens_fuel, ht, if_false]
      by_cases hp : tok_at olds = ['|']
      · have hc := cstr_pch olds
        rw [hp] at hc
        have hd := drop_pch olds
        rw [hp] at hd
        simp only [List.length_singleton] at hd
        have hsh : ((tok_end olds).drop 1).length < N := by
          simp only [List.length_drop]; omega
        have hsh2 : (((tok_end olds).drop 1).dropWhile blank).length < N :=
          lt_of_le_of_lt (List.dropWhile_suffix blank).length_le hsh
        have hq := hcall _ fresh hsh2
        simp only [hp, parsed_token_pipe call fresh _ _ command arg_index hc, hd,
          parsed_loop_of_peek_NUL call fresh hq, stage_fold, if_true, true_and]
        exact fun _ => hq
      · have hc := cstr_pch olds
        have hstep := parsed_token_step call fresh (tok_at olds ++ (tok_end olds).set 0 NUL)
          (if peek (tok_end olds) 0 = NUL then tok_end olds else (tok_end olds).drop 1)
          command arg_index (by rw [hc]; exact ht) (by rw [hc]; exact all_tokch_takeWhile _)
          (by rw [hc]; exact hp)
        rw [hc] at hstep
        simp only [hstep, stage_fold, hp, if_false]
        by_cases he : peek (tok_end olds) 0 = NUL
        · simp only [he, if_true]
          have := ih (tok_end olds) (token_step (tok_at olds) command arg_index).1
            (token_step (tok_at olds) command arg_index).2 (by omega)
          rw [tokens_fuel_of_peek_NUL he] at this
          refine ⟨this.1, fun h => this.2 (by omega)⟩
        · simp only [he, if_false]
          have hl : ((tok_end olds).drop 1).length ≤ (tok_end olds).length := by
            simp only [List.length_drop]; omega
          have := ih ((tok_end olds).drop 1) (token_step (tok_at olds) command arg_index).1
            (token_step (tok_at olds) command arg_index).2 (by omega)
          refine ⟨this.1, fun h => this.2 (by omega)⟩

/-! ## One call of parsed -/

theorem parsed_fuel_succ (n : Nat) (malloc : Nat → command_t) (buf : List Char)
    (command : command_t)
    {b1 b2 olds : List Char} {l1 l2 : Nat} {pch : Option (List Char)}
    (h1 : trim_left (strlen buf) buf (strlen buf) = (b1, l1))
    (h2 : trim_right l1 b1 l1 = (b2, l2))
    (h3 : strtok b2 splitters = (pch, olds)) :
    parsed_fuel (n + 1) malloc buf command =
      (finish
        (parsed_loop (parsed_fuel n (later malloc)) (malloc 0) (olds.length + 1) olds
          { set_name pch (set_flags b2 l2 command) with args := realloc [] 1 } 0).1
        (parsed_loop (parsed_fuel n (later malloc)) (malloc 0) (olds.length + 1) olds
          { set_name pch (set_flags b2 l2 command) with args := realloc [] 1 } 0).2.1,
       (parsed_loop (parsed_fuel n (later malloc)) (malloc 0) (olds.length + 1) olds
          { set_name pch (set_flags b2 l2 command) with args := realloc [] 1 } 0).2.2) := by
  rw [parsed_fuel]
  simp only [h1, h2, h3]

theorem tokens_fuel_irrel : ∀ (n m : Nat) (s : List Char), s.length ≤ n → s.length ≤ m →
    tokens_fuel n s = tokens_fuel m s := by
  intro n
  induction n with
  | zero =>
    intro m s hn _
    have : s = [] := List.length_eq_zero.1 (Nat.le_zero.1 hn)
    subst this
    cases m <;> rfl
  | succ n ih =>
    intro m s hn hm
    by_cases ht : tok_at s = []
    · cases m with
      | zero => simp [tokens_fuel, ht]
      | succ m => simp [tokens_fuel, ht]
    · have hlen := tok_length_le s
      have hpos : 0 < (tok_at s).length := List.length_pos.2 ht
      obtain ⟨m, rfl⟩ : ∃ k, m = k + 1 := ⟨m - 1, by omega⟩
      have hl : ((tok_end s).drop 1).length ≤ (tok_end s).length := by
        simp only [List.length_drop]; omega
      simp only [tokens_fuel, ht, if_false]
      rw [ih m ((tok_end s).drop 1) (by omega) (by omega)]

theorem tokens_fuel_eq {n : Nat} {s : List Char} (h : s.length ≤ n) :
    tokens_fuel n s = tokens s :=
  tokens_fuel_irrel n s.length s h (le_refl _)

theorem tokens_of_tok_at_nil {s : List Char} (h : tok_at s = []) : tokens s = [] := by
  unfold tokens
  cases s.length <;> simp [tokens_fuel, h]

theorem tokens_of_tok_at {s : List Char} (h : tok_at s ≠ []) :
    tokens s = (tok_at s, (tok_end s).drop 1) ::
      (if peek (tok_end s) 0 = NUL then [] else tokens ((tok_end s).drop 1)) := by
  have hlen := tok_length_le s
  have hpos : 0 < (tok_at s).length := List.length_pos.2 h
  have hl : ((tok_end s).drop 1).length ≤ (tok_end s).length := by
    simp only [List.length_drop]; omega
  rw [← tokens_fuel_eq (n := s.length - 1 + 1) (by omega)]
  simp only [tokens_fuel, h, if_false]
  rw [tokens_fuel_eq (by omega)]

theorem cstr_trimmed (buf : List Char) :
    cstr (trimmed buf) = (cstr (buf.dropWhile blank)).rdropWhile blank := by
  unfold trimmed rtrim_mem
  rw [List.append_assoc]
  apply cstr_append_of_peek_NUL
  · exact fun h => not_mem_cstr _ ((List.rdropWhile_prefix blank _).subset h)
  · cases hk : (cstr (buf.dropWhile blank)).length -
        ((cstr (buf.dropWhile blank)).rdropWhile blank).length with
    | zero => simpa using peek_drop_strlen _
    | succ k => rfl

theorem length_trimmed (buf : List Char) : (trimmed buf).length ≤ buf.length := by
  have h1 : (buf.dropWhile blank).length ≤ buf.length := (List.dropWhile_suffix blank).length_le
  have h2 := congrArg List.length (cstr_append_drop (buf.dropWhile blank))
  have h3 : ((cstr (buf.dropWhile blank)).rdropWhile blank).length
      ≤ (cstr (buf.dropWhile blank)).length := (List.rdropWhile_prefix blank _).length_le
  unfold trimmed rtrim_mem
  simp only [List.length_append, List.length_replicate] at h2 ⊢
  omega

theorem trims_eq (buf : List Char) :
    trim_left (strlen buf) buf (strlen buf)
      = (buf.dropWhile blank, strlen (buf.dropWhile blank)) ∧
    trim_right (strlen (buf.dropWhile blank)) (buf.dropWhile blank)
        (strlen (buf.dropWhile blank))
      = (trimmed buf, strlen (trimmed buf)) := by
  refine ⟨trim_left_eq buf _ (le_refl _), ?_⟩
  have h := trim_right_eq (cstr (buf.dropWhile blank))
    ((buf.dropWhile blank).drop (strlen (buf.dropWhile blank))) (strlen (buf.dropWhile blank))
    (not_mem_cstr _) (le_refl _)
  rw [cstr_append_drop] at h
  rw [show strlen (trimmed buf) = ((cstr (buf.dropWhile blank)).rdropWhile blank).length from by
    rw [strlen, cstr_trimmed]]
  exact h

theorem tokens_fuel_rest_lt : ∀ (n : Nat) (s : List Char), ∀ x ∈ tokens_fuel n s,
    x.2.length < s.length := by
  intro n
  induction n with
  | zero => intro s x hx; simp [tokens_fuel] at hx
  | succ n ih =>
    intro s x hx
    by_cases ht : tok_at s = []
    · simp [tokens_fuel, ht] at hx
    · have hlen := tok_length_le s
      have hpos : 0 < (tok_at s).length := List.length_pos.2 ht
      have hl : ((tok_end s).drop 1).length ≤ (tok_end s).length := by
        simp only [List.length_drop]; omega
      simp only [tokens_fuel, ht, if_false, List.mem_cons] at hx
      rcases hx with rfl | hx
      · show ((tok_end s).drop 1).length < s.length
        omega
      · by_cases he : peek (tok_end s) 0 = NUL
        · simp [he] at hx
        · simp only [he, if_false] at hx
          have := ih _ x hx
          omega

theorem tokens_rest_lt {s : List Char} {x : List Char × List Char} (hx : x ∈ tokens s) :
    x.2.length < s.length :=
  tokens_fuel_rest_lt _ s x hx

theorem stage_fold_congr {call1 call2 : List Char → command_t → command_t}
    (fresh : command_t) :
    ∀ (T : List (List Char × List Char)) (command : command_t) (arg_index : Nat),
      (∀ x ∈ T, ∀ c, call1 (x.2.dropWhile blank) c = call2 (x.2.dropWhile blank) c) →
      stage_fold call1 fresh T command arg_index =
        stage_fold call2 fresh T command arg_index := by
  intro T
  induction T with
  | nil => intro _ _ _; rfl
  | cons x T ih =>
    intro command arg_index h
    obtain ⟨t, rest⟩ := x
    by_cases hp : t = ['|']
    · simp only [stage_fold, hp, if_true]
      rw [h (t, rest) (by simp)]
    · simp only [stage_fold, hp, if_false]
      exact ih _ _ (fun x hx c => h x (List.mem_cons_of_mem _ hx) c)

/-- One call of `parsed` in terms of `parse_stage`, provided the nested calls leave the
hidden pointer of `strtok` at a terminator. -/
theorem parsed_fuel_stage (n : Nat) (malloc : Nat → command_t) (buf : List Char)
    (command : command_t)
    (hcall : ∀ p c, p.length < buf.length →
      peek (parsed_fuel n (later malloc) p c).2 0 = NUL) :
    (parsed_fuel (n + 1) malloc buf command).1
        = parse_stage (fun p c => (parsed_fuel n (later malloc) p c).1) (malloc 0) buf
            command ∧
      peek (parsed_fuel (n + 1) malloc buf command).2 0 = NUL := by
  have htr := trims_eq buf
  have hlt := length_trimmed buf
  by_cases ht : tok_at (trimmed buf) = []
  · have hst := strtok_none ht
    have hpk := (tok_at_eq_nil_iff _).1 ht
    rw [parsed_fuel_succ n malloc buf command htr.1 htr.2 hst,
      parsed_loop_of_peek_NUL _ _ hpk]
    refine ⟨?_, hpk⟩
    simp only [parse_stage, tokens_of_tok_at_nil ht, List.tail_nil, stage_fold, set_name]
  · have hst := strtok_some ht
    have hlen := tok_length_le (trimmed buf)
    have hpos : 0 < (tok_at (trimmed buf)).length := List.length_pos.2 ht
    have hl : ((tok_end (trimmed buf)).drop 1).length ≤ (tok_end (trimmed buf)).length := by
      simp only [List.length_drop]; omega
    generalize hgo : (if peek (tok_end (trimmed buf)) 0 = NUL then tok_end (trimmed buf)
        else (tok_end (trimmed buf)).drop 1) = olds at hst
    have holds : olds.length ≤ buf.length := by
      rw [← hgo]; split <;> omega
    have htk : tokens_fuel (olds.length + 1) olds = (tokens (trimmed buf)).tail := by
      rw [tokens_of_tok_at ht, List.tail_cons, ← hgo]
      by_cases he : peek (tok_end (trimmed buf)) 0 = NUL
      · simp only [he, if_true]
        exact tokens_fuel_of_peek_NUL he _
      · simp only [he, if_false]
        exact tokens_fuel_eq (Nat.le_succ _)
    rw [parsed_fuel_succ n malloc buf command htr.1 htr.2 hst]
    have hloop := parsed_loop_eq (parsed_fuel n (later malloc)) (malloc 0) buf.length hcall (olds.length + 1) olds
      { set_name (some (tok_at (trimmed buf) ++ (tok_end (trimmed buf)).set 0 NUL))
          (set_flags (trimmed buf) (strlen (trimmed buf)) command) with args := realloc [] 1 }
      0 holds
    rw [htk] at hloop
    refine ⟨?_, hloop.2 (Nat.lt_succ_self _)⟩
    have h1 := congrArg Prod.fst hloop.1
    have h2 := congrArg Prod.snd hloop.1
    simp only at h1 h2
    rw [h1, h2]
    simp only [parse_stage, tokens_of_tok_at ht, set_name, cstr_pch, List.tail_cons]

theorem parse_stage_congr {call1 call2 : List Char → command_t → command_t}
    (fresh : command_t) (buf : List Char) (command : command_t)
    (h : ∀ p c, p.length < buf.length → call1 p c = call2 p c) :
    parse_stage call1 fresh buf command = parse_stage call2 fresh buf command := by
  unfold parse_stage
  simp only
  rw [stage_fold_congr]
  intro x hx c
  apply h
  have h1 := tokens_rest_lt (List.mem_of_mem_tail hx)
  have h2 := length_trimmed buf
  have h3 : (x.2.dropWhile blank).length ≤ x.2.length := (List.dropWhile_suffix blank).length_le
  omega

/-- The bound on the nesting of recursive calls is never reached: with any bound above the
length of the buffer `parsed` gives the same command, and it leaves the hidden pointer
of `strtok` at a terminator. -/
theorem parsed_fuel_ok : ∀ (L : Nat) (buf : List Char), buf.length = L →
    ∀ (n m : Nat) (malloc : Nat → command_t) (command : command_t), L < n → L < m →
      peek (parsed_fuel n malloc buf command).2 0 = NUL ∧
      (parsed_fuel n malloc buf command).1 = (parsed_fuel m malloc buf command).1 := by
  intro L
  induction L using Nat.strong_induction_on with
  | _ L ih =>
    intro buf hL n m malloc command hn hm
    obtain ⟨n, rfl⟩ : ∃ k, n = k + 1 := ⟨n - 1, by omega⟩
    obtain ⟨m, rfl⟩ : ∃ k, m = k + 1 := ⟨m - 1, by omega⟩
    have hcn : ∀ p c, p.length < buf.length →
        peek (parsed_fuel n (later malloc) p c).2 0 = NUL :=
      fun p c hp => (ih p.length (by omega) p rfl n n _ c (by omega) (by omega)).1
    have hcm : ∀ p c, p.length < buf.length →
        peek (parsed_fuel m (later malloc) p c).2 0 = NUL :=
      fun p c hp => (ih p.length (by omega) p rfl m m _ c (by omega) (by omega)).1
    have h1 := parsed_fuel_stage n malloc buf command hcn
    have h2 := parsed_fuel_stage m malloc buf command hcm
    refine ⟨h1.2, ?_⟩
    rw [h1.1, h2.1]
    apply parse_stage_congr
    intro p c hp
    exact (ih p.length (by omega) p rfl n m _ c (by omega) (by omega)).2

/-- One call of `parsed`: the command it leaves is the one `parse_stage` describes,
the calls for the commands behind a `|` being calls of `parsed` again. -/
theorem parsed_eq (malloc : Nat → command_t) (buf : List Char) (command : command_t) :
    parsed malloc buf command =
      parse_stage (parsed (later malloc)) (malloc 0) buf command := by
  have hc : ∀ p c, p.length < buf.length →
      peek (parsed_fuel buf.length (later malloc) p c).2 0 = NUL :=
    fun p c hp => (parsed_fuel_ok p.length p rfl _ _ _ c hp hp).1
  unfold parsed
  rw [(parsed_fuel_stage buf.length malloc buf command hc).1]
  apply parse_stage_congr
  intro p c hp
  exact (parsed_fuel_ok p.length p rfl _ _ _ c hp (Nat.lt_succ_self _)).2

/-! ## The fields of the command that one call leaves -/

theorem chain_eq (c : command_t) :
    chain c = c :: (match c.next with
      | none => []
      | some n => chain n) := by
  obtain ⟨_, _, _, _, _, _, nx⟩ := c
  cases nx <;> simp [chain]

theorem length_realloc (a : List (Option (List Char))) (n : Nat) : (realloc a n).length = n := by
  simp only [realloc, List.length_append, List.length_take, List.length_replicate]
  omega

theorem realloc_succ (a : List (Option (List Char))) (n : Nat) :
    realloc a (n + 1) = realloc a n ++ [a.getD n none] := by
  unfold realloc
  by_cases h : n < a.length
  · have h1 : n + 1 - a.length = 0 := by omega
    have h2 : n - a.length = 0 := by omega
    rw [h1, h2]
    simp only [List.replicate_zero, List.append_nil]
    rw [List.take_succ, List.getD_eq_getElem?_getD, List.getElem?_eq_getElem h]
    rfl
  · have h1 : n + 1 - a.length = (n - a.length) + 1 := by omega
    rw [h1, List.replicate_succ', List.take_of_length_le (by omega),
      List.take_of_length_le (by omega), List.getD_eq_default _ _ (by omega),
      List.append_assoc]

theorem realloc_set (a : List (Option (List Char))) (n : Nat) (v : Option (List Char)) :
    (realloc a (n + 1)).set n v = realloc a n ++ [v] := by
  rw [realloc_succ]
  have := length_realloc a n
  rw [List.set_append_right _ _ (by omega), this, Nat.sub_self]
  rfl

theorem realloc_self {a : List (Option (List Char))} {n : Nat} (h : a.length = n) :
    realloc a n = a := by
  unfold realloc
  rw [List.take_of_length_le (by omega), show n - a.length = 0 by omega]
  simp

theorem realloc_add_two {a : List (Option (List Char))} {n : Nat} (h : a.length = n) :
    realloc a (n + 2) = a ++ [none, none] := by
  unfold realloc
  rw [List.take_of_length_le (by omega), show n + 2 - a.length = 2 by omega]
  rfl

theorem token_step_fields (t : List Char) (command : command_t) (arg_index : Nat) :
    token_step t command arg_index =
      ({ command with
          args := match plain_arg t with
            | none => command.args
            | some u => realloc command.args arg_index ++ [some u]
          redirects := redirect_step command.redirects t },
        arg_index + (plain_arg t).toList.length) := by
  unfold token_step plain_arg redirect_step
  by_cases ha : t = ['&']
  · subst ha
    have h1 : ¬ (peek ['&'] 0 = '<') := by decide
    have h2 : ¬ (peek ['&'] 0 = '>') := by decide
    simp only [h1, h2, if_true, if_false, true_or, Option.toList_none, List.length_nil,
      Nat.add_zero]
    cases command; rfl
  · by_cases hlt : peek t 0 = '<'
    · have hgt : ¬ (peek t 0 = '>') := by rw [hlt]; decide
      simp [ha, hlt]
    · by_cases hgt : peek t 0 = '>'
      · by_cases hgg : peek t 1 = '>' <;> simp [ha, hlt, hgt, hgg]
      · simp [ha, hlt, hgt, realloc_set]

theorem steps_nil (command : command_t) (arg_index : Nat) :
    steps [] command arg_index = (command, arg_index) := rfl

theorem steps_cons (t : List Char) (ts : List (List Char)) (command : command_t)
    (arg_index : Nat) :
    steps (t :: ts) command arg_index =
      steps ts (token_step t command arg_index).1 (token_step t command arg_index).2 := rfl

theorem steps_fields : ∀ (ts : List (List Char)) (command : command_t) (arg_index : Nat),
    steps ts command arg_index =
      ({ command with
          args := if plain_args ts = [] then command.args
            else realloc command.args arg_index ++ (plain_args ts).map some
          redirects := ts.foldl redirect_step command.redirects },
        arg_index + (plain_args ts).length) := by
  intro ts
  induction ts with
  | nil => intro command arg_index; cases command; rfl
  | cons t ts ih =>
    intro command arg_index
    rw [steps_cons, token_step_fields, ih]
    cases hp : plain_arg t with
    | none =>
      simp [plain_args, List.filterMap_cons, hp]
    | some u =>
      have hl : (realloc command.args arg_index ++ [some u]).length = arg_index + 1 := by
        simp [length_realloc]
      have e1 : arg_index + (Option.toList (some u)).length = arg_index + 1 := rfl
      simp only [plain_args, List.filterMap_cons, hp, e1,
        List.foldl_cons, realloc_self hl, List.map_cons, List.length_cons, List.append_assoc,
        List.singleton_append, reduceCtorEq, if_false]
      refine Prod.ext ?_ (by simp only; omega)
      simp only [command_t.mk.injEq, true_and, and_true]
      split
      · rename_i h; simp [h]
      · rfl

theorem stage_fold_eq (call : List Char → command_t → command_t) (fresh : command_t) :
    ∀ (T : List (List Char × List Char)) (command : command_t) (arg_index : Nat),
      stage_fold call fresh T command arg_index =
        match (T.dropWhile (fun x => x.1 != ['|'])).head? with
        | none => steps ((T.takeWhile (fun x => x.1 != ['|'])).map Prod.fst) command arg_index
        | some x =>
          ({ (steps ((T.takeWhile (fun x => x.1 != ['|'])).map Prod.fst) command arg_index).1
              with next := some (call (x.2.dropWhile blank) fresh) },
            (steps ((T.takeWhile (fun x => x.1 != ['|'])).map Prod.fst) command arg_index).2) := by
  intro T
  induction T with
  | nil => intro _ _; rfl
  | cons x T ih =>
    intro command arg_index
    obtain ⟨t, rest⟩ := x
    by_cases hp : t = ['|']
    · subst hp
      simp [stage_fold, List.dropWhile_cons, List.takeWhile_cons, steps_nil]
    · have hb : (t != ['|']) = true := by simpa using hp
      simp only [stage_fold, hp, if_false, List.dropWhile_cons, List.takeWhile_cons, hb, if_true,
        List.map_cons, steps_cons]
      exact ih _ _

theorem shift_args_eq (A : List (Option (List Char))) :
    ∀ (x : Option (List Char)) (tl : List (Option (List Char))),
      shift_args (A ++ x :: tl) A.length = (A ++ [x]).take 1 ++ A ++ tl := by
  induction A using List.reverseRecOn with
  | nil => intro x tl; rfl
  | append_singleton A a ih =>
    intro x tl
    have h1 : (A ++ [a] ++ x :: tl).getD A.length none = a := by
      rw [List.append_assoc, List.getD_eq_getElem?_getD,
        List.getElem?_append_right (le_refl _)]
      simp
    have h2 : (A ++ [a] ++ x :: tl).set (A.length + 1) a = A ++ a :: a :: tl := by
      rw [List.append_assoc, List.set_append_right _ _ (by omega)]
      simp
    rw [List.length_append, List.length_singleton, shift_args, h1, h2, ih]
    cases A <;> simp

theorem finish_eq (command : command_t) (arg_index : Nat) (A : List (Option (List Char)))
    (hA : A.length = arg_index) (h : realloc command.args (arg_index + 2) = A ++ [none, none]) :
    finish command arg_index =
      { command with arg_count := arg_index + 2, args := command.name :: A ++ [none] } := by
  have hs := shift_args_eq A none [none]
  have e1 : ((A ++ [none]).take 1 ++ A ++ [none]).set 0 command.name
      = command.name :: A ++ [none] := by
    cases A <;> simp
  have e2 : (command.name :: A ++ [none]).set (arg_index + 1) none
      = command.name :: A ++ [none] := by
    rw [List.cons_append, List.set_cons_succ, List.set_append_right _ _ (by omega), hA,
      Nat.sub_self]
    rfl
  subst hA
  have e3 : A.length + 2 - 1 = A.length + 1 := rfl
  simp only [finish, h, Nat.add_sub_cancel, hs, e1, e3, e2]

theorem flag_test (m : List Char) (c : Char) :
    (decide (strlen m > 0) && peek m (strlen m - 1) == c) = ((cstr m).getLast? == some c) := by
  have hm := cstr_append_drop m
  rcases List.eq_nil_or_concat (cstr m) with h | ⟨d, z, h⟩
  · simp [strlen, h]
  · have hl : strlen m = d.length + 1 := by simp [strlen, h]
    rw [List.concat_eq_append] at h
    have hp : peek m d.length = z := by
      rw [← hm, h, List.append_assoc, peek_append_length]
      rfl
    rw [hl, Nat.add_sub_cancel, hp, h]
    simp

theorem set_flags_eq (m : List Char) (command : command_t) :
    set_flags m (strlen m) command =
      { command with
          background := command.background || ((cstr m).getLast? == some '&')
          auto_complete := command.auto_complete || ((cstr m).getLast? == some '?') } := by
  unfold set_flags
  simp only [flag_test]
  cases command
  by_cases h1 : (cstr m).getLast? = some '?'
  · have h2 : ¬ ((cstr m).getLast? = some '&') := by rw [h1]; decide
    simp [h1]
  · by_cases h2 : (cstr m).getLast? = some '&'
    · simp [h2]
    · simp [h1, h2]

theorem finish_next (command : command_t) (arg_index : Nat) (nx : Option command_t) :
    finish { command with next := nx } arg_index = { finish command arg_index with next := nx } := by
  cases command; rfl

theorem finish_steps (c0 : command_t) (ts : List (List Char)) (h0 : c0.args = [none]) :
    finish (steps ts c0 0).1 (steps ts c0 0).2 =
      { c0 with
          arg_count := (plain_args ts).length + 2
          args := c0.name :: (plain_args ts).map some ++ [none]
          redirects := ts.foldl redirect_step c0.redirects } := by
  have hA : ((plain_args ts).map some).length = 0 + (plain_args ts).length := by simp
  have e2 : realloc [none] 0 = [] := by simp [realloc]
  have e3 : realloc [none] 2 = [none, none] := by simp [realloc]
  have hr : realloc (if plain_args ts = [] then c0.args
        else realloc c0.args 0 ++ (plain_args ts).map some) (0 + (plain_args ts).length + 2)
      = (plain_args ts).map some ++ [none, none] := by
    rw [h0, e2]
    split
    · rename_i h; rw [h]; exact e3
    · rw [List.nil_append]
      exact realloc_add_two hA
  rw [steps_fields]
  have := finish_eq { c0 with
      args := if plain_args ts = [] then c0.args
        else realloc c0.args 0 ++ (plain_args ts).map some
      redirects := ts.foldl redirect_step c0.redirects } (0 + (plain_args ts).length)
    ((plain_args ts).map some) hA hr
  rw [this]
  simp

/-- One call of `parsed`, field by field, `call` standing for the recursive call. -/
theorem parse_stage_fields (call : List Char → command_t → command_t) (fresh : command_t)
    (buf : List Char) (command : command_t) :
    parse_stage call fresh buf command =
      { name := some (first_token buf)
        background := command.background || (last_byte buf == some '&')
        auto_complete := command.auto_complete || (last_byte buf == some '?')
        arg_count := (plain_args (stage_tokens buf)).length + 2
        args := some (first_token buf) :: (plain_args (stage_tokens buf)).map some ++ [none]
        redirects := (stage_tokens buf).foldl redirect_step command.redirects
        next := match pipe_rest buf with
          | none => command.next
          | some p => some (call p fresh) } := by
  unfold parse_stage
  simp only [stage_fold_eq, set_flags_eq]
  unfold pipe_rest
  cases hh : (((tokens (trimmed buf)).tail).dropWhile (fun x => x.1 != ['|'])).head? with
  | none =>
    simp only [Option.map_none']
    rw [finish_steps _ _ rfl]
    rfl
  | some x =>
    simp only [Option.map_some']
    rw [finish_next, finish_steps _ _ rfl]
    rfl

/-- The command one call of `parsed` leaves, field by field. -/
theorem parsed_fields (malloc : Nat → command_t) (buf : List Char) (command : command_t) :
    parsed malloc buf command =
      { name := some (first_token buf)
        background := command.background || (last_byte buf == some '&')
        auto_complete := command.auto_complete || (last_byte buf == some '?')
        arg_count := (plain_args (stage_tokens buf)).length + 2
        args := some (first_token buf) :: (plain_args (stage_tokens buf)).map some ++ [none]
        redirects := (stage_tokens buf).foldl redirect_step command.redirects
        next := match pipe_rest buf with
          | none => command.next
          | some p => some (parsed (later malloc) p (malloc 0)) } := by
  rw [parsed_eq, parse_stage_fields]

/-! ## Where the bytes of the tokens come from -/

/-! ## parse_command and the size of temp_buf -/

theorem parse_token_overrun (call : List Char → command_t → Option (command_t × List Char))
    (fresh : command_t) (pch olds : List Char) (command : command_t) (arg_index : Nat)
    (h : 1024 ≤ strlen pch) : parse_token call fresh pch olds command arg_index = none := by
  simp only [parse_token, ge_iff_le, h, if_true]

theorem parse_token_pipe (call : List Char → command_t → Option (command_t × List Char))
    (fresh : command_t) (pch olds : List Char) (command : command_t) (arg_index : Nat)
    (hp : cstr pch = ['|']) :
    parse_token call fresh pch olds command arg_index =
      match call ((pch.drop 2).dropWhile blank) fresh with
      | none => none
      | some (c, olds) => some ({ command with next := some c }, arg_index, olds) := by
  have htok : ∀ c ∈ ['|'], tokch c = true := by decide
  have htr := trim_token (t := ['|']) (by simp) htok
  have hd : (pch.set 1 ' ').drop (skip_blanks (pch.set 1 ' ') (pch.set 1 ' ').length 1)
      = (pch.drop 2).dropWhile blank := by
    rw [skip_blanks_eq _ _ _ (by omega), ← List.drop_drop, drop_length_takeWhile]
    cases pch with
    | nil => rfl
    | cons a tl =>
      cases tl with
      | nil => rfl
      | cons b r => simp [List.dropWhile_cons, blank]
  have hl : strlen pch = 1 := by simp [strlen, hp]
  have hge : ¬ (1 ≥ 1024) := by decide
  have h1 : strcpy pch = ['|'] ++ [NUL] := by simp [strcpy, hp]
  have h2 : strlen (['|'] ++ [NUL]) = 1 := by decide
  have h3 : peek splitters 0 = ' ' := by decide
  have h4 : strcmp_eq (['|'] ++ [NUL]) ['|'] = true := by decide
  simp only [parse_token, hl, hge, if_false, h1, h2, htr.1, htr.2, List.length_singleton, h4,
    h3, hd]
  rfl

theorem parse_token_step (call1 : List Char → command_t → Option (command_t × List Char))
    (call2 : List Char → command_t → command_t × List Char) (fresh : command_t)
    (pch olds : List Char) (command : command_t) (arg_index : Nat)
    (hne : cstr pch ≠ []) (htok : ∀ c ∈ cstr pch, tokch c = true) (hp : cstr pch ≠ ['|'])
    (hfit : (cstr pch).length < 1024) :
    parse_token call1 fresh pch olds command arg_index =
      some (parsed_token call2 fresh pch olds command arg_index) := by
  have hl : strlen pch = (cstr pch).length := rfl
  generalize ht : cstr pch = t at hne htok hp hfit hl
  have hN := not_mem_of_all_tokch htok
  have htr := trim_token hne htok
  have hlen : 0 < t.length := List.length_pos.2 hne
  have hge : ¬ (t.length ≥ 1024) := by omega
  have h1 : strcpy pch = t ++ [NUL] := by simp [strcpy, ht]
  have h2 : strlen (t ++ [NUL]) = t.length := by simp [strlen, cstr_append_NUL hN]
  have h3 : (t.length == 0) = false := by rw [beq_eq_false_iff_ne]; omega
  have h4 : strcmp_eq (t ++ [NUL]) ['|'] = false := by
    simp [strcmp_eq, cstr_append_NUL hN, hp]
  simp only [parse_token, parsed_token, hl, hge, h1, h2, h3, htr.1, htr.2, h4,
    Bool.false_eq_true, if_false]
  repeat' split
  all_goals rfl

theorem parse_loop_of_peek_NUL (call : List Char → command_t → Option (command_t × List Char))
    (fresh : command_t) {olds : List Char} (h : peek olds 0 = NUL) (n : Nat)
    (command : command_t) (arg_index : Nat) :
    parse_loop call fresh n olds command arg_index = some (command, arg_index, olds) := by
  cases n with
  | zero => rfl
  | succ n =>
    simp only [parse_loop, strtok_none (tok_at_of_peek_NUL h), dropWhile_of_peek_NUL h]

theorem parse_loop_succ (call : List Char → command_t → Option (command_t × List Char))
    (fresh : command_t) (n : Nat) (olds : List Char) (command : command_t) (arg_index : Nat) :
    parse_loop call fresh (n + 1) olds command arg_index =
      match strtok olds splitters with
      | (none, olds) => some (command, arg_index, olds)
      | (some pch, olds) =>
        match parse_token call fresh pch olds command arg_index with
        | none => none
        | some r => parse_loop call fresh n r.2.2 r.1 r.2.1 := by
  rw [parse_loop]
  rcases strtok olds splitters with ⟨_ | pch, o⟩
  · rfl
  · simp only
    cases parse_token call fresh pch o command arg_index with
    | none => rfl
    | some r => rfl

/-- The loop of `parse_command` gives what `parsed_loop` gives when every token up to the
first `|` fits into `temp_buf` and the call for the command behind that `|` gives a result;
otherwise it gives nothing. -/
theorem parse_loop_eq (call1 : List Char → command_t → Option (command_t × List Char))
    (call2 : List Char → command_t → command_t × List Char) (fresh : command_t)
    (good : List Char → Bool) (N : Nat)
    (hend : ∀ p c, p.length < N → peek (call2 p c).2 0 = NUL)
    (hcall : ∀ p, p.length < N →
      call1 p fresh = if good p then some (call2 p fresh) else none) :
    ∀ (n : Nat) (olds : List Char) (command : command_t) (arg_index : Nat), olds.length ≤ N →
      parse_loop call1 fresh n olds command arg_index =
        if stage_fits good (tokens_fuel n olds) then
          some (parsed_loop call2 fresh n olds command arg_index)
        else none := by
  intro n
  induction n with
  | zero => intro olds command arg_index _; rfl
  | succ n ih =>
    intro olds command arg_index hN
    have hlen := tok_length_le olds
    by_cases ht : tok_at olds = []
    · rw [parse_loop_succ, parsed_loop_succ, strtok_none ht]
      simp only [tokens_fuel, ht, if_true, stage_fits]
    · have hpos : 0 < (tok_at olds).length := List.length_pos.2 ht
      have hc := cstr_pch olds
      rw [parse_loop_succ, parsed_loop_succ, strtok_some ht]
      simp only [tokens_fuel, ht, if_false, stage_fits]
      by_cases hfit : (tok_at olds).length < 1024
      · simp only [hfit, decide_True, Bool.true_and]
        by_cases hp : tok_at olds = ['|']
        · have hcp := hc
          rw [hp] at hcp
          have hd := drop_pch olds
          rw [hp] at hd
          simp only [List.length_singleton] at hd
          have hsh : ((tok_end olds).drop 1).length < N := by
            simp only [List.length_drop]; omega
          have hsh2 : (((tok_end olds).drop 1).dropWhile blank).length < N :=
            lt_of_le_of_lt (List.dropWhile_suffix blank).length_le hsh
          have hq := hend _ fresh hsh2
          have hcl := hcall _ hsh2
          simp only [hp, parse_token_pipe call1 _ _ _ command arg_index hcp,
            parsed_token_pipe call2 fresh _ _ command arg_index hcp, hd, hcl, if_true]
          by_cases hg : good (((tok_end olds).drop 1).dropWhile blank) = true
          · simp only [hg, if_true]
            rw [parse_loop_of_peek_NUL call1 fresh hq, parsed_loop_of_peek_NUL call2 fresh hq]
          · simp only [hg, if_false, Bool.false_eq_true]
        · have hstep := parse_token_step call1 call2 fresh
            (tok_at olds ++ (tok_end olds).set 0 NUL)
            (if peek (tok_end olds) 0 = NUL then tok_end olds else (tok_end olds).drop 1)
            command arg_index (by rw [hc]; exact ht) (by rw [hc]; exact all_tokch_takeWhile _)
            (by rw [hc]; exact hp) (by rw [hc]; exact hfit)
          simp only [hstep, hp, if_false]
          by_cases he : peek (tok_end olds) 0 = NUL
          · simp only [he, if_true]
            have := ih (tok_end olds)
              (parsed_token call2 fresh (tok_at olds ++ (tok_end olds).set 0 NUL)
                (tok_end olds) command arg_index).1
              (parsed_token call2 fresh (tok_at olds ++ (tok_end olds).set 0 NUL)
                (tok_end olds) command arg_index).2.1 (by omega)
            rw [tokens_fuel_of_peek_NUL he] at this
            simp only [he, if_true] at hstep
            have e := parsed_token_step call2 fresh (tok_at olds ++ (tok_end olds).set 0 NUL)
              (tok_end olds) command arg_index (by rw [hc]; exact ht)
              (by rw [hc]; exact all_tokch_takeWhile _) (by rw [hc]; exact hp)
            rw [e] at this ⊢
            simpa only [stage_fits] using this
          · simp only [he, if_false]
            have hl : ((tok_end olds).drop 1).length ≤ (tok_end olds).length := by
              simp only [List.length_drop]; omega
            have e := parsed_token_step call2 fresh (tok_at olds ++ (tok_end olds).set 0 NUL)
              ((tok_end olds).drop 1) command arg_index (by rw [hc]; exact ht)
              (by rw [hc]; exact all_tokch_takeWhile _) (by rw [hc]; exact hp)
            rw [e]
            exact ih ((tok_end olds).drop 1) _ _ (by omega)
      · have hov := parse_token_overrun call1 fresh (tok_at olds ++ (tok_end olds).set 0 NUL)
          (if peek (tok_end olds) 0 = NUL then tok_end olds else (tok_end olds).drop 1)
          command arg_index (by rw [strlen, hc]; omega)
        simp only [hov, hfit, decide_False, Bool.false_and, Bool.false_eq_true, if_false]

theorem parse_command_fuel_succ (n : Nat) (malloc : Nat → command_t) (buf : List Char)
    (command : command_t) {b1 b2 olds : List Char} {l1 l2 : Nat} {pch : Option (List Char)}
    (h1 : trim_left (strlen buf) buf (strlen buf) = (b1, l1))
    (h2 : trim_right l1 b1 l1 = (b2, l2))
    (h3 : strtok b2 splitters = (pch, olds)) :
    parse_command_fuel (n + 1) malloc buf command =
      (parse_loop (parse_command_fuel n (later malloc)) (malloc 0) (olds.length + 1) olds
          { set_name pch (set_flags b2 l2 command) with args := realloc [] 1 } 0).map
        (fun r => (finish r.1 r.2.1, r.2.2)) := by
  rw [parse_command_fuel]
  simp only [h1, h2, h3]

/-- With a bound above the length of the buffer, `parse_command_fuel` gives the result of
`parsed_fuel` when `fits_fuel` holds and nothing otherwise. -/
theorem parse_command_fuel_eq : ∀ (L : Nat) (buf : List Char), buf.length = L →
    ∀ (n : Nat) (malloc : Nat → command_t) (command : command_t), L < n →
      parse_command_fuel n malloc buf command =
        if fits_fuel n buf then some (parsed_fuel n malloc buf command) else none := by
  intro L
  induction L using Nat.strong_induction_on with
  | _ L ih =>
    intro buf hL n malloc command hn
    obtain ⟨n, rfl⟩ : ∃ k, n = k + 1 := ⟨n - 1, by omega⟩
    have hend : ∀ p c, p.length < buf.length →
        peek (parsed_fuel n (later malloc) p c).2 0 = NUL :=
      fun p c hp => (parsed_fuel_ok p.length p rfl n n _ c (by omega) (by omega)).1
    have hcall : ∀ p, p.length < buf.length →
        parse_command_fuel n (later malloc) p (malloc 0) =
          if fits_fuel n p then some (parsed_fuel n (later malloc) p (malloc 0)) else none :=
      fun p hp => ih p.length (by omega) p rfl n _ _ (by omega)
    have htr := trims_eq buf
    have hlt := length_trimmed buf
    by_cases ht : tok_at (trimmed buf) = []
    · have hst := strtok_none ht
      have hpk := (tok_at_eq_nil_iff _).1 ht
      rw [parse_command_fuel_succ n malloc buf command htr.1 htr.2 hst,
        parsed_fuel_succ n malloc buf command htr.1 htr.2 hst,
        parse_loop_of_peek_NUL _ _ hpk, parsed_loop_of_peek_NUL _ _ hpk]
      simp only [fits_fuel, tokens_of_tok_at_nil ht, List.tail_nil, stage_fits, if_true,
        Option.map_some']
    · have hst := strtok_some ht
      have hlen := tok_length_le (trimmed buf)
      have hpos : 0 < (tok_at (trimmed buf)).length := List.length_pos.2 ht
      have hl : ((tok_end (trimmed buf)).drop 1).length ≤ (tok_end (trimmed buf)).length := by
        simp only [List.length_drop]; omega
      generalize hgo : (if peek (tok_end (trimmed buf)) 0 = NUL then tok_end (trimmed buf)
          else (tok_end (trimmed buf)).drop 1) = olds at hst
      have holds : olds.length ≤ buf.length := by
        rw [← hgo]; split <;> omega
      have htk : tokens_fuel (olds.length + 1) olds = (tokens (trimmed buf)).tail := by
        rw [tokens_of_tok_at ht, List.tail_cons, ← hgo]
        by_cases he : peek (tok_end (trimmed buf)) 0 = NUL
        · simp only [he, if_true]
          exact tokens_fuel_of_peek_NUL he _
        · simp only [he, if_false]
          exact tokens_fuel_eq (Nat.le_succ _)
      rw [parse_command_fuel_succ n malloc buf command htr.1 htr.2 hst,
        parsed_fuel_succ n malloc buf command htr.1 htr.2 hst]
      have hloop := parse_loop_eq (parse_command_fuel n (later malloc))
        (parsed_fuel n (later malloc)) (malloc 0) (fits_fuel n) buf.length hend hcall
        (olds.length + 1) olds
        { set_name (some (tok_at (trimmed buf) ++ (tok_end (trimmed buf)).set 0 NUL))
            (set_flags (trimmed buf) (strlen (trimmed buf)) command) with args := realloc [] 1 }
        0 holds
      rw [htk] at hloop
      rw [hloop]
      simp only [fits_fuel]
      by_cases hf : stage_fits (fits_fuel n) (tokens (trimmed buf)).tail = true
      · simp only [hf, if_true, Option.map_some']
      · simp only [hf, if_false, Bool.false_eq_true, Option.map_none']

/-- The result of `parse_command`: the command `parsed` describes when every token that is
copied fits into `temp_buf`, nothing when one of them overruns it. -/
theorem parse_command_eq_parsed (malloc : Nat → command_t) (buf : List Char)
    (command : command_t) :
    parse_command malloc buf command =
      if fits buf then some (parsed malloc buf command) else none := by
  rw [parse_command, parse_command_fuel_eq buf.length buf rfl _ _ _ (Nat.lt_succ_self _), fits,
    parsed]
  split <;> rfl

theorem parse_command_of_fits {buf : List Char} (h : fits buf = true)
    (malloc : Nat → command_t) (command : command_t) :
    parse_command malloc buf command = some (parsed malloc buf command) := by
  rw [parse_command_eq_parsed, h, if_pos rfl]

theorem parse_command_of_not_fits {buf : List Char} (h : fits buf = false)
    (malloc : Nat → command_t) (command : command_t) :
    parse_command malloc buf command = none := by
  rw [parse_command_eq_parsed, h]
  rfl

theorem cstr_eq_nil_iff (m : List Char) : cstr m = [] ↔ peek m 0 = NUL := by
  cases m with
  | nil => simp [cstr, peek]
  | cons c r =>
    by_cases h : c = NUL
    · subst h; simp [cstr_cons_NUL, peek]
    · simp [cstr_cons_of_ne h, peek, h]

theorem cstr_split_blank (s : List Char) :
    cstr s = s.takeWhile blank ++ cstr (s.dropWhile blank) := by
  conv_lhs => rw [← List.takeWhile_append_dropWhile blank s]
  exact cstr_append_of_not_mem
    (fun h => blank_ne_NUL (List.mem_takeWhile_imp h) rfl) _

theorem cstr_split_tok (s : List Char) :
    cstr (s.dropWhile blank) = tok_at s ++ cstr (tok_end s) := by
  conv_lhs => rw [← tok_at_append_tok_end s]
  exact cstr_append_of_not_mem (not_mem_of_all_tokch (all_tokch_takeWhile _)) _

theorem cstr_tok_end_drop {s : List Char} (h : peek (tok_end s) 0 ≠ NUL) :
    cstr (tok_end s) = peek (tok_end s) 0 :: cstr ((tok_end s).drop 1) := by
  cases he : tok_end s with
  | nil => rw [he] at h; exact absurd rfl h
  | cons b r =>
    rw [he] at h
    exact cstr_cons_of_ne h r

theorem tokens_fuel_subset : ∀ (n : Nat) (s : List Char), ∀ x ∈ tokens_fuel n s,
    ∀ c ∈ x.1, c ∈ cstr s := by
  intro n
  induction n with
  | zero => intro s x hx; simp [tokens_fuel] at hx
  | succ n ih =>
    intro s x hx c hc
    by_cases ht : tok_at s = []
    · simp [tokens_fuel, ht] at hx
    · simp only [tokens_fuel, ht, if_false, List.mem_cons] at hx
      rw [cstr_split_blank, cstr_split_tok]
      rcases hx with rfl | hx
      · simp only [List.mem_append]
        exact Or.inr (Or.inl hc)
      · by_cases he : peek (tok_end s) 0 = NUL
        · simp [he] at hx
        · simp only [he, if_false] at hx
          have := ih _ x hx c hc
          rw [cstr_tok_end_drop he]
          simp only [List.mem_append, List.mem_cons]
          exact Or.inr (Or.inr (Or.inr this))

theorem tokens_subset {s : List Char} {x : List Char × List Char} (hx : x ∈ tokens s)
    {c : Char} (hc : c ∈ x.1) : c ∈ cstr s :=
  tokens_fuel_subset _ s x hx c hc

theorem cstr_trimmed_subset (buf : List Char) {c : Char} (hc : c ∈ cstr (trimmed buf)) :
    c ∈ cstr buf := by
  rw [cstr_trimmed] at hc
  rw [cstr_split_blank]
  exact List.mem_append_right _ ((List.rdropWhile_prefix blank _).subset hc)

theorem pipe_rest_eq_none {buf : List Char} (h : '|' ∉ cstr buf) : pipe_rest buf = none := by
  unfold pipe_rest
  have : ((tokens (trimmed buf)).tail).dropWhile (fun x => x.1 != ['|']) = [] := by
    rw [List.dropWhile_eq_nil_iff]
    intro x hx
    have hx2 := List.mem_of_mem_tail hx
    simp only [bne_iff_ne, ne_eq]
    intro e
    exact h (cstr_trimmed_subset buf (tokens_subset hx2 (by rw [e]; simp)))
  rw [this]
  rfl

/-! ## The empty line -/

theorem cstr_dropWhile_blank_eq_nil {buf : List Char} (h : ∀ c ∈ cstr buf, blank c = true) :
    cstr (buf.dropWhile blank) = [] := by
  induction buf with
  | nil => rfl
  | cons a buf ih =>
    by_cases ha : a = NUL
    · subst ha
      simp [List.dropWhile_cons, NUL_not_blank, cstr_cons_NUL]
    · rw [cstr_cons_of_ne ha] at h
      have hb : blank a = true := h a (by simp)
      simp only [List.dropWhile_cons, hb, if_true]
      exact ih (fun c hc => h c (List.mem_cons_of_mem _ hc))

theorem tokens_trimmed_of_blank {buf : List Char} (h : ∀ c ∈ cstr buf, blank c = true) :
    tokens (trimmed buf) = [] ∧ last_byte buf = none := by
  have h1 : cstr (trimmed buf) = [] := by
    rw [cstr_trimmed, cstr_dropWhile_blank_eq_nil h]
    rfl
  refine ⟨?_, by rw [last_byte, h1]; rfl⟩
  exact tokens_of_tok_at_nil (tok_at_of_peek_NUL ((cstr_eq_nil_iff _).1 h1))

/-! ## Single tokens: redirections and quotes -/

theorem strtok_token {s pch olds : List Char} (h : strtok s splitters = (some pch, olds)) :
    cstr pch ≠ [] ∧ ∀ c ∈ cstr pch, tokch c = true := by
  by_cases ht : tok_at s = []
  · rw [strtok_none ht] at h
    exact absurd (congrArg Prod.fst h) (by simp)
  · rw [strtok_some ht] at h
    have hp : tok_at s ++ (tok_end s).set 0 NUL = pch := by
      have := congrArg Prod.fst h
      simpa using this
    rw [← hp, cstr_pch]
    exact ⟨ht, all_tokch_takeWhile _⟩

theorem set_three_zero {r : List (Option (List Char))} (h : r.length = 3)
    (v : Option (List Char)) : r.set 0 v = [v, r.getD 1 none, r.getD 2 none] := by
  match r, h with
  | [_, _, _], _ => rfl

theorem set_three_one {r : List (Option (List Char))} (h : r.length = 3)
    (v : Option (List Char)) : r.set 1 v = [r.getD 0 none, v, r.getD 2 none] := by
  match r, h with
  | [_, _, _], _ => rfl

theorem set_three_two {r : List (Option (List Char))} (h : r.length = 3)
    (v : Option (List Char)) : r.set 2 v = [r.getD 0 none, r.getD 1 none, v] := by
  match r, h with
  | [_, _, _], _ => rfl

theorem token_step_lt (p : List Char) (command : command_t) (arg_index : Nat) :
    token_step ('<' :: p) command arg_index =
      ({ command with redirects := command.redirects.set 0 (some p) }, arg_index) := by
  have h1 : ('<' :: p) ≠ ['&'] := by
    intro e; exact absurd (List.cons.inj e).1 (by decide)
  simp [token_step, h1, peek]

theorem token_step_gtgt (p : List Char) (command : command_t) (arg_index : Nat) :
    token_step ('>' :: '>' :: p) command arg_index =
      ({ command with redirects := command.redirects.set 2 (some p) }, arg_index) := by
  have h1 : ('>' :: '>' :: p) ≠ ['&'] := by
    intro e; exact absurd (List.cons.inj e).1 (by decide)
  have h2 : ¬ ('>' = '<') := by decide
  simp [token_step, h1, h2, peek]

theorem token_step_gt (p : List Char) (hp : p.head? ≠ some '>') (command : command_t)
    (arg_index : Nat) :
    token_step ('>' :: p) command arg_index =
      ({ command with redirects := command.redirects.set 1 (some p) }, arg_index) := by
  have h1 : ('>' :: p) ≠ ['&'] := by
    intro e; exact absurd (List.cons.inj e).1 (by decide)
  have h2 : ¬ ('>' = '<') := by decide
  have h3 : ¬ (peek ('>' :: p) 1 = '>') := by
    cases p with
    | nil => decide
    | cons a p => intro e; exact hp (by simpa [peek] using e)
  simp only [token_step, h1, if_false, peek_zero_cons, h2, if_true, h3]
  rfl

theorem peek_zero_iff (t : List Char) {c : Char} (hc : c ≠ NUL) :
    peek t 0 = c ↔ t.head? = some c := by
  cases t with
  | nil => simp [peek]; exact fun e => hc e.symm
  | cons a t => simp [peek]

theorem peek_last_iff (t : List Char) {c : Char} (hc : c ≠ NUL) :
    peek t (t.length - 1) = c ↔ t.getLast? = some c := by
  rcases List.eq_nil_or_concat t with h | ⟨d, z, h⟩
  · subst h; simp [peek]; exact fun e => hc e.symm
  · subst h
    rw [List.concat_eq_append]
    have : (d ++ [z]).length - 1 = d.length := by simp
    rw [this, peek_append_length]
    simp [peek]

theorem unquote_eq (t : List Char) :
    unquote t =
      if 2 < t.length ∧ ((t.head? = some '"' ∧ t.getLast? = some '"') ∨
          (t.head? = some '\'' ∧ t.getLast? = some '\'')) then t.dropLast.tail
      else t := by
  have hq : '"' ≠ NUL := by decide
  have ha : '\'' ≠ NUL := by decide
  unfold unquote
  simp only [peek_zero_iff t hq, peek_zero_iff t ha, peek_last_iff t hq, peek_last_iff t ha,
    List.drop_one]

theorem token_step_plain {t : List Char} (h2 : t ≠ ['&']) (h3 : t.head? ≠ some '<')
    (h4 : t.head? ≠ some '>') (command : command_t) (arg_index : Nat) :
    token_step t command arg_index =
      ({ command with args := realloc command.args arg_index ++ [some (unquote t)] },
        arg_index + 1) := by
  have hl : '<' ≠ NUL := by decide
  have hg : '>' ≠ NUL := by decide
  have e3 : ¬ (peek t 0 = '<') := fun e => h3 ((peek_zero_iff t hl).1 e)
  have e4 : ¬ (peek t 0 = '>') := fun e => h4 ((peek_zero_iff t hg).1 e)
  simp only [token_step, h2, e3, e4, if_false, realloc_set]

/-! ## Every command of the chain -/

theorem pipe_rest_length {buf p : List Char} (h : pipe_rest buf = some p) :
    p.length < buf.length := by
  unfold pipe_rest at h
  cases hh : (((tokens (trimmed buf)).tail).dropWhile (fun x => x.1 != ['|'])).head? with
  | none => rw [hh] at h; exact absurd h (by simp)
  | some x =>
    rw [hh] at h
    simp only [Option.map_some', Option.some.injEq] at h
    have hx : x ∈ tokens (trimmed buf) :=
      List.mem_of_mem_tail ((List.dropWhile_suffix _).subset (List.mem_of_mem_head? hh))
    have h1 := tokens_rest_lt hx
    have h2 := length_trimmed buf
    have h3 : (x.2.dropWhile blank).length ≤ x.2.length := (List.dropWhile_suffix blank).length_le
    rw [← h]
    omega

theorem parsed_next {malloc : Nat → command_t} (buf : List Char) (command : command_t) :
    (parsed malloc buf command).next =
      match pipe_rest buf with
      | none => command.next
      | some p => some (parsed (later malloc) p (malloc 0)) := by
  rw [parsed_fields]

theorem chain_parse_command {malloc : Nat → command_t} (buf : List Char) (command : command_t) (hn : command.next = none) :
    chain (parsed malloc buf command) =
      parsed malloc buf command :: (match pipe_rest buf with
        | none => []
        | some p => chain (parsed (later malloc) p (malloc 0))) := by
  rw [chain_eq, parsed_next]
  cases pipe_rest buf with
  | none => simp only [hn]
  | some p => rfl

theorem length_redirect_step (r : List (Option (List Char))) (t : List Char) :
    (redirect_step r t).length = r.length := by
  unfold redirect_step
  split
  · simp
  · split
    · split <;> simp
    · rfl

theorem redirect_step_getD {r : List (Option (List Char))} (hr : r.length = 3) (t : List Char)
    {role : Nat} (h : role < 3) :
    (redirect_step r t).getD role none =
      match redirect_path role t with
      | some p => some p
      | none => r.getD role none := by
  have hlg : ¬ ('<' = '>') := by decide
  match r, hr with
  | [a, b, c], _ =>
    unfold redirect_step
    by_cases hlt : peek t 0 = '<'
    · have hgt : ¬ (peek t 0 = '>') := by rw [hlt]; exact hlg
      match role, h with
      | 0, _ => simp [redirect_path, hlt]
      | 1, _ => simp [redirect_path, hlt, hlg]
      | 2, _ => simp [redirect_path, hlt, hlg]
    · by_cases hgt : peek t 0 = '>'
      · by_cases hgg : peek t 1 = '>'
        · match role, h with
          | 0, _ => simp [redirect_path, hlt, hgt, hgg]
          | 1, _ => simp [redirect_path, hlt, hgt, hgg]
          | 2, _ => simp [redirect_path, hlt, hgt, hgg]
        · match role, h with
          | 0, _ => simp [redirect_path, hlt, hgt, hgg]
          | 1, _ => simp [redirect_path, hlt, hgt, hgg]
          | 2, _ => simp [redirect_path, hlt, hgt, hgg]
      · match role, h with
        | 0, _ => simp [redirect_path, hlt, hgt]
        | 1, _ => simp [redirect_path, hlt, hgt]
        | 2, _ => simp [redirect_path, hlt, hgt]

theorem foldl_redirect_step : ∀ (ts : List (List Char)) (r : List (Option (List Char))),
    r.length = 3 → ∀ {role : Nat}, role < 3 →
      (ts.foldl redirect_step r).getD role none =
        match (redirections role ts).getLast? with
        | some p => some p
        | none => r.getD role none := by
  intro ts
  induction ts with
  | nil => intro r _ role _; rfl
  | cons t ts ih =>
    intro r hr role h
    rw [List.foldl_cons, ih _ (by rw [length_redirect_step]; exact hr) h,
      redirect_step_getD hr t h]
    unfold redirections
    rw [List.filterMap_cons]
    cases hp : redirect_path role t with
    | none => rfl
    | some p =>
      simp only
      cases hl : (List.filterMap (redirect_path role) ts).getLast? with
      | none =>
        have : List.filterMap (redirect_path role) ts = [] := List.getLast?_eq_none_iff.1 hl
        simp [this]
      | some q =>
        rw [List.getLast?_cons, hl]
        rfl

theorem parsed_redirects {malloc : Nat → command_t} (buf : List Char) (command : command_t) :
    (parsed malloc buf command).redirects =
      (stage_tokens buf).foldl redirect_step command.redirects := by
  rw [parsed_fields]

/-! ## Lines of a given shape -/

theorem tokch_of_ne {c : Char} (h : c ≠ ' ' ∧ c ≠ '\t' ∧ c ≠ NUL) : tokch c = true := by
  have hb : blank c = false := by
    cases hbb : blank c with
    | false => rfl
    | true => rcases blank_iff.1 hbb with e | e
              · exact absurd e h.1
              · exact absurd e h.2.1
  exact tokch_iff.2 ⟨h.2.2, hb⟩

theorem is_word_tokch {w : List Char} (h : is_word w) : ∀ c ∈ w, tokch c = true :=
  fun c hc => tokch_of_ne (h.2 c hc)

theorem is_plain_word {w : List Char} (h : is_plain w) : is_word w :=
  ⟨h.1, fun c hc => ⟨(h.2 c hc).1, (h.2 c hc).2.1, (h.2 c hc).2.2.1⟩⟩

theorem takeWhile_tokch_append {w : List Char} (hw : ∀ c ∈ w, tokch c = true) {r : List Char}
    (hr : tokch (peek r 0) = false) :
    (w ++ r).takeWhile tokch = w ∧ (w ++ r).dropWhile tokch = r := by
  have hr1 : r.takeWhile tokch = [] := by
    cases r with
    | nil => rfl
    | cons a r =>
      simp only [peek_zero_cons] at hr
      simp [List.takeWhile_cons, hr]
  have hr2 : r.dropWhile tokch = r := by
    cases r with
    | nil => rfl
    | cons a r =>
      simp only [peek_zero_cons] at hr
      simp [List.dropWhile_cons, hr]
  constructor
  · rw [List.takeWhile_append_of_pos hw, hr1, List.append_nil]
  · rw [List.dropWhile_append_of_pos hw, hr2]

theorem tok_of_word {w : List Char} (hw : is_word w) {r : List Char}
    (hr : tokch (peek r 0) = false) : tok_at (w ++ r) = w ∧ tok_end (w ++ r) = r := by
  have ht := is_word_tokch hw
  unfold tok_at tok_end
  rw [dropWhile_blank_of_tok hw.1 ht]
  exact takeWhile_tokch_append ht hr

theorem tokens_word_blank {w : List Char} (hw : is_word w) {b : Char} (hb : blank b = true)
    (r : List Char) : tokens (w ++ b :: r) = (w, r) :: tokens r := by
  have hr : tokch (peek (b :: r) 0) = false := by simp [peek, tokch, hb]
  have h := tok_of_word hw hr
  have hne : tok_at (w ++ b :: r) ≠ [] := by rw [h.1]; exact hw.1
  rw [tokens_of_tok_at hne, h.1, h.2]
  have : ¬ (peek (b :: r) 0 = NUL) := blank_ne_NUL hb
  simp only [this, if_false, List.drop_one, List.tail_cons]

theorem tokens_word_end {w : List Char} (hw : is_word w) {tl : List Char}
    (htl : peek tl 0 = NUL) : tokens (w ++ tl) = [(w, tl.drop 1)] := by
  have hr : tokch (peek tl 0) = false := by rw [htl]; decide
  have h := tok_of_word hw hr
  have hne : tok_at (w ++ tl) ≠ [] := by rw [h.1]; exact hw.1
  rw [tokens_of_tok_at hne, h.1, h.2]
  simp only [htl, if_true]

theorem trimmed_eq_self {s tl : List Char} (hN : NUL ∉ s) (htl : peek tl 0 = NUL)
    (hh : blank (peek s 0) = false) (hl : ∀ c, s.getLast? = some c → blank c = false) :
    trimmed (s ++ tl) = s ++ tl := by
  have h1 : (s ++ tl).dropWhile blank = s ++ tl := by
    cases s with
    | nil => exact dropWhile_of_peek_NUL htl
    | cons a s =>
      simp only [peek_zero_cons] at hh
      simp [List.dropWhile_cons, hh]
  have h2 : cstr (s ++ tl) = s := cstr_append_of_peek_NUL hN htl
  have h3 : s.rdropWhile blank = s := by
    rcases List.eq_nil_or_concat s with h | ⟨d, z, h⟩
    · subst h; rfl
    · subst h
      rw [List.concat_eq_append]
      have := hl z (by simp)
      exact List.rdropWhile_concat_neg _ _ _ (by simp [this])
  unfold trimmed rtrim_mem
  rw [h1, strlen, h2, h3, Nat.sub_self, List.drop_left]
  simp

theorem pipeline_cons_cons (w w2 : List Char) (ws : List (List Char)) :
    pipeline (w :: w2 :: ws) = w ++ ' ' :: '|' :: ' ' :: pipeline (w2 :: ws) := by
  simp [pipeline]

theorem blank_getLast_append {w r : List Char} (hr : r ≠ []) (c : Char)
    (h : (w ++ r).getLast? = some c) : r.getLast? = some c := by
  rw [List.getLast?_append] at h
  cases hl : r.getLast? with
  | none => exact absurd (List.getLast?_eq_none_iff.1 hl) hr
  | some d => rw [hl] at h; simpa using h

theorem word_getLast {w : List Char} (hw : is_word w) (c : Char) (h : w.getLast? = some c) :
    blank c = false := by
  have := is_word_tokch hw c (List.mem_of_getLast?_eq_some h)
  exact (tokch_iff.1 this).2

theorem word_peek {w : List Char} (hw : is_word w) (r : List Char) :
    blank (peek (w ++ r) 0) = false := by
  obtain ⟨hne, hc⟩ := hw
  cases w with
  | nil => exact absurd rfl hne
  | cons a w => exact (tokch_iff.1 (tokch_of_ne (hc a (by simp)))).2

theorem pipeline_props : ∀ (ws : List (List Char)), ws ≠ [] → (∀ w ∈ ws, is_word w) →
    NUL ∉ pipeline ws ∧ (∀ r, blank (peek (pipeline ws ++ r) 0) = false) ∧
      (∀ c, (pipeline ws).getLast? = some c → blank c = false) ∧ pipeline ws ≠ [] := by
  intro ws
  induction ws with
  | nil => intro h; exact absurd rfl h
  | cons w ws ih =>
    intro _ hw
    have hw1 := hw w (by simp)
    cases ws with
    | nil =>
      exact ⟨not_mem_of_all_tokch (is_word_tokch hw1), word_peek hw1, word_getLast hw1, hw1.1⟩
    | cons w2 ws =>
      have h := ih (by simp) (fun x hx => hw x (List.mem_cons_of_mem _ hx))
      rw [pipeline_cons_cons]
      refine ⟨?_, ?_, ?_, ?_⟩
      · intro hm
        simp only [List.mem_append, List.mem_cons] at hm
        rcases hm with hm | hm | hm | hm | hm
        · exact not_mem_of_all_tokch (is_word_tokch hw1) hm
        · exact absurd hm (by decide)
        · exact absurd hm (by decide)
        · exact absurd hm (by decide)
        · exact h.1 hm
      · intro r
        rw [List.append_assoc]
        exact word_peek hw1 _
      · intro c hc
        have : ' ' :: '|' :: ' ' :: pipeline (w2 :: ws) ≠ [] := by simp
        have h2 := blank_getLast_append this c hc
        rw [List.getLast?_cons_cons, List.getLast?_cons_cons] at h2
        have h3 := blank_getLast_append (w := [' ']) h.2.2.2 c h2
        exact h.2.2.1 c h3
      · simp

theorem pipe_is_word : is_word ['|'] := ⟨by simp, by decide⟩

theorem stage_of_last_word {w tl : List Char} (hw : is_word w) (htl : peek tl 0 = NUL) :
    first_token (w ++ tl) = w ∧ stage_tokens (w ++ tl) = [] ∧ pipe_rest (w ++ tl) = none ∧
      last_byte (w ++ tl) = w.getLast? := by
  have ht : trimmed (w ++ tl) = w ++ tl :=
    trimmed_eq_self (not_mem_of_all_tokch (is_word_tokch hw)) htl
      (by have := word_peek hw []; simpa using this) (word_getLast hw)
  have hc : cstr (w ++ tl) = w :=
    cstr_append_of_peek_NUL (not_mem_of_all_tokch (is_word_tokch hw)) htl
  simp only [first_token, stage_tokens, pipe_rest, last_byte, ht, tokens_word_end hw htl, hc]
  simp

theorem stage_of_piped_word {w rest : List Char} (hw : is_word w)
    (ht : trimmed (w ++ ' ' :: '|' :: ' ' :: rest) = w ++ ' ' :: '|' :: ' ' :: rest)
    (hr : rest.dropWhile blank = rest) :
    first_token (w ++ ' ' :: '|' :: ' ' :: rest) = w ∧
      stage_tokens (w ++ ' ' :: '|' :: ' ' :: rest) = [] ∧
      pipe_rest (w ++ ' ' :: '|' :: ' ' :: rest) = some rest := by
  have hb : blank ' ' = true := by decide
  have h2 : tokens ('|' :: ' ' :: rest) = (['|'], rest) :: tokens rest :=
    tokens_word_blank pipe_is_word hb rest
  simp only [first_token, stage_tokens, pipe_rest, ht, tokens_word_blank hw hb, h2,
    List.tail_cons]
  simp [List.dropWhile_cons, List.takeWhile_cons, hr]

theorem parsed_last_word {malloc : Nat → command_t} {w tl : List Char} (hw : is_word w) (htl : peek tl 0 = NUL) :
    chain (parsed malloc (w ++ tl) command_t.zero) = [parsed malloc (w ++ tl) command_t.zero] ∧
      (parsed malloc (w ++ tl) command_t.zero).name = some w ∧
      (parsed malloc (w ++ tl) command_t.zero).args = [some w, none] ∧
      (parsed malloc (w ++ tl) command_t.zero).arg_count = 2 ∧
      (parsed malloc (w ++ tl) command_t.zero).redirects = [none, none, none] := by
  have h := stage_of_last_word hw htl
  refine ⟨?_, ?_⟩
  · rw [chain_parse_command _ _ rfl, h.2.2.1]
  · rw [parsed_fields, h.1, h.2.1]
    exact ⟨rfl, rfl, rfl, rfl⟩

theorem spaced_cons_cons (w w2 : List Char) (ws : List (List Char)) :
    spaced (w :: w2 :: ws) = w ++ ' ' :: spaced (w2 :: ws) := rfl

theorem spaced_concat : ∀ (ws : List (List Char)) (w : List Char), ws ≠ [] →
    spaced (ws ++ [w]) = spaced ws ++ ' ' :: w := by
  intro ws
  induction ws with
  | nil => intro w h; exact absurd rfl h
  | cons a ws ih =>
    intro w _
    cases ws with
    | nil => rfl
    | cons b ws =>
      rw [List.cons_append, List.cons_append, spaced_cons_cons, ← List.cons_append,
        ih w (by simp), spaced_cons_cons]
      simp

theorem spaced_props : ∀ (ws : List (List Char)), ws ≠ [] → (∀ w ∈ ws, is_word w) →
    NUL ∉ spaced ws ∧ (∀ r, blank (peek (spaced ws ++ r) 0) = false) ∧
      (∀ c, (spaced ws).getLast? = some c → blank c = false) := by
  intro ws
  induction ws with
  | nil => intro h; exact absurd rfl h
  | cons w ws ih =>
    intro _ hw
    have hw1 := hw w (by simp)
    cases ws with
    | nil =>
      exact ⟨not_mem_of_all_tokch (is_word_tokch hw1), word_peek hw1, word_getLast hw1⟩
    | cons w2 ws =>
      have h := ih (by simp) (fun x hx => hw x (List.mem_cons_of_mem _ hx))
      have hne : spaced (w2 :: ws) ≠ [] := by
        intro e
        have := h.2.1 []
        rw [e] at this
        have hw2 := hw w2 (by simp)
        cases ws with
        | nil => exact hw2.1 e
        | cons w3 ws =>
          rw [spaced_cons_cons] at e
          exact hw2.1 (List.append_eq_nil.1 e).1
      rw [spaced_cons_cons]
      refine ⟨?_, ?_, ?_⟩
      · intro hm
        simp only [List.mem_append, List.mem_cons] at hm
        rcases hm with hm | hm | hm
        · exact not_mem_of_all_tokch (is_word_tokch hw1) hm
        · exact absurd hm (by decide)
        · exact h.1 hm
      · intro r
        rw [List.append_assoc]
        exact word_peek hw1 _
      · intro c hc
        have : ' ' :: spaced (w2 :: ws) ≠ [] := by simp
        have h2 := blank_getLast_append this c hc
        have h3 := blank_getLast_append (w := [' ']) hne c h2
        exact h.2.2 c h3

theorem tokens_spaced : ∀ (ws : List (List Char)) (tl : List Char), (∀ w ∈ ws, is_word w) →
    peek tl 0 = NUL → (tokens (spaced ws ++ tl)).map Prod.fst = ws := by
  intro ws
  induction ws with
  | nil =>
    intro tl _ htl
    rw [show spaced [] ++ tl = tl from rfl, tokens_of_tok_at_nil (tok_at_of_peek_NUL htl)]
    rfl
  | cons w ws ih =>
    intro tl hw htl
    have hw1 := hw w (by simp)
    cases ws with
    | nil =>
      rw [show spaced [w] = w from rfl, tokens_word_end hw1 htl]
      rfl
    | cons w2 ws =>
      have hb : blank ' ' = true := by decide
      rw [spaced_cons_cons, List.append_assoc, List.cons_append, tokens_word_blank hw1 hb,
        List.map_cons, ih tl (fun x hx => hw x (List.mem_cons_of_mem _ hx)) htl]

theorem takeWhile_eq_self_of_forall {α : Type} (p : α → Bool) :
    ∀ (l : List α), (∀ x ∈ l, p x = true) → l.takeWhile p = l ∧ l.dropWhile p = [] := by
  intro l
  induction l with
  | nil => intro _; exact ⟨rfl, rfl⟩
  | cons a l ih =>
    intro h
    have ha := h a (by simp)
    have := ih (fun x hx => h x (List.mem_cons_of_mem _ hx))
    simp [List.takeWhile_cons, List.dropWhile_cons, ha, this]

/-- A line of one command: a name and further tokens, none of them `|`, joined by single
spaces. -/
theorem stage_of_spaced {n : List Char} {ts : List (List Char)} {tl : List Char}
    (hn : is_word n) (hts : ∀ t ∈ ts, is_word t) (hp : ∀ t ∈ ts, t ≠ ['|'])
    (htl : peek tl 0 = NUL) :
    first_token (spaced (n :: ts) ++ tl) = n ∧ stage_tokens (spaced (n :: ts) ++ tl) = ts ∧
      pipe_rest (spaced (n :: ts) ++ tl) = none ∧
      last_byte (spaced (n :: ts) ++ tl) = (spaced (n :: ts)).getLast? := by
  have hall : ∀ w ∈ n :: ts, is_word w := by
    intro w hw
    rcases List.mem_cons.1 hw with rfl | h
    · exact hn
    · exact hts w h
  have hprops := spaced_props (n :: ts) (by simp) hall
  have ht : trimmed (spaced (n :: ts) ++ tl) = spaced (n :: ts) ++ tl :=
    trimmed_eq_self hprops.1 htl (by have := hprops.2.1 []; simpa using this) hprops.2.2
  have hc : cstr (spaced (n :: ts) ++ tl) = spaced (n :: ts) :=
    cstr_append_of_peek_NUL hprops.1 htl
  have htok := tokens_spaced (n :: ts) tl hall htl
  cases hT : tokens (spaced (n :: ts) ++ tl) with
  | nil => rw [hT] at htok; exact absurd htok (by simp)
  | cons x T =>
    rw [hT, List.map_cons] at htok
    have h1 : x.1 = n := (List.cons.inj htok).1
    have h2 : T.map Prod.fst = ts := (List.cons.inj htok).2
    have hall2 : ∀ y ∈ T, (fun x : List Char × List Char => x.1 != ['|']) y = true := by
      intro y hy
      have : y.1 ∈ ts := by rw [← h2]; exact List.mem_map_of_mem _ hy
      simpa using hp _ this
    have h3 := takeWhile_eq_self_of_forall _ T hall2
    simp only [first_token, stage_tokens, pipe_rest, last_byte, ht, hT, List.tail_cons, h3.1,
      h3.2, h1, h2, hc]
    simp

theorem plain_head {a : List Char} (h : is_plain a) :
    a ≠ ['|'] ∧ a ≠ ['&'] ∧ ¬ (peek a 0 = '<') ∧ ¬ (peek a 0 = '>') := by
  obtain ⟨hne, hc⟩ := h
  cases a with
  | nil => exact absurd rfl hne
  | cons x a =>
    have hx := hc x (by simp)
    refine ⟨?_, ?_, ?_, ?_⟩
    · intro e; exact hx.2.2.2.1 (List.cons.inj e).1
    · intro e; exact hx.2.2.2.2.1 (List.cons.inj e).1
    · exact hx.2.2.2.2.2.1
    · exact hx.2.2.2.2.2.2

theorem plain_arg_of_argument {a : List Char} (h : is_argument a) : plain_arg a = some a := by
  have hp := plain_head h.1
  have hq : '"' ≠ NUL := by decide
  have ha : '\'' ≠ NUL := by decide
  have h1 : ¬ (peek a 0 = '"') := fun e => h.2.1 ((peek_zero_iff a hq).1 e)
  have h2 : ¬ (peek a 0 = '\'') := fun e => h.2.2 ((peek_zero_iff a ha).1 e)
  simp [plain_arg, hp.2.1, hp.2.2.1, hp.2.2.2, unquote, h1, h2]

theorem redirect_step_of_plain {a : List Char} (h : is_plain a)
    (r : List (Option (List Char))) : redirect_step r a = r := by
  have hp := plain_head h
  simp [redirect_step, hp.2.2.1, hp.2.2.2]

theorem plain_args_arguments : ∀ (as : List (List Char)), (∀ a ∈ as, is_argument a) →
    ∀ (ts : List (List Char)), plain_args (as ++ ts) = as ++ plain_args ts := by
  intro as
  induction as with
  | nil => intro _ _; rfl
  | cons a as ih =>
    intro h ts
    have := ih (fun x hx => h x (List.mem_cons_of_mem _ hx)) ts
    unfold plain_args at this ⊢
    rw [List.cons_append, List.filterMap_cons, plain_arg_of_argument (h a (by simp)), this]
    rfl

theorem foldl_redirect_arguments : ∀ (as : List (List Char)), (∀ a ∈ as, is_argument a) →
    ∀ (ts : List (List Char)) (r : List (Option (List Char))),
      (as ++ ts).foldl redirect_step r = ts.foldl redirect_step r := by
  intro as
  induction as with
  | nil => intro _ _ _; rfl
  | cons a as ih =>
    intro h ts r
    rw [List.cons_append, List.foldl_cons, redirect_step_of_plain (h a (by simp)).1,
      ih (fun x hx => h x (List.mem_cons_of_mem _ hx))]

theorem cons_is_word {c : Char} (hc : c ≠ ' ' ∧ c ≠ '\t' ∧ c ≠ NUL) {p : List Char}
    (hp : ∀ x ∈ p, x ≠ ' ' ∧ x ≠ '\t' ∧ x ≠ NUL) : is_word (c :: p) := by
  refine ⟨by simp, ?_⟩
  intro x hx
  rcases List.mem_cons.1 hx with rfl | h
  · exact hc
  · exact hp x h

theorem plain_chars {w : List Char} (h : is_plain w) : ∀ x ∈ w, x ≠ ' ' ∧ x ≠ '\t' ∧ x ≠ NUL :=
  fun x hx => ⟨(h.2 x hx).1, (h.2 x hx).2.1, (h.2 x hx).2.2.1⟩

theorem redirect_words {as : List (List Char)} (has : ∀ a ∈ as, is_argument a)
    {rs : List (List Char)} (hrs : ∀ t ∈ rs, is_word t ∧ t ≠ ['|']) :
    (∀ t ∈ as ++ rs, is_word t) ∧ ∀ t ∈ as ++ rs, t ≠ ['|'] := by
  constructor
  · intro t ht
    rcases List.mem_append.1 ht with h | h
    · exact is_plain_word (has t h).1
    · exact (hrs t h).1
  · intro t ht
    rcases List.mem_append.1 ht with h | h
    · exact (plain_head (has t h).1).1
    · exact (hrs t h).2

theorem peek_one_plain {q : List Char} (hq : is_plain q) (c : Char) :
    ¬ (peek (c :: q) 1 = '>') := by
  obtain ⟨hne, hc⟩ := hq
  cases q with
  | nil => exact absurd rfl hne
  | cons x q => exact (hc x (by simp)).2.2.2.2.2.2

theorem amp_is_word : is_word ['&'] := ⟨by simp, by decide⟩

/-! ## The words of a line -/

theorem dropWhile_blank_idem (s : List Char) :
    (s.dropWhile blank).dropWhile blank = s.dropWhile blank := by
  have h := blank_peek_dropWhile s
  cases hs : s.dropWhile blank with
  | nil => rfl
  | cons a r =>
    rw [hs] at h
    simp only [peek_zero_cons] at h
    simp [List.dropWhile_cons, h]

theorem tokens_dropWhile_blank (s : List Char) : tokens (s.dropWhile blank) = tokens s := by
  have h1 : tok_at (s.dropWhile blank) = tok_at s := by
    unfold tok_at; rw [dropWhile_blank_idem]
  have h2 : tok_end (s.dropWhile blank) = tok_end s := by
    unfold tok_end; rw [dropWhile_blank_idem]
  by_cases ht : tok_at s = []
  · rw [tokens_of_tok_at_nil ht, tokens_of_tok_at_nil (by rw [h1]; exact ht)]
  · rw [tokens_of_tok_at ht, tokens_of_tok_at (by rw [h1]; exact ht), h1, h2]

theorem words_dropWhile_blank (s : List Char) : words (s.dropWhile blank) = words s := by
  unfold words; rw [tokens_dropWhile_blank]

theorem words_of_peek_NUL {s : List Char} (h : peek s 0 = NUL) : words s = [] := by
  unfold words; rw [tokens_of_tok_at_nil (tok_at_of_peek_NUL h)]; rfl

theorem words_cons_blank {b : Char} (hb : blank b = true) (s : List Char) :
    words (b :: s) = words s := by
  have := words_dropWhile_blank (b :: s)
  rw [List.dropWhile_cons, if_pos hb, words_dropWhile_blank] at this
  exact this.symm

theorem words_unfold {s : List Char} (h : tok_at s ≠ []) :
    words s = tok_at s ::
      (if peek (tok_end s) 0 = NUL then [] else words ((tok_end s).drop 1)) := by
  unfold words
  rw [tokens_of_tok_at h]
  split <;> rfl

theorem dropWhile_append_of_ne_nil (p : Char → Bool) : ∀ (s r : List Char),
    s.dropWhile p ≠ [] → (s ++ r).dropWhile p = s.dropWhile p ++ r := by
  intro s
  induction s with
  | nil => intro r h; exact absurd rfl h
  | cons a s ih =>
    intro r h
    by_cases ha : p a = true
    · simp only [List.cons_append, List.dropWhile_cons, ha, if_true] at h ⊢
      exact ih r h
    · simp only [List.cons_append, List.dropWhile_cons, ha, if_false, Bool.false_eq_true]

theorem blank_of_not_tokch {a : Char} (h : tokch a = false) (ha : a ≠ NUL) : blank a = true := by
  cases hb : blank a with
  | true => rfl
  | false => rw [tokch_iff.2 ⟨ha, hb⟩] at h; exact absurd h (by decide)

theorem words_of_not_tokch {r : List Char} (hr : tokch (peek r 0) = false) :
    words r = if peek r 0 = NUL then [] else words (r.drop 1) := by
  cases r with
  | nil => rfl
  | cons a r =>
    simp only [peek_zero_cons] at hr ⊢
    by_cases ha : a = NUL
    · subst ha
      rw [if_pos rfl]
      exact words_of_peek_NUL rfl
    · rw [if_neg ha, words_cons_blank (blank_of_not_tokch hr ha)]
      rfl

/-- The words of a line followed by a byte that ends a token, and then by more memory. -/
theorem words_append : ∀ (n : Nat) (s r : List Char), s.length ≤ n → NUL ∉ s →
    tokch (peek r 0) = false → words (s ++ r) = words s ++ words r := by
  intro n
  induction n with
  | zero =>
    intro s r hl _ _
    have : s = [] := List.length_eq_zero.1 (Nat.le_zero.1 hl)
    subst this
    rw [List.nil_append, show words [] = [] from rfl, List.nil_append]
  | succ n ih =>
    intro s r hl hN hr
    have hsplit := tok_at_append_tok_end s
    have hlen := tok_length_le s
    have hwr := words_of_not_tokch hr
    by_cases hs : s.dropWhile blank = []
    · have hall : ∀ c ∈ s, blank c = true := by
        intro c hc
        have := List.dropWhile_eq_nil_iff.1 hs c hc
        simpa using this
      have h2 : (s ++ r).dropWhile blank = r.dropWhile blank := by
        rw [List.dropWhile_append_of_pos hall]
      have h3 : words s = [] := by
        rw [← words_dropWhile_blank, hs]; rfl
      rw [← words_dropWhile_blank (s ++ r), h2, words_dropWhile_blank, h3, List.nil_append]
    · have hd : (s ++ r).dropWhile blank = tok_at s ++ (tok_end s ++ r) := by
        rw [dropWhile_append_of_ne_nil blank s r hs, ← hsplit, List.append_assoc]
      have ht : tok_at s ≠ [] := by
        intro e
        have h1 := (tok_at_eq_nil_iff s).1 e
        cases hd2 : s.dropWhile blank with
        | nil => exact hs hd2
        | cons a t =>
          rw [hd2] at h1
          simp only [peek_zero_cons] at h1
          have : a ∈ s := (List.dropWhile_suffix blank).subset (by rw [hd2]; simp)
          rw [h1] at this
          exact hN this
      have hpos : 0 < (tok_at s).length := List.length_pos.2 ht
      have htok : ∀ c ∈ tok_at s, tokch c = true := all_tokch_takeWhile _
      have hpe : tokch (peek (tok_end s ++ r) 0) = false := by
        cases he : tok_end s with
        | nil => simpa using hr
        | cons a t =>
          have := tokch_peek_dropWhile (s.dropWhile blank)
          rw [show (s.dropWhile blank).dropWhile tokch = tok_end s from rfl, he] at this
          simpa [peek] using this
      have hta : tok_at (s ++ r) = tok_at s ∧ tok_end (s ++ r) = tok_end s ++ r := by
        unfold tok_at tok_end
        rw [hd]
        exact takeWhile_tokch_append htok hpe
      have ht2 : tok_at (s ++ r) ≠ [] := by rw [hta.1]; exact ht
      rw [words_unfold ht2, words_unfold ht, hta.1, hta.2]
      cases he : tok_end s with
      | nil =>
        rw [List.nil_append, hwr]
        by_cases hp : peek r 0 = NUL
        · simp [hp, peek]
        · simp [hp, peek]
      | cons a t =>
        have haN : a ≠ NUL := by
          intro e
          have : a ∈ s := by
            have h1 : a ∈ s.dropWhile blank := by rw [← hsplit, he]; simp
            exact (List.dropWhile_suffix blank).subset h1
          rw [e] at this
          exact hN this
        have htN : NUL ∉ t := by
          intro hm
          have h1 : NUL ∈ s.dropWhile blank := by rw [← hsplit, he]; simp [hm]
          exact hN ((List.dropWhile_suffix blank).subset h1)
        have htl : t.length ≤ n := by
          rw [he] at hlen
          simp only [List.length_cons] at hlen
          omega
        simp only [List.cons_append, peek_zero_cons, haN, if_false, List.drop_one,
          List.tail_cons]
        rw [ih t r htl htN hr]

theorem words_cstr (m : List Char) : words (cstr m) = words m := by
  have h := words_append (cstr m).length (cstr m) (m.drop (strlen m)) (le_refl _)
    (not_mem_cstr m) (by rw [peek_drop_strlen]; decide)
  rw [cstr_append_drop, words_of_peek_NUL (peek_drop_strlen m), List.append_nil] at h
  exact h.symm

theorem words_rdropWhile (s : List Char) (hN : NUL ∉ s) :
    words (s.rdropWhile blank) = words s := by
  induction s using List.reverseRecOn with
  | nil => rfl
  | append_singleton s c ih =>
    have hN2 : NUL ∉ s := fun h => hN (by simp [h])
    by_cases hb : blank c = true
    · rw [List.rdropWhile_concat_pos _ _ _ hb, ih hN2,
        words_append s.length s [c] (le_refl _) hN2 (by simp [peek, tokch, hb]),
        words_cons_blank hb]
      exact (List.append_nil _).symm
    · rw [List.rdropWhile_concat_neg _ _ _ hb]

/-- Trimming does not change the words of the line. -/
theorem words_trimmed (m : List Char) : words (trimmed m) = words m := by
  rw [← words_cstr (trimmed m), cstr_trimmed, words_rdropWhile _ (not_mem_cstr _), words_cstr,
    words_dropWhile_blank]

theorem tokens_tail_cases {s : List Char} {x : List Char × List Char}
    {T : List (List Char × List Char)} (h : tokens s = x :: T) : T = [] ∨ T = tokens x.2 := by
  by_cases ht : tok_at s = []
  · rw [tokens_of_tok_at_nil ht] at h
    exact absurd h (by simp)
  · rw [tokens_of_tok_at ht] at h
    obtain ⟨h1, h2⟩ := List.cons.inj h
    rw [← h1, ← h2]
    by_cases he : peek (tok_end s) 0 = NUL
    · exact Or.inl (by simp [he])
    · exact Or.inr (by simp [he])

theorem tokens_suffix : ∀ (pre : List (List Char × List Char)) (s : List Char)
    (y : List Char × List Char) (D : List (List Char × List Char)),
    tokens s = pre ++ y :: D → D ≠ [] → tokens y.2 = D := by
  intro pre
  induction pre with
  | nil =>
    intro s y D h hD
    rcases tokens_tail_cases h with e | e
    · exact absurd e hD
    · exact e.symm
  | cons x pre ih =>
    intro s y D h hD
    rcases tokens_tail_cases h with e | e
    · exact absurd e (by simp)
    · exact ih x.2 y D e.symm hD

theorem map_takeWhile_fst (q : List Char → Bool) : ∀ (T : List (List Char × List Char)),
    (T.takeWhile (fun x => q x.1)).map Prod.fst = (T.map Prod.fst).takeWhile q ∧
      (T.dropWhile (fun x => q x.1)).map Prod.fst = (T.map Prod.fst).dropWhile q := by
  intro T
  induction T with
  | nil => exact ⟨rfl, rfl⟩
  | cons x T ih =>
    by_cases h : q x.1 = true
    · simp [List.takeWhile_cons, List.dropWhile_cons, h, ih.1, ih.2]
    · simp [List.takeWhile_cons, List.dropWhile_cons, h]

theorem first_token_words (m : List Char) : first_token m = (words m).headD [] := by
  rw [← words_trimmed m]
  unfold first_token words
  cases tokens (trimmed m) <;> rfl

theorem stage_tokens_words (m : List Char) :
    stage_tokens m = ((words m).tail).takeWhile (fun t => t != ['|']) := by
  rw [← words_trimmed m]
  unfold stage_tokens words
  rw [(map_takeWhile_fst (fun t => t != ['|']) _).1, List.map_tail]

theorem pipe_rest_words (m : List Char) :
    (((words m).tail).dropWhile (fun t => t != ['|']) = [] → pipe_rest m = none) ∧
      ∀ x post, ((words m).tail).dropWhile (fun t => t != ['|']) = x :: post →
        ∃ p, pipe_rest m = some p ∧ (post ≠ [] → words p = post) := by
  rw [← words_trimmed m]
  unfold pipe_rest words
  rw [← List.map_tail, ← (map_takeWhile_fst (fun t => t != ['|']) _).2]
  cases hD : ((tokens (trimmed m)).tail).dropWhile (fun x => x.1 != ['|']) with
  | nil =>
    refine ⟨fun _ => rfl, fun x post h => absurd h (by simp)⟩
  | cons y D =>
    refine ⟨fun h => absurd h (by simp), fun x post h => ?_⟩
    refine ⟨y.2.dropWhile blank, rfl, fun hpost => ?_⟩
    have hp : D.map Prod.fst = post := (List.cons.inj h).2
    have hDne : D ≠ [] := by
      intro e; rw [e] at hp; exact hpost hp.symm
    cases hT : tokens (trimmed m) with
    | nil => rw [hT] at hD; exact absurd hD (by simp)
    | cons x0 T =>
      rw [hT, List.tail_cons] at hD
      have hsplit : tokens (trimmed m)
          = (x0 :: T.takeWhile (fun x => x.1 != ['|'])) ++ y :: D := by
        rw [hT, List.cons_append, ← hD, List.takeWhile_append_dropWhile]
      have := tokens_suffix _ _ _ _ hsplit hDne
      rw [tokens_dropWhile_blank, this, hp]

/-! ## A final `&` that stands alone -/

theorem head_dropWhile_pipe {l : List (List Char)} {x : List Char} {post : List (List Char)}
    (h : l.dropWhile (fun t => t != ['|']) = x :: post) : x = ['|'] := by
  have := List.head_dropWhile_not (fun t => t != ['|']) l (by rw [h]; simp)
  simp only [h, List.head_cons] at this
  simpa using this

theorem getLast?_of_dropWhile {l : List (List Char)} {x : List Char} {post : List (List Char)}
    (q : List Char → Bool) (h : l.dropWhile q = x :: post) (w : List Char) :
    (w :: l).getLast? = (x :: post).getLast? := by
  have hs := List.takeWhile_append_dropWhile q l
  rw [h] at hs
  rw [← hs, ← List.cons_append, List.getLast?_append]
  simp [List.getLast?_cons]

theorem stage_fits_eq (good : List Char → Bool) : ∀ (T : List (List Char × List Char)),
    stage_fits good T =
      ((((T.takeWhile (fun x => x.1 != ['|'])).map Prod.fst).all
          (fun t => decide (t.length < 1024))) &&
        match ((T.dropWhile (fun x => x.1 != ['|'])).head?).map
            (fun x => x.2.dropWhile blank) with
        | none => true
        | some p => good p) := by
  intro T
  induction T with
  | nil => rfl
  | cons x T ih =>
    obtain ⟨t, rest⟩ := x
    by_cases h : t = ['|']
    · subst h
      simp [stage_fits, List.takeWhile_cons, List.dropWhile_cons]
    · have hb : (t != ['|']) = true := by simpa using h
      simp only [stage_fits, if_neg h, List.takeWhile_cons, List.dropWhile_cons, hb, if_true,
        List.map_cons, List.all_cons, ih, Bool.and_assoc]

/-- The tokens of a line go into `temp_buf` when the tokens of the first command do and the
piece behind the first `|` is such a line again. -/
theorem fits_fuel_succ (n : Nat) (buf : List Char) :
    fits_fuel (n + 1) buf =
      ((stage_tokens buf).all (fun t => decide (t.length < 1024)) &&
        match pipe_rest buf with
        | none => true
        | some p => fits_fuel n p) := by
  rw [fits_fuel, stage_fits_eq]
  rfl

theorem getLast?_dropWhile_cons {α : Type} (q : α → Bool) {l : List α} {x : α} {post : List α}
    (h : l.dropWhile q = x :: post) : l.getLast? = (x :: post).getLast? := by
  have hs := List.takeWhile_append_dropWhile q l
  rw [h] at hs
  rw [← hs, List.getLast?_append]
  simp [List.getLast?_cons]

/-- A line whose words behind the name are shorter than 1024 bytes, the last of them not a
`|`, is parsed without an overrun of `temp_buf`. -/
theorem fits_fuel_of_short : ∀ (n : Nat) (buf : List Char),
    (∀ t ∈ (words buf).tail, t.length < 1024) → ((words buf).tail).getLast? ≠ some ['|'] →
    fits_fuel n buf = true := by
  intro n
  induction n with
  | zero => intro _ _ _; rfl
  | succ n ih =>
    intro buf hshort hlast
    rw [fits_fuel_succ, Bool.and_eq_true]
    constructor
    · rw [List.all_eq_true]
      intro t ht
      rw [stage_tokens_words] at ht
      exact decide_eq_true (hshort t ((List.takeWhile_prefix _).subset ht))
    · have hp := pipe_rest_words buf
      cases hD : ((words buf).tail).dropWhile (fun t => t != ['|']) with
      | nil => rw [hp.1 hD]
      | cons x post =>
        obtain ⟨p, hp1, hp2⟩ := hp.2 x post hD
        rw [hp1]
        have hx := head_dropWhile_pipe hD
        have hl := getLast?_dropWhile_cons _ hD
        have hpost : post ≠ [] := by
          intro e
          apply hlast
          rw [hl, e, hx]
          rfl
        have hw := hp2 hpost
        have hsub : ∀ t ∈ post, t ∈ (words buf).tail := by
          intro t ht
          exact (List.dropWhile_suffix _).subset (by rw [hD]; exact List.mem_cons_of_mem _ ht)
        refine ih p ?_ ?_
        · intro t ht
          rw [hw] at ht
          exact hshort t (hsub t (List.mem_of_mem_tail ht))
        · rw [hw]
          obtain ⟨y, ys, rfl⟩ := List.exists_cons_of_ne_nil hpost
          cases ys with
          | nil => simp
          | cons z zs =>
            intro e
            apply hlast
            rw [hl, List.getLast?_cons_cons, List.getLast?_cons_cons]
            exact e

theorem fits_of_short {buf : List Char} (hshort : ∀ t ∈ (words buf).tail, t.length < 1024)
    (hlast : ((words buf).tail).getLast? ≠ some ['|']) : fits buf = true :=
  fits_fuel_of_short _ buf hshort hlast

/-- A token of 1024 bytes or more in the first command of the line overruns `temp_buf`. -/
theorem fits_of_long {buf : List Char} {t : List Char} (ht : t ∈ stage_tokens buf)
    (hlen : 1024 ≤ t.length) : fits buf = false := by
  rw [fits, fits_fuel_succ]
  have : (stage_tokens buf).all (fun t => decide (t.length < 1024)) = false := by
    rw [Bool.eq_false_iff]
    intro h
    rw [List.all_eq_true] at h
    have := of_decide_eq_true (h t ht)
    omega
  rw [this]
  rfl

theorem fits_spaced {n : List Char} {ts : List (List Char)} {tl : List Char}
    (hn : is_word n) (hts : ∀ t ∈ ts, is_word t) (hp : ∀ t ∈ ts, t ≠ ['|'])
    (htl : peek tl 0 = NUL) (hshort : ∀ t ∈ ts, t.length < 1024) :
    fits (spaced (n :: ts) ++ tl) = true := by
  have h := stage_of_spaced hn hts hp htl
  rw [fits, fits_fuel_succ, h.2.1, h.2.2.1, Bool.and_eq_true]
  refine ⟨?_, rfl⟩
  rw [List.all_eq_true]
  intro t ht
  exact decide_eq_true (hshort t ht)

theorem is_word_replicate {c : Char} (hc : c ≠ ' ' ∧ c ≠ '\t' ∧ c ≠ NUL) {k : Nat}
    (hk : 0 < k) : is_word (List.replicate k c) := by
  refine ⟨?_, ?_⟩
  · intro e
    have := congrArg List.length e
    simp at this
    omega
  · intro x hx
    rw [List.eq_of_mem_replicate hx]
    exact hc

/-- `parse_command` on a line of words `n t1 .. tk` without a `|`: an overrun as soon as
one of the words behind the name has 1024 bytes or more. -/
theorem parse_command_spaced_long {n : List Char} {ts : List (List Char)} {tl : List Char}
    (hn : is_word n) (hts : ∀ t ∈ ts, is_word t) (hp : ∀ t ∈ ts, t ≠ ['|'])
    (htl : peek tl 0 = NUL) {t : List Char} (ht : t ∈ ts) (hlen : 1024 ≤ t.length)
    (malloc : Nat → command_t) (command : command_t) :
    parse_command malloc (spaced (n :: ts) ++ tl) command = none := by
  refine parse_command_of_not_fits (fits_of_long ?_ hlen) malloc command
  rw [(stage_of_spaced hn hts hp htl).2.1]
  exact ht

theorem parse_command_overrun {n : List Char} {ts : List (List Char)} (hn : is_word n)
    (hts : ∀ t ∈ ts, is_word t) (hp : ∀ t ∈ ts, t ≠ ['|']) {t : List Char} (ht : t ∈ ts)
    (hlen : 1024 ≤ t.length) (malloc : Nat → command_t) (command : command_t) :
    parse_command malloc (spaced (n :: ts)) command = none := by
  have h := @parse_command_spaced_long n ts [] hn hts hp rfl t ht hlen malloc command
  rw [List.append_nil] at h
  exact h

theorem chain_parsed_single (malloc : Nat → command_t) {m : List Char}
    (h : pipe_rest m = none) :
    chain (parsed malloc m command_t.zero) = [parsed malloc m command_t.zero] := by
  rw [chain_parse_command _ _ rfl, h]

/-- A line without `|` whose words behind the name are shorter than 1024 bytes: `parse_command`
returns and leaves a chain of one command, whatever the heap holds. -/
theorem no_pipe_of_fits (malloc : Nat → command_t) (buf : List Char) (h : '|' ∉ cstr buf)
    (hshort : ∀ t ∈ (words buf).tail, t.length < 1024) :
    ∃ c, parse_command malloc buf command_t.zero = some c ∧ c.next = none ∧
      (chain c).length = 1 := by
  have hp := pipe_rest_eq_none h
  have hfit : fits buf = true := by
    rw [fits, fits_fuel_succ, hp, Bool.and_eq_true]
    refine ⟨?_, rfl⟩
    rw [List.all_eq_true]
    intro t ht
    rw [stage_tokens_words] at ht
    exact decide_eq_true (hshort t ((List.takeWhile_prefix _).subset ht))
  refine ⟨_, parse_command_of_fits hfit malloc command_t.zero, ?_, ?_⟩
  · rw [parsed_fields, hp]
    rfl
  · rw [chain_parsed_single malloc hp]
    rfl

/-! ## Tokens that fit into `temp_buf` -/

/-- For a token `strtok` returns inside the loop that has fewer than 1024 bytes: a token
`<p` puts `p` into `redirects[0]`, a token `>>p` puts `p` into `redirects[2]`, and a token
`>p` with `p` not beginning with `>` puts `p` into `redirects[1]`.  In all three cases the
other two slots keep their value, the arguments and `arg_index` stay as they were, and the
hidden pointer of `strtok` is untouched. -/
theorem redirection_token_of_fits
    (call : List Char → command_t → Option (command_t × List Char)) (fresh : command_t)
    (s pch olds : List Char) (command : command_t) (arg_index : Nat) (p : List Char)
    (hs : strtok s splitters = (some pch, olds)) (hr : command.redirects.length = 3)
    (hfit : strlen pch < 1024) :
    (cstr pch = '<' :: p →
      parse_token call fresh pch olds command arg_index =
        some ({ command with
            redirects := [some p, command.redirects.getD 1 none, command.redirects.getD 2 none] },
          arg_index, olds)) ∧
    (cstr pch = '>' :: '>' :: p →
      parse_token call fresh pch olds command arg_index =
        some ({ command with
            redirects := [command.redirects.getD 0 none, command.redirects.getD 1 none, some p] },
          arg_index, olds)) ∧
    (cstr pch = '>' :: p → p.head? ≠ some '>' →
      parse_token call fresh pch olds command arg_index =
        some ({ command with
            redirects := [command.redirects.getD 0 none, some p, command.redirects.getD 2 none] },
          arg_index, olds)) := by
  have ht := strtok_token hs
  refine ⟨fun h => ?_, fun h => ?_, fun h hp => ?_⟩
  · have hne : cstr pch ≠ ['|'] := by
      rw [h]; intro e; exact absurd (List.cons.inj e).1 (by decide)
    rw [parse_token_step call (fun p c => (c, p)) fresh pch olds command arg_index ht.1 ht.2
      hne hfit, parsed_token_step _ fresh pch olds command arg_index ht.1 ht.2 hne, h,
      token_step_lt, set_three_zero hr]
  · have hne : cstr pch ≠ ['|'] := by
      rw [h]; intro e; exact absurd (List.cons.inj e).1 (by decide)
    rw [parse_token_step call (fun p c => (c, p)) fresh pch olds command arg_index ht.1 ht.2
      hne hfit, parsed_token_step _ fresh pch olds command arg_index ht.1 ht.2 hne, h,
      token_step_gtgt, set_three_two hr]
  · have hne : cstr pch ≠ ['|'] := by
      rw [h]; intro e; exact absurd (List.cons.inj e).1 (by decide)
    rw [parse_token_step call (fun p c => (c, p)) fresh pch olds command arg_index ht.1 ht.2
      hne hfit, parsed_token_step _ fresh pch olds command arg_index ht.1 ht.2 hne, h,
      token_step_gt p hp, set_three_one hr]

/-- For a token `strtok` returns inside the loop that has fewer than 1024 bytes, is neither
`|` nor `&` and does not begin with `<` or `>`: the loop stores one new argument in
`args[arg_index]` and raises `arg_index` by one.  The argument is the token without its first
and last byte when the token is longer than two bytes and both bytes are `"` or both are
`'`; in every other case it is the token unchanged. -/
theorem plain_token_of_fits
    (call : List Char → command_t → Option (command_t × List Char)) (fresh : command_t)
    (s pch olds : List Char) (command : command_t) (arg_index : Nat)
    (hs : strtok s splitters = (some pch, olds))
    (h1 : cstr pch ≠ ['|']) (h2 : cstr pch ≠ ['&'])
    (h3 : (cstr pch).head? ≠ some '<') (h4 : (cstr pch).head? ≠ some '>')
    (hfit : strlen pch < 1024) :
    ∃ c, parse_token call fresh pch olds command arg_index = some (c, arg_index + 1, olds) ∧
      c.redirects = command.redirects ∧
      c.args.getD arg_index none =
        some (if 2 < (cstr pch).length ∧
            (((cstr pch).head? = some '"' ∧ (cstr pch).getLast? = some '"') ∨
              ((cstr pch).head? = some '\'' ∧ (cstr pch).getLast? = some '\''))
          then (cstr pch).dropLast.tail else cstr pch) := by
  have ht := strtok_token hs
  rw [parse_token_step call (fun p c => (c, p)) fresh pch olds command arg_index ht.1 ht.2
    h1 hfit, parsed_token_step _ fresh pch olds command arg_index ht.1 ht.2 h1,
    token_step_plain h2 h3 h4, ← unquote_eq]
  refine ⟨_, rfl, rfl, ?_⟩
  simp only
  rw [List.getD_eq_getElem?_getD, List.getElem?_append_right (by rw [length_realloc]),
    length_realloc, Nat.sub_self]
  rfl

/-! ## The claims on the parser -/

/-- Claim C9.  For the empty line and for every line of blanks and tabs only, `parse_command`
applied to a zero-initialised command returns, whatever the fresh blocks of the heap hold,
and leaves one command: its name is the empty string, its arguments are the name and the
closing `NULL` only, no slot of `redirects` is set, both flags are false and there is no
`next`. -/
theorem blank_line_empty_stage (malloc : Nat → command_t) (buf : List Char)
    (h : ∀ c ∈ cstr buf, blank c = true) :
    parse_command malloc buf command_t.zero =
      some { name := some [], background := false, auto_complete := false, arg_count := 2,
             args := [some [], none], redirects := [none, none, none], next := none } := by
  have ht := tokens_trimmed_of_blank h
  have hst : stage_tokens buf = [] := by simp only [stage_tokens, ht.1]; rfl
  have hpr : pipe_rest buf = none := by simp only [pipe_rest, ht.1]; rfl
  have hfit : fits buf = true := by
    rw [fits, fits_fuel_succ, hst, hpr]
    rfl
  rw [parse_command_of_fits hfit, parsed_fields]
  simp only [first_token, stage_tokens, pipe_rest, ht.1, ht.2]
  rfl

/-- Witness for C9 at a line of two blanks and a tab. -/
theorem blank_line_empty_stage_witness :
    (∀ c ∈ cstr [' ', '\t', ' '], blank c = true) ∧
      parse_command stale [' ', '\t', ' '] command_t.zero =
        some { name := some [], background := false, auto_complete := false, arg_count := 2,
               args := [some [], none], redirects := [none, none, none], next := none } :=
  ⟨by decide, blank_line_empty_stage stale _ (by decide)⟩

/-- Claim C10, evaluated at the line `ls ` followed by 1100 bytes `a`.  The line holds no
`|`, and `parse_command` does not leave a chain of length 1: the second token is copied
into the 1024 bytes of `temp_buf` and overruns them, whatever the heap holds. -/
theorem long_line_without_pipe (malloc : Nat → command_t) :
    '|' ∉ "ls ".toList ++ List.replicate 1100 'a' ∧
      parse_command malloc ("ls ".toList ++ List.replicate 1100 'a') command_t.zero = none := by
  have hw : is_word (List.replicate 1100 'a') := is_word_replicate (by decide) (by decide)
  have e : ∀ X : List Char, "ls ".toList ++ X = spaced ["ls".toList, X] := fun _ => rfl
  refine ⟨?_, ?_⟩
  · intro hm
    rcases List.mem_append.1 hm with h | h
    · exact absurd h (by decide)
    · exact absurd (List.eq_of_mem_replicate h) (by decide)
  · rw [e]
    refine parse_command_overrun ⟨by decide, by decide⟩ ?_ ?_
      (List.mem_singleton.2 rfl) (by rw [List.length_replicate]; decide) malloc _
    · intro t ht
      rw [List.mem_singleton.1 ht]
      exact hw
    · intro t ht e2
      rw [List.mem_singleton.1 ht] at e2
      have := congrArg List.length e2
      rw [List.length_replicate] at this
      exact absurd this (by decide)

/-- Claim C3, evaluated at the line `cat <` followed by 1100 bytes `a`: a token `<p` behind
the first token of the command.  `redirects[0]` does not become `p`: the token is first
copied into the 1024 bytes of `temp_buf` and overruns them, so `parse_command` leaves no
command at all. -/
theorem long_redirection_token (malloc : Nat → command_t) :
    parse_command malloc ("cat <".toList ++ List.replicate 1100 'a') command_t.zero = none := by
  have hw : is_word ('<' :: List.replicate 1100 'a') :=
    cons_is_word (by decide) (is_word_replicate (by decide) (Nat.succ_pos 1099)).2
  have e : ∀ X : List Char, "cat <".toList ++ X = spaced ["cat".toList, '<' :: X] :=
    fun _ => rfl
  rw [e]
  refine parse_command_overrun ⟨by decide, by decide⟩ ?_ ?_
    (List.mem_singleton.2 rfl) (by rw [List.length_cons, List.length_replicate]; decide)
    malloc _
  · intro t ht
    rw [List.mem_singleton.1 ht]
    exact hw
  · intro t ht e2
    rw [List.mem_singleton.1 ht] at e2
    exact absurd (List.cons.inj e2).1 (by decide)

/-- Claim C5, evaluated at the line `echo "aaa...a"` with 1100 bytes `a` between the quotes:
a token that is neither `|` nor `&`, does not begin with `<` or `>`, is longer than two bytes
and has `"` as its first and its last byte.  No argument is recorded: the token is first
copied into the 1024 bytes of `temp_buf` and overruns them, so `parse_command` leaves no
command at all. -/
theorem long_quoted_token (malloc : Nat → command_t) :
    parse_command malloc ("echo \"".toList ++ List.replicate 1100 'a' ++ ['"'])
      command_t.zero = none := by
  have hw : is_word ('"' :: (List.replicate 1100 'a' ++ ['"'])) := by
    refine cons_is_word (by decide) ?_
    intro x hx
    rcases List.mem_append.1 hx with h | h
    · rw [List.eq_of_mem_replicate h]
      decide
    · rw [List.mem_singleton.1 h]
      decide
  have e : ∀ X : List Char, "echo \"".toList ++ X ++ ['"']
      = spaced ["echo".toList, '"' :: (X ++ ['"'])] := fun _ => rfl
  rw [e]
  refine parse_command_overrun ⟨by decide, by decide⟩ ?_ ?_
    (List.mem_singleton.2 rfl)
    (by rw [List.length_cons, List.length_append, List.length_replicate]; decide) malloc _
  · intro t ht
    rw [List.mem_singleton.1 ht]
    exact hw
  · intro t ht e2
    rw [List.mem_singleton.1 ht] at e2
    exact absurd (List.cons.inj e2).1 (by decide)

/-- Claim C8, evaluated at the line `sort <a <` followed by 1100 bytes `b`: two redirections
of the input in one command.  The path of the last one is not stored: its token is first
copied into the 1024 bytes of `temp_buf` and overruns them, so `parse_command` leaves no
command at all. -/
theorem long_second_redirection (malloc : Nat → command_t) :
    parse_command malloc ("sort <a <".toList ++ List.replicate 1100 'b') command_t.zero
      = none := by
  have hw : is_word ('<' :: List.replicate 1100 'b') :=
    cons_is_word (by decide) (is_word_replicate (by decide) (Nat.succ_pos 1099)).2
  have e : ∀ X : List Char, "sort <a <".toList ++ X
      = spaced ["sort".toList, "<a".toList, '<' :: X] := fun _ => rfl
  rw [e]
  refine parse_command_overrun ⟨by decide, by decide⟩ ?_ ?_
    (List.mem_cons_of_mem _ (List.mem_singleton.2 rfl))
    (by rw [List.length_cons, List.length_replicate]; decide) malloc _
  · intro t ht
    simp only [List.mem_cons, List.mem_singleton, List.not_mem_nil, or_false] at ht
    rcases ht with rfl | rfl
    · exact ⟨by decide, by decide⟩
    · exact hw
  · intro t ht e2
    simp only [List.mem_cons, List.mem_singleton, List.not_mem_nil, or_false] at ht
    rcases ht with rfl | rfl
    · exact absurd e2 (by decide)
    · exact absurd (List.cons.inj e2).1 (by decide)

/-- Claim C1, evaluated at the line `k | a | b` on a heap whose fresh blocks hold what an
earlier use left behind.  The commands behind a `|` are built in such a block, of which
`parse_command` sets the name and the arguments only: the commands `a` and `b` have all
three redirections set, and the chain goes on behind `b` with the block that the stale
pointer `next` names, so it has four commands and not three. -/
theorem pipeline_on_stale_heap :
    (parse_command stale "k | a | b".toList command_t.zero).map
        (fun c => (chain c).map (fun σ => (σ.name, σ.redirects)))
      = some [(some ['k'], [none, none, none]),
          (some ['a'], [some ['4'], some ['5'], some ['6']]),
          (some ['b'], [some ['4'], some ['5'], some ['6']]),
          (none, [none, none, none])] := by
  decide

/-- Claim C4, evaluated at the line `a 1 2 3 4 5 6 7 8 | b` on a heap whose fresh blocks hold
what an earlier use left behind.  The command `b` is built in such a block and keeps its stale
pointer `next`, so the chain has a third command that no call of `parse_command` has filled:
it has no name, no argument vector, and its `arg_count` is 0, not the number of its plain
arguments plus 2. -/
theorem args_on_stale_heap :
    (parse_command stale "a 1 2 3 4 5 6 7 8 | b".toList command_t.zero).map
        (fun c => (chain c).map (fun σ => (σ.name, σ.args, σ.arg_count)))
      = some [(some ['a'],
            [some ['a'], some ['1'], some ['2'], some ['3'], some ['4'], some ['5'], some ['6'],
              some ['7'], some ['8'], none], 10),
          (some ['b'], [some ['b'], none], 2),
          (none, [], 0)] := by
  decide

/-- Counterexample to C2 as it is stated: in `grep foo < in.txt > out.txt` the operators
stand alone as tokens, so each of them stores the empty path, and the two paths become
arguments. -/
theorem spaced_redirection_counterexample :
    (parse_command zeroed "grep foo < in.txt > out.txt".toList command_t.zero).map
        (fun c => (c.args, c.redirects))
      = some ([some "grep".toList, some "foo".toList, some "in.txt".toList,
                some "out.txt".toList, none],
              [some [], some [], none]) := by
  decide

/-- Claim C2 as amended.  For every program name `n`, arguments `a1 .. am` and paths `p`, `q`
(non-empty words without whitespace and without `|`, `&`, `<`, `>`; an argument does not begin
with a quote), every token behind the name shorter than the 1024 bytes of `temp_buf`,
`parse_command` applied to `n a1 .. am <p >q`, each operator written directly in front of its
path, returns and leaves one command with the arguments `n, a1, .., am` and the closing
`NULL`, with `p` in `redirects[0]` and `q` in `redirects[1]`, whatever the heap holds. -/
theorem attached_redirections (malloc : Nat → command_t) (n : List Char)
    (as : List (List Char)) (p q tl : List Char)
    (hn : is_plain n) (has : ∀ a ∈ as, is_argument a) (hp : is_plain p) (hq : is_plain q)
    (htl : peek tl 0 = NUL) (hal : ∀ a ∈ as, a.length < 1024) (hpl : p.length < 1023)
    (hql : q.length < 1023) :
    ∃ c, parse_command malloc (spaced (n :: (as ++ ['<' :: p, '>' :: q])) ++ tl)
          command_t.zero = some c ∧
      c.name = some n ∧ c.args = some n :: as.map some ++ [none] ∧
      c.redirects = [some p, some q, none] ∧ c.next = none := by
  have hlt : is_word ('<' :: p) := cons_is_word (by decide) (plain_chars hp)
  have hgt : is_word ('>' :: q) := cons_is_word (by decide) (plain_chars hq)
  have hrs : ∀ t ∈ ['<' :: p, '>' :: q], is_word t ∧ t ≠ ['|'] := by
    intro t ht
    simp only [List.mem_cons, List.mem_singleton, List.not_mem_nil, or_false] at ht
    rcases ht with rfl | rfl
    · exact ⟨hlt, fun e => absurd (List.cons.inj e).1 (by decide)⟩
    · exact ⟨hgt, fun e => absurd (List.cons.inj e).1 (by decide)⟩
  have hw := redirect_words has hrs
  have hst := stage_of_spaced (is_plain_word hn) hw.1 hw.2 htl
  have hfit : fits (spaced (n :: (as ++ ['<' :: p, '>' :: q])) ++ tl) = true := by
    refine fits_spaced (is_plain_word hn) hw.1 hw.2 htl ?_
    intro t ht
    rcases List.mem_append.1 ht with h | h
    · exact hal t h
    · simp only [List.mem_cons, List.mem_singleton, List.not_mem_nil, or_false] at h
      rcases h with rfl | rfl
      · rw [List.length_cons]; omega
      · rw [List.length_cons]; omega
  have hpl : plain_args (as ++ ['<' :: p, '>' :: q]) = as := by
    rw [plain_args_arguments as has]
    simp [plain_args, plain_arg, peek]
  have hg : ¬ ('>' = '<') := by decide
  have hq1 := peek_one_plain hq '>'
  have hfl : (as ++ ['<' :: p, '>' :: q]).foldl redirect_step command_t.zero.redirects
      = [some p, some q, none] := by
    rw [foldl_redirect_arguments as has]
    simp only [List.foldl_cons, List.foldl_nil, redirect_step, peek_zero_cons, if_true, hg,
      if_false, hq1]
    rfl
  refine ⟨_, parse_command_of_fits hfit malloc command_t.zero, ?_⟩
  rw [parsed_fields, hst.1, hst.2.1, hst.2.2.1, hpl, hfl]
  exact ⟨rfl, rfl, rfl, rfl⟩

/-- Witness for C2 as amended: `grep foo <in.txt >out.txt`, on a heap of stale blocks. -/
theorem attached_redirections_witness :
    spaced ("grep".toList :: (["foo".toList] ++ ['<' :: "in.txt".toList, '>' :: "out.txt".toList]))
        ++ [] = "grep foo <in.txt >out.txt".toList ∧
      ∃ c, parse_command stale (spaced ("grep".toList ::
            (["foo".toList] ++ ['<' :: "in.txt".toList, '>' :: "out.txt".toList])) ++ [])
          command_t.zero = some c ∧
        c.name = some "grep".toList ∧
        c.args = some "grep".toList :: ["foo".toList].map some ++ [none] ∧
        c.redirects = [some "in.txt".toList, some "out.txt".toList, none] ∧ c.next = none :=
  ⟨by decide,
    attached_redirections stale "grep".toList ["foo".toList] "in.txt".toList "out.txt".toList []
      ⟨by decide, by decide⟩
      (by
        intro a ha
        rw [List.mem_singleton.1 ha]
        exact ⟨⟨by decide, by decide⟩, by decide, by decide⟩)
      ⟨by decide, by decide⟩ ⟨by decide, by decide⟩ rfl (by decide) (by decide) (by decide)⟩

/-- Counterexample to C6 as it is stated: in `echo hi >> log.txt &` the token `>>` stands
alone, so the path stored for appending is empty and `log.txt` becomes an argument. -/
theorem spaced_append_counterexample :
    (parse_command zeroed "echo hi >> log.txt &".toList command_t.zero).map
        (fun c => (c.redirects, c.args, c.background))
      = some ([none, none, some []],
              [some "echo".toList, some "hi".toList, some "log.txt".toList, none], true) := by
  decide

/-- Claim C6 as amended.  For every program name `n`, arguments `a1 .. am` and path `p`
(non-empty words without whitespace and without `|`, `&`, `<`, `>`; an argument does not begin
with a quote), every token behind the name shorter than the 1024 bytes of `temp_buf`,
`parse_command` applied to `n a1 .. am >>p &`, the operator written directly in front of the
path, returns and leaves a command with `p` in `redirects[2]`, with `background` set, and
with the arguments `n, a1, .., am` and the closing `NULL`, none of which is `&`, whatever the
heap holds. -/
theorem attached_append_background (malloc : Nat → command_t) (n : List Char)
    (as : List (List Char)) (p tl : List Char)
    (hn : is_plain n) (has : ∀ a ∈ as, is_argument a) (hp : is_plain p)
    (htl : peek tl 0 = NUL) (hal : ∀ a ∈ as, a.length < 1024) (hpl : p.length < 1022) :
    ∃ c, parse_command malloc (spaced (n :: (as ++ ['>' :: '>' :: p, ['&']])) ++ tl)
          command_t.zero = some c ∧
      c.redirects = [none, none, some p] ∧ c.background = true ∧
      c.args = some n :: as.map some ++ [none] ∧ some ['&'] ∉ c.args := by
  have hgg : is_word ('>' :: '>' :: p) :=
    cons_is_word (by decide) (cons_is_word (by decide) (plain_chars hp)).2
  have hrs : ∀ t ∈ ['>' :: '>' :: p, ['&']], is_word t ∧ t ≠ ['|'] := by
    intro t ht
    simp only [List.mem_cons, List.mem_singleton, List.not_mem_nil, or_false] at ht
    rcases ht with rfl | rfl
    · exact ⟨hgg, fun e => absurd (List.cons.inj e).1 (by decide)⟩
    · exact ⟨amp_is_word, by decide⟩
  have hw := redirect_words has hrs
  have hst := stage_of_spaced (is_plain_word hn) hw.1 hw.2 htl
  have hfit : fits (spaced (n :: (as ++ ['>' :: '>' :: p, ['&']])) ++ tl) = true := by
    refine fits_spaced (is_plain_word hn) hw.1 hw.2 htl ?_
    intro t ht
    rcases List.mem_append.1 ht with h | h
    · exact hal t h
    · simp only [List.mem_cons, List.mem_singleton, List.not_mem_nil, or_false] at h
      rcases h with rfl | rfl
      · rw [List.length_cons, List.length_cons]; omega
      · decide
  have hpl : plain_args (as ++ ['>' :: '>' :: p, ['&']]) = as := by
    rw [plain_args_arguments as has]
    simp [plain_args, plain_arg, peek]
  have hg : ¬ ('>' = '<') := by decide
  have ha1 : ¬ ('&' = '<') := by decide
  have ha2 : ¬ ('&' = '>') := by decide
  have hfl : (as ++ ['>' :: '>' :: p, ['&']]).foldl redirect_step command_t.zero.redirects
      = [none, none, some p] := by
    rw [foldl_redirect_arguments as has]
    simp only [List.foldl_cons, List.foldl_nil, redirect_step, peek_zero_cons, if_true, hg,
      if_false, peek_succ_cons, ha1, ha2]
    rfl
  have hlast : (spaced (n :: (as ++ ['>' :: '>' :: p, ['&']]))).getLast? = some '&' := by
    have : n :: (as ++ ['>' :: '>' :: p, ['&']]) = (n :: (as ++ ['>' :: '>' :: p])) ++ [['&']] := by
      simp
    rw [this, spaced_concat _ _ (by simp), List.getLast?_append]
    rfl
  have hargs : (parsed malloc (spaced (n :: (as ++ ['>' :: '>' :: p, ['&']])) ++ tl)
      command_t.zero).args = some n :: as.map some ++ [none] := by
    rw [parsed_fields, hst.1, hst.2.1, hpl]
  refine ⟨_, parse_command_of_fits hfit malloc command_t.zero, ?_, ?_, hargs, ?_⟩
  · rw [parsed_fields, hst.2.1, hfl]
  · rw [parsed_fields, hst.2.2.2, hlast]
    rfl
  · rw [hargs]
    intro hm
    rw [List.cons_append, List.mem_cons, List.mem_append, List.mem_map,
      List.mem_singleton] at hm
    rcases hm with e | ⟨a, ha, e⟩ | e
    · exact (plain_head hn).2.1 (Option.some.inj e).symm
    · exact (plain_head (has a ha).1).2.1 (Option.some.inj e)
    · exact absurd e (by simp)

/-- Witness for C6 as amended: `echo hi >>log.txt &`, on a heap of stale blocks. -/
theorem attached_append_background_witness :
    spaced ("echo".toList :: (["hi".toList] ++ ['>' :: '>' :: "log.txt".toList, ['&']])) ++ []
        = "echo hi >>log.txt &".toList ∧
      ∃ c, parse_command stale (spaced ("echo".toList ::
            (["hi".toList] ++ ['>' :: '>' :: "log.txt".toList, ['&']])) ++ [])
          command_t.zero = some c ∧
        c.redirects = [none, none, some "log.txt".toList] ∧ c.background = true ∧
        c.args = some "echo".toList :: ["hi".toList].map some ++ [none] ∧
        some ['&'] ∉ c.args :=
  ⟨by decide,
    attached_append_background stale "echo".toList ["hi".toList] "log.txt".toList []
      ⟨by decide, by decide⟩
      (by
        intro a ha
        rw [List.mem_singleton.1 ha]
        exact ⟨⟨by decide, by decide⟩, by decide, by decide⟩)
      ⟨by decide, by decide⟩ rfl (by decide) (by decide)⟩

theorem process_command_empty (env : env_t) (command : command_t) {name : List Char}
    (hn : command.name = some name) (h : cstr name = []) :
    process_command env command = proc.done (outcome.returned SUCCESS) := by
  simp [process_command, hn, strcmp_eq, h]

theorem process_command_exit (env : env_t) (command : command_t) {name : List Char}
    (hn : command.name = some name) (h : cstr name = "exit".toList) :
    process_command env command = proc.done (outcome.returned EXIT) := by
  simp [process_command, hn, strcmp_eq, h]

theorem process_command_cd (env : env_t) (command : command_t) {name : List Char}
    (hn : command.name = some name) (h : cstr name = "cd".toList) (ha : command.arg_count > 0) :
    process_command env command =
      proc.act (action.chdir (command.args.getD 0 none))
        (if env.chdir (command.args.getD 0 none) then proc.done (outcome.returned SUCCESS)
         else proc.act (action.printf "-%s: %s: %s\n") (proc.done (outcome.returned SUCCESS))) := by
  simp [process_command, hn, strcmp_eq, h, ha]

theorem process_command_launch (env : env_t) (command : command_t) {name : List Char}
    (hn : command.name = some name) (h1 : cstr name ≠ []) (h2 : cstr name ≠ "exit".toList)
    (h3 : cstr name ≠ "cd".toList ∨ command.arg_count = 0) :
    process_command env command =
      if env.fork_shell then
        proc.fork none (process_command_child env command name)
          (proc.act action.waitpid (proc.done (outcome.returned SUCCESS)))
      else proc.act action.waitpid (proc.done (outcome.returned SUCCESS)) := by
  have h3 : ¬ (cstr name = "cd".toList ∧ 0 < command.arg_count) := by
    rintro ⟨a, b⟩
    rcases h3 with h3 | h3
    · exact h3 a
    · omega
  simp only [process_command, hn, strcmp_eq, beq_iff_eq, h1, h2, if_false, Bool.and_eq_true,
    decide_eq_true_eq, gt_iff_lt, h3]

theorem process_command_outcome (env : env_t) (command : command_t) {name : List Char}
    (hn : command.name = some name) (h : cstr name ≠ "exit".toList) :
    (process_command env command).outcome = outcome.returned SUCCESS := by
  by_cases h1 : cstr name = []
  · rw [process_command_empty env command hn h1]; rfl
  by_cases h3 : cstr name = "cd".toList ∧ command.arg_count > 0
  · rw [process_command_cd env command hn h3.1 h3.2]
    cases env.chdir (command.args.getD 0 none) <;> rfl
  · rw [process_command_launch env command hn h1 h
      (by by_cases a : cstr name = "cd".toList
          · right
            by_contra b
            exact h3 ⟨a, Nat.pos_of_ne_zero b⟩
          · left; exact a)]
    cases env.fork_shell <;> rfl

theorem process_command_trace (env : env_t) (command : command_t) {name : List Char}
    (hn : command.name = some name) (h1 : cstr name ≠ []) (h2 : cstr name ≠ "exit".toList)
    (h3 : cstr name ≠ "cd".toList ∨ command.arg_count = 0) :
    (process_command env command).trace = [action.waitpid] := by
  rw [process_command_launch env command hn h1 h2 h3]
  cases env.fork_shell <;> rfl

/-- Claim C14, counterexample.  With `nosuch` impossible to execute, the pipeline
`ls | nosuch | wc` has three commands, the process of its middle command ends with status 1,
and `process_command` returns `SUCCESS` in the shell process. -/
theorem failed_stage_counterexample :
    ∃ c, parse_command zeroed "ls | nosuch | wc".toList command_t.zero = some c ∧
      (chain c).length = 3 ∧
      ((process_command (env_t.missing "nosuch".toList) c).descendants.map
        (fun d => (d.1, d.2.outcome))) =
        [(none, outcome.exited 0), (some 0, outcome.replaced), (some 1, outcome.exited 1),
          (some 2, outcome.replaced)] ∧
      (process_command (env_t.missing "nosuch".toList) c).outcome =
        outcome.returned SUCCESS :=
  ⟨_, parse_command_of_fits (by decide) zeroed command_t.zero, by decide⟩

/-- Claim C14, as amended.  For every command whose name is not `exit` and for every way the
system answers, `process_command` returns `SUCCESS` in the shell process: nothing in it
depends on how a launched process ends. -/
theorem shell_returns_success (env : env_t) (command : command_t) (name : List Char)
    (hn : command.name = some name) (h : cstr name ≠ "exit".toList) :
    (process_command env command).outcome = outcome.returned SUCCESS :=
  process_command_outcome env command hn h

/-- Witness for C14 at the line `ls | nosuch | wc` with `nosuch` impossible to execute. -/
theorem shell_returns_success_witness :
    ∃ c, parse_command zeroed "ls | nosuch | wc".toList command_t.zero = some c ∧
      c.name = some "ls".toList ∧
      (process_command (env_t.missing "nosuch".toList) c).outcome = outcome.returned SUCCESS :=
  ⟨_, parse_command_of_fits (by decide) zeroed command_t.zero, by decide,
    shell_returns_success _ _ "ls".toList (by decide) (by decide)⟩

/-- Claim C15, evaluated at the line `cd /tmp`.  The first argument the user gave is
`/tmp` and stands in `args[1]`; `process_command` hands `args[0]`, the name `cd`, to `chdir`,
whatever the system answers, and no call asks for a change to `/tmp`. -/
theorem cd_changes_to_name (env : env_t) :
    ∃ c, parse_command zeroed "cd /tmp".toList command_t.zero = some c ∧
      c.args.getD 1 none = some "/tmp".toList ∧
      (process_command env c).trace.head? = some (action.chdir (some "cd".toList)) ∧
      action.chdir (some "/tmp".toList) ∉ (process_command env c).calls := by
  have hn : (parsed zeroed "cd /tmp".toList command_t.zero).name = some "cd".toList := by
    decide
  have ha : (parsed zeroed "cd /tmp".toList command_t.zero).arg_count > 0 := by decide
  have h0 : (parsed zeroed "cd /tmp".toList command_t.zero).args.getD 0 none =
      some "cd".toList := by decide
  refine ⟨_, parse_command_of_fits (by decide) zeroed command_t.zero, by decide, ?_, ?_⟩
  · rw [process_command_cd env _ hn (by decide) ha, h0]
    rfl
  · rw [process_command_cd env _ hn (by decide) ha, h0]
    cases env.chdir (some "cd".toList) <;> decide

/-- Claim C16, counterexample.  The chain parsed from `exit | ls` has two commands and the
first is named `exit`; `process_command` returns `EXIT` and launches nothing.  The chain
parsed from `cd /tmp | ls` has two commands and the first is named `cd`; `process_command`
calls `chdir` in the shell process and launches nothing. -/
theorem intrinsic_in_pipeline_counterexample :
    ∃ c1 c2, parse_command zeroed "exit | ls".toList command_t.zero = some c1 ∧
      parse_command zeroed "cd /tmp | ls".toList command_t.zero = some c2 ∧
      (chain c1).length = 2 ∧ c1.name = some "exit".toList ∧
      process_command env_t.ok c1 = proc.done (outcome.returned EXIT) ∧
      (chain c2).length = 2 ∧ c2.name = some "cd".toList ∧
      process_command env_t.ok c2 =
        proc.act (action.chdir (some "cd".toList)) (proc.done (outcome.returned SUCCESS)) :=
  ⟨_, _, parse_command_of_fits (by decide) zeroed command_t.zero,
    parse_command_of_fits (by decide) zeroed command_t.zero,
    by decide, by decide, by decide, by decide, by decide, by decide⟩

/-- Claim C16, as amended.  `process_command` recognises `exit` and `cd` by the name of the
first command alone, whatever the length of the chain.  For every command named `exit` it
returns `EXIT` without any call or launch.  For every command named `cd` with a positive
`arg_count` its first call is a call of `chdir`, it forks nothing and it returns `SUCCESS`.
Which path that call hands over is not part of this statement. -/
theorem intrinsics_by_name (env : env_t) (command : command_t) (name : List Char)
    (hn : command.name = some name) :
    (cstr name = "exit".toList →
      process_command env command = proc.done (outcome.returned EXIT)) ∧
    (cstr name = "cd".toList → command.arg_count > 0 →
      (∃ path, (process_command env command).trace.head? = some (action.chdir path)) ∧
        (process_command env command).descendants = [] ∧
        (process_command env command).outcome = outcome.returned SUCCESS) := by
  refine ⟨fun h => process_command_exit env command hn h, fun h ha => ?_⟩
  rw [process_command_cd env command hn h ha]
  cases env.chdir (command.args.getD 0 none) <;> exact ⟨⟨_, rfl⟩, rfl, rfl⟩

/-- Witness for C16 at the lines `exit | ls` and `cd /tmp | ls`. -/
theorem intrinsics_by_name_witness :
    ∃ c1 c2, parse_command zeroed "exit | ls".toList command_t.zero = some c1 ∧
      parse_command zeroed "cd /tmp | ls".toList command_t.zero = some c2 ∧
      process_command env_t.ok c1 = proc.done (outcome.returned EXIT) ∧
      (process_command env_t.no_dir c2).descendants = [] ∧
      (process_command env_t.no_dir c2).outcome = outcome.returned SUCCESS :=
  ⟨_, _, parse_command_of_fits (by decide) zeroed command_t.zero,
    parse_command_of_fits (by decide) zeroed command_t.zero,
    (intrinsics_by_name env_t.ok _ "exit".toList (by decide)).1 (by decide),
    ((intrinsics_by_name env_t.no_dir (parsed zeroed "cd /tmp | ls".toList command_t.zero)
      "cd".toList (by decide)).2 (by decide) (by decide)).2⟩

/-- Claim C17, evaluated at the line `sleep 5 &`.  The command has `background` set;
`process_command` calls `waitpid` in the shell process before it returns `SUCCESS`, whatever
the system answers. -/
theorem background_still_waits (env : env_t) :
    ∃ c, parse_command zeroed "sleep 5 &".toList command_t.zero = some c ∧
      c.background = true ∧
      (process_command env c).trace = [action.waitpid] ∧
      (process_command env c).outcome = outcome.returned SUCCESS :=
  ⟨_, parse_command_of_fits (by decide) zeroed command_t.zero, by decide,
    process_command_trace env _ (by decide : _ = some "sleep".toList) (by decide) (by decide)
      (Or.inl (by decide)),
    process_command_outcome env _ (by decide : _ = some "sleep".toList) (by decide)⟩

/-! ## The loops of createpipe -/

theorem acts_trace (as : List action) (k : proc) : (acts as k).trace = as ++ k.trace := by
  induction as with
  | nil => rfl
  | cons a as ih => simp only [acts, List.foldr_cons, proc.trace, List.cons_append] at ih ⊢; rw [ih]

theorem acts_outcome (as : List action) (k : proc) : (acts as k).outcome = k.outcome := by
  induction as with
  | nil => rfl
  | cons a as ih => simpa only [acts, List.foldr_cons, proc.outcome] using ih

theorem acts_children (as : List action) (k : proc) : (acts as k).children = k.children := by
  induction as with
  | nil => rfl
  | cons a as ih => simpa only [acts, List.foldr_cons, proc.children] using ih

theorem acts_descendants (as : List action) (k : proc) :
    (acts as k).descendants = k.descendants := by
  induction as with
  | nil => rfl
  | cons a as ih => simpa only [acts, List.foldr_cons, proc.descendants] using ih

theorem close_loop_eq (wr : List fd_t) (n : Nat) (k : proc) :
    close_loop wr n k =
      acts ((List.range n).map (fun i => action.close (wr.getD i fd_t.unset))) k := by
  rw [close_loop, acts, List.foldr_map]

theorem wait_loop_eq (n : Nat) (k : proc) :
    wait_loop n k = acts ((List.range n).map (fun _ => action.wait)) k := by
  rw [wait_loop, acts, List.foldr_map]

theorem length_pipe_table (n : Nat) : (pipe_table n).length = n * 2 := by
  induction n with
  | zero => rfl
  | succ n ih =>
    simp only [pipe_table, List.range_succ, List.map_append, List.flatten_append,
      List.length_append] at ih ⊢
    rw [ih]
    simp
    omega

theorem pipe_table_succ (n : Nat) :
    pipe_table (n + 1) = pipe_table n ++ [fd_t.pipe_read n, fd_t.pipe_write n] := by
  simp [pipe_table, List.range_succ]

theorem pipe_table_get (n i : Nat) (h : i < n) :
    (pipe_table n).getD (i * 2) fd_t.unset = fd_t.pipe_read i ∧
      (pipe_table n).getD (i * 2 + 1) fd_t.unset = fd_t.pipe_write i := by
  induction n with
  | zero => omega
  | succ n ih =>
    rw [pipe_table_succ]
    have hl := length_pipe_table n
    by_cases hi : i < n
    · have := ih hi
      simp only [List.getD_eq_getElem?_getD] at this ⊢
      rw [List.getElem?_append_left (by omega), List.getElem?_append_left (by omega)]
      exact this
    · have : i = n := by omega
      subst this
      simp only [List.getD_eq_getElem?_getD]
      rw [List.getElem?_append_right (by omega), List.getElem?_append_right (by omega)]
      simp [hl]

theorem set_pipe_pair (rest : List fd_t) (a b x y : fd_t) :
    ∀ (i : Nat) (l : List fd_t), l.length = i * 2 →
      ((l ++ a :: b :: rest).set (i * 2) x).set (i * 2 + 1) y = l ++ x :: y :: rest := by
  intro i
  induction i with
  | zero =>
    intro l hl
    have : l = [] := List.length_eq_zero.1 (by simpa using hl)
    subst this
    rfl
  | succ j ih =>
    intro l hl
    match l, hl with
    | [], hl => simp only [List.length_nil] at hl; omega
    | [_], hl => simp only [List.length_singleton] at hl; omega
    | c :: d :: l, hl =>
      have hl2 : l.length = j * 2 := by simp at hl; omega
      have := ih l hl2
      have e1 : (j + 1) * 2 = j * 2 + 1 + 1 := by ring
      rw [e1]
      simp only [List.cons_append, List.set_cons_succ]
      rw [this]

theorem pipe_loop_ok (env : env_t) (hpipe : ∀ i, env.pipe i = true) (k : List fd_t → proc) :
    ∀ (n i : Nat),
      pipe_loop env k n i (pipe_table i ++ List.replicate (n * 2) fd_t.unset) =
        acts ((List.range' i n).map (fun j => action.pipe (j * 2))) (k (pipe_table (i + n))) := by
  intro n
  induction n with
  | zero => intro i; simp [pipe_loop, acts]
  | succ n ih =>
    intro i
    have e : List.replicate ((n + 1) * 2) fd_t.unset =
        fd_t.unset :: fd_t.unset :: List.replicate (n * 2) fd_t.unset := by
      rw [show (n + 1) * 2 = n * 2 + 1 + 1 by ring]; rfl
    rw [pipe_loop, hpipe, if_pos rfl, e, set_pipe_pair _ _ _ _ _ _ _ (length_pipe_table i)]
    have := ih (i + 1)
    rw [pipe_table_succ, List.append_assoc] at this
    rw [List.cons_append, List.cons_append, List.nil_append] at this
    rw [this, List.range'_succ, List.map_cons, show i + 1 + n = i + (n + 1) by ring]
    rfl

theorem chain_ne_nil (c : command_t) : chain c ≠ [] := by
  rw [chain_eq]; exact List.cons_ne_nil _ _

theorem chain_length_pos (c : command_t) : 0 < (chain c).length :=
  List.length_pos.2 (chain_ne_nil c)

theorem amountpipes_loop_eq : ∀ (n : Nat) (c : command_t) (i : Nat), (chain c).length = n →
    amountpipes_loop c i = i + n := by
  intro n
  induction n with
  | zero => intro c i h; exact absurd h (Nat.ne_of_gt (chain_length_pos c))
  | succ n ih =>
    intro c i h
    obtain ⟨_, _, _, _, _, _, nx⟩ := c
    cases nx with
    | none =>
      have : n = 0 := by simpa [chain] using h.symm
      subst this
      rfl
    | some m =>
      have hm : (chain m).length = n := by simpa [chain] using h
      rw [amountpipes_loop, ih m (i + 1) hm]
      omega

theorem amountpipes_eq (command : command_t) :
    amountpipes command = (chain command).length - 1 := by
  rw [chain_eq, amountpipes]
  cases h : command.next with
  | none => rfl
  | some m =>
    simp only [List.length_cons]
    rw [amountpipes_loop_eq _ m 0 rfl]
    omega

theorem chain_get_next : ∀ (n : Nat) (command : command_t) (j : Nat) (c : command_t),
    (chain command).length = n → (chain command).get? j = some c →
    (c.next.isSome = true ↔ j + 1 < n) := by
  intro n
  induction n with
  | zero => intro command j c h; exact absurd h (Nat.ne_of_gt (chain_length_pos command))
  | succ n ih =>
    intro command j c h hj
    rw [chain_eq] at h hj
    cases hnx : command.next with
    | none =>
      rw [hnx] at h hj
      cases j with
      | zero =>
        simp only [List.get?_cons_zero, Option.some.injEq] at hj
        subst hj
        simp only [List.length_singleton] at h
        rw [hnx]
        simp
        omega
      | succ j => simp at hj
    | some m =>
      rw [hnx] at h hj
      simp only [List.length_cons, Nat.add_right_cancel_iff] at h
      cases j with
      | zero =>
        simp only [List.get?_cons_zero, Option.some.injEq] at hj
        subst hj
        rw [hnx]
        have := chain_length_pos m
        simp
        omega
      | succ j =>
        simp only [List.get?_cons_succ] at hj
        have := ih m j c h hj
        rw [this]
        omega

theorem createpipe_eq (env : env_t) (hpipe : ∀ i, env.pipe i = true) (command : command_t)
    (amount : Nat) (ret : Int → proc) :
    createpipe env command amount ret =
      acts ((List.range' 0 amount).map (fun j => action.pipe (j * 2)))
        (stage_loop env amount (pipe_table amount)
          (close_loop (pipe_table amount) (amount * 2) (wait_loop (amount + 1) (ret 0)))
          (chain command) 0) := by
  have := pipe_loop_ok env hpipe
    (fun wr => stage_loop env amount wr
      (close_loop wr (amount * 2) (wait_loop (amount + 1) (ret 0))) (chain command) 0) amount 0
  rw [show pipe_table 0 = [] from rfl, List.nil_append, Nat.zero_add] at this
  rw [createpipe]
  exact this

theorem stage_loop_trace (env : env_t) (hfork : ∀ i, env.fork_stage i = true) (amount : Nat)
    (wr : List fd_t) (finish : proc) :
    ∀ (cs : List command_t) (index : Nat),
      (stage_loop env amount wr finish cs index).trace = finish.trace := by
  intro cs
  induction cs with
  | nil => intro index; rfl
  | cons c cs ih =>
    intro index
    rw [stage_loop]
    simp only [hfork, if_true, proc.trace]
    exact ih _

theorem stage_loop_children (env : env_t) (hfork : ∀ i, env.fork_stage i = true) (amount : Nat)
    (wr : List fd_t) (finish : proc) (hfin : finish.children = []) :
    ∀ (cs : List command_t) (index : Nat),
      (stage_loop env amount wr finish cs index).children.map Prod.fst =
        (List.range' 0 cs.length).map (fun j => some ((index + 2 * j) / 2)) := by
  intro cs
  induction cs with
  | nil => intro index; simp [stage_loop, hfin]
  | cons c cs ih =>
    intro index
    rw [stage_loop]
    simp only [hfork, if_true, proc.children, List.map_cons, List.length_cons,
      List.range'_succ, Nat.mul_zero, Nat.add_zero]
    rw [ih (index + 2)]
    congr 1
    rw [show (0 : Nat) + 1 = 1 from rfl, List.range'_eq_map_range, List.range'_eq_map_range]
    simp only [List.map_map]
    apply List.map_congr_left
    intro j _
    simp only [Function.comp]
    congr 2
    omega

theorem stage_loop_child (env : env_t) (amount : Nat) (wr : List fd_t) (finish : proc)
    (hfin : finish.children = []) :
    ∀ (cs : List command_t) (index : Nat) (s : Option Nat) (child : proc),
      (s, child) ∈ (stage_loop env amount wr finish cs index).children →
      ∃ j c, cs.get? j = some c ∧ s = some ((index + 2 * j) / 2) ∧
        child = stage_child env amount wr c (index + 2 * j)
          (stage_loop env amount wr finish (cs.drop (j + 1)) (index + 2 * j + 2)) := by
  intro cs
  induction cs with
  | nil => intro index s child h; simp [stage_loop, hfin] at h
  | cons c cs ih =>
    intro index s child h
    rw [stage_loop] at h
    by_cases hf : env.fork_stage index = true
    · simp only [hf, if_true, proc.children, List.mem_cons, Prod.mk.injEq] at h
      rcases h with ⟨h1, h2⟩ | h
      · exact ⟨0, c, rfl, h1, h2⟩
      · obtain ⟨j, c2, hj, hs, hc⟩ := ih (index + 2) s child h
        refine ⟨j + 1, c2, hj, ?_, ?_⟩
        · rw [hs]; congr 2; omega
        · rw [hc, show index + 2 + 2 * j = index + 2 * (j + 1) by omega]
          rfl
    · simp [hf, proc.children] at h

/-! ## The child of createpipe -/

theorem dispatch_trace (p : action → Prop) (hcall : ∀ h a, p (action.call h a))
    (hperror : ∀ m, p (action.perror m)) (hexec : ∀ f a, p (action.execvp f a))
    (env : env_t) (c : command_t) (name : List Char) (next : proc)
    (hnext : ∀ a ∈ next.trace, p a) :
    ∀ a ∈ (dispatch env c name next).trace, p a := by
  simp only [dispatch]
  repeat' split
  all_goals
    simp only [proc.trace, List.mem_cons, forall_eq_or_imp, List.not_mem_nil, false_implies,
      implies_true, hcall, hperror, hexec, true_and, and_true]
  all_goals first | done | exact hnext

theorem stage_child_trace (env : env_t) (hdup : ∀ d n, env.dup2 d n = true) (amount : Nat)
    (wr : List fd_t) (c : command_t) (index : Nat) (next : proc) :
    (stage_child env amount wr c index next).trace =
      (if c.next.isSome then [action.dup2 (wr.getD (index + 1) fd_t.unset) 1] else []) ++
      (if index ≠ 0 then [action.dup2 (wr.getD (index - 2) fd_t.unset) 0] else []) ++
      (List.range (amount * 2)).map (fun i => action.close (wr.getD i fd_t.unset)) ++
      (match c.name with
        | none => proc.done outcome.crashed
        | some name => dispatch env c name next).trace := by
  simp only [stage_child, hdup, if_true, close_loop_eq]
  split_ifs <;> simp [proc.trace, acts_trace]

theorem stage_child_dup2 (env : env_t) (hdup : ∀ d n, env.dup2 d n = true) (amount : Nat)
    (wr : List fd_t) (c : command_t) (index : Nat) (next : proc)
    (hnext : ∀ a ∈ next.trace, a.is_dup2 = false) :
    (stage_child env amount wr c index next).trace.filter action.is_dup2 =
      (if c.next.isSome then [action.dup2 (wr.getD (index + 1) fd_t.unset) 1] else []) ++
      (if index ≠ 0 then [action.dup2 (wr.getD (index - 2) fd_t.unset) 0] else []) := by
  rw [stage_child_trace env hdup]
  have h3 : ((List.range (amount * 2)).map
      (fun i => action.close (wr.getD i fd_t.unset))).filter action.is_dup2 = [] := by
    rw [List.filter_eq_nil_iff]
    intro a ha
    obtain ⟨i, _, rfl⟩ := List.mem_map.1 ha
    simp [action.is_dup2]
  have h4 : ((match c.name with
        | none => proc.done outcome.crashed
        | some name => dispatch env c name next).trace).filter action.is_dup2 = [] := by
    rw [List.filter_eq_nil_iff]
    intro a ha
    cases hc : c.name with
    | none => rw [hc] at ha; simp [proc.trace] at ha
    | some name =>
      rw [hc] at ha
      have := dispatch_trace (fun a => a.is_dup2 = false) (fun _ _ => rfl) (fun _ => rfl)
        (fun _ _ => rfl) env c name next hnext a ha
      simp [this]
  rw [List.filter_append, List.filter_append, List.filter_append, h3, h4, List.append_nil,
    List.append_nil]
  split_ifs <;> rfl

theorem finish_trace (wr : List fd_t) (n m : Nat) (o : outcome) :
    (close_loop wr n (wait_loop m (proc.done o))).trace =
      (List.range n).map (fun i => action.close (wr.getD i fd_t.unset)) ++
        (List.range m).map (fun _ => action.wait) := by
  rw [close_loop_eq, wait_loop_eq, acts_trace, acts_trace]
  simp [proc.trace]

theorem finish_children (wr : List fd_t) (n m : Nat) (o : outcome) :
    (close_loop wr n (wait_loop m (proc.done o))).children = [] := by
  rw [close_loop_eq, wait_loop_eq, acts_children, acts_children]
  rfl

theorem finish_outcome (wr : List fd_t) (n m : Nat) (o : outcome) :
    (close_loop wr n (wait_loop m (proc.done o))).outcome = o := by
  rw [close_loop_eq, wait_loop_eq, acts_outcome, acts_outcome]
  rfl

theorem finish_no_dup2 (wr : List fd_t) (n m : Nat) (o : outcome) :
    ∀ a ∈ (close_loop wr n (wait_loop m (proc.done o))).trace, a.is_dup2 = false := by
  intro a ha
  rw [finish_trace, List.mem_append] at ha
  rcases ha with ha | ha
  · obtain ⟨i, _, rfl⟩ := List.mem_map.1 ha; rfl
  · obtain ⟨i, _, rfl⟩ := List.mem_map.1 ha; rfl

theorem finish_no_pipe (wr : List fd_t) (n m : Nat) (o : outcome) :
    (close_loop wr n (wait_loop m (proc.done o))).trace.filter action.is_pipe = [] := by
  rw [List.filter_eq_nil_iff]
  intro a ha
  rw [finish_trace, List.mem_append] at ha
  rcases ha with ha | ha
  · obtain ⟨i, _, rfl⟩ := List.mem_map.1 ha; simp [action.is_pipe]
  · obtain ⟨i, _, rfl⟩ := List.mem_map.1 ha; simp [action.is_pipe]

theorem process_command_child_overrun (env : env_t) (command : command_t) (name : List Char)
    (h : 251 ≤ strlen name) :
    process_command_child env command name = proc.done outcome.crashed := by
  have : 5 + strlen name + 1 > MAX_STRING_LENGTH := by
    simp only [MAX_STRING_LENGTH]
    omega
  simp only [process_command_child]
  rw [if_pos this]

theorem process_command_child_pipeline (env : env_t) (command : command_t) (name : List Char)
    (hlen : strlen name ≤ 250)
    (h : cstr name = "mycp".toList ∨ cstr name = "palindrome".toList ∨
      cstr name = "chatroom".toList ∨ 1 < (chain command).length) :
    process_command_child env command name =
      createpipe env command ((chain command).length - 1)
        (fun _ => proc.done (outcome.exited 0)) := by
  have hfit : ¬ (5 + strlen name + 1 > MAX_STRING_LENGTH) := by
    simp only [MAX_STRING_LENGTH]
    omega
  have hc : (strcmp_eq name "mycp".toList || strcmp_eq name "palindrome".toList ||
      strcmp_eq name "chatroom".toList || decide (amountpipes command > 0)) = true := by
    simp only [strcmp_eq, Bool.or_eq_true, beq_iff_eq, decide_eq_true_eq, amountpipes_eq]
    rcases h with h | h | h | h
    · exact Or.inl (Or.inl (Or.inl h))
    · exact Or.inl (Or.inl (Or.inr h))
    · exact Or.inl (Or.inr h)
    · exact Or.inr (by omega)
  simp only [process_command_child]
  rw [if_neg hfit, if_pos hc, amountpipes_eq]

/-- Claim C11, counterexample.  The chain of `ls | sort | wc` has three commands.  When the
calls of `pipe` fail, `createpipe` calls `pipe` once and not twice, no pipe is made, no child
is forked for any command, and the process ends with `exit(1)`. -/
theorem failed_pipe_counterexample :
    ∃ c, parse_command zeroed "ls | sort | wc".toList command_t.zero = some c ∧
      (chain c).length = 3 ∧
      (createpipe env_t.no_pipe c (amountpipes c)
          (fun _ => proc.done (outcome.exited 0))).trace =
        [action.pipe 0, action.perror "Error occured during piping"] ∧
      (createpipe env_t.no_pipe c (amountpipes c)
          (fun _ => proc.done (outcome.exited 0))).children = [] ∧
      (createpipe env_t.no_pipe c (amountpipes c)
          (fun _ => proc.done (outcome.exited 0))).outcome = outcome.exited 1 :=
  ⟨_, parse_command_of_fits (by decide) zeroed command_t.zero,
    by decide, by decide, by decide, by decide⟩

/-- Claim C11, as amended.  Let the chain have `N` commands.  `amountpipes` gives `N - 1`, and
on its pipeline path (the name is `mycp`, `palindrome` or `chatroom`, or `N > 1`), for a name
of 250 bytes at most, the child of `process_command` is `createpipe` with that amount.  When
every `pipe`, every `fork` of `createpipe` and every `dup2` succeeds, `createpipe` calls
`pipe` exactly `N - 1` times, on the slots `0, 2, ..` of an array of `2 * (N - 1)` entries;
it forks one child for each position `0 .. N - 1` in that order; and the calls of `dup2` of
the child at position `k` are `dup2` of the write end of pipe `k` onto 1 exactly when
`k < N - 1`, then `dup2` of the read end of pipe `k - 1` onto 0 exactly when `k > 0`.  The
entries used, `2 * k + 1` and `2 * k - 2`, lie inside the array. -/
theorem pipeline_wiring (env : env_t) (command : command_t)
    (hpipe : ∀ i, env.pipe i = true) (hfork : ∀ i, env.fork_stage i = true)
    (hdup : ∀ d n, env.dup2 d n = true) :
    amountpipes command = (chain command).length - 1 ∧
    (∀ name, strlen name ≤ 250 → (cstr name = "mycp".toList ∨ cstr name = "palindrome".toList ∨
        cstr name = "chatroom".toList ∨ 1 < (chain command).length) →
      process_command_child env command name =
        createpipe env command (amountpipes command) (fun _ => proc.done (outcome.exited 0))) ∧
    (createpipe env command (amountpipes command)
        (fun _ => proc.done (outcome.exited 0))).trace.filter action.is_pipe =
      (List.range ((chain command).length - 1)).map (fun i => action.pipe (i * 2)) ∧
    (pipe_table (amountpipes command)).length = 2 * ((chain command).length - 1) ∧
    (createpipe env command (amountpipes command)
        (fun _ => proc.done (outcome.exited 0))).children.map Prod.fst =
      (List.range (chain command).length).map some ∧
    ∀ k child,
      (some k, child) ∈ (createpipe env command (amountpipes command)
        (fun _ => proc.done (outcome.exited 0))).children →
      child.trace.filter action.is_dup2 =
          (if k < (chain command).length - 1 then [action.dup2 (fd_t.pipe_write k) 1]
            else []) ++
          (if k > 0 then [action.dup2 (fd_t.pipe_read (k - 1)) 0] else []) ∧
        (k < (chain command).length - 1 →
          2 * k + 1 < (pipe_table (amountpipes command)).length) ∧
        (k > 0 → 2 * k - 2 < (pipe_table (amountpipes command)).length) := by
  have hN := chain_length_pos command
  rw [amountpipes_eq]
  refine ⟨rfl, fun name hl h => process_command_child_pipeline env command name hl h,
    ?_, ?_, ?_, ?_⟩
  · rw [createpipe_eq env hpipe, acts_trace, stage_loop_trace env hfork, List.filter_append,
      finish_no_pipe, List.append_nil, List.range_eq_range']
    rw [List.filter_eq_self]
    intro a ha
    obtain ⟨i, _, rfl⟩ := List.mem_map.1 ha
    rfl
  · rw [length_pipe_table]; omega
  · rw [createpipe_eq env hpipe, acts_children,
      stage_loop_children env hfork _ _ _ (finish_children _ _ _ _), List.range_eq_range']
    apply List.map_congr_left
    intro j _
    congr 1
    omega
  · intro k child hk
    rw [createpipe_eq env hpipe, acts_children] at hk
    obtain ⟨j, c, hj, hs, hc⟩ := stage_loop_child env _ _ _ (finish_children _ _ _ _) _ _ _ _ hk
    have hkj : k = j := by
      have := Option.some.inj hs
      omega
    subst hkj
    have hlt : k < (chain command).length := by
      rw [List.get?_eq_some] at hj
      exact hj.1
    have hnext := chain_get_next _ command k c rfl hj
    rw [length_pipe_table]
    refine ⟨?_, fun _ => by omega, fun _ => by omega⟩
    rw [hc, stage_child_dup2 env hdup _ _ _ _ _ (by
      rw [stage_loop_trace env hfork]; exact finish_no_dup2 _ _ _ _)]
    congr 1
    · by_cases h1 : k < (chain command).length - 1
      · rw [if_pos h1, if_pos (hnext.2 (by omega))]
        rw [show 0 + 2 * k + 1 = k * 2 + 1 by omega, (pipe_table_get _ k h1).2]
      · rw [if_neg h1, if_neg (fun h => h1 (by have := hnext.1 h; omega))]
    · by_cases h2 : k > 0
      · rw [if_pos h2, if_pos (by omega)]
        rw [show 0 + 2 * k - 2 = (k - 1) * 2 by omega,
          (pipe_table_get _ (k - 1) (by omega)).1]
      · rw [if_neg h2, if_neg (by omega)]

/-- Witness for C11 at the line `ls | sort | wc` with every call succeeding. -/
theorem pipeline_wiring_witness :
    ∃ c, parse_command zeroed "ls | sort | wc".toList command_t.zero = some c ∧
      amountpipes c = 2 ∧
      (createpipe env_t.ok c (amountpipes c)
          (fun _ => proc.done (outcome.exited 0))).children.map Prod.fst =
        [some 0, some 1, some 2] :=
  ⟨_, parse_command_of_fits (by decide) zeroed command_t.zero,
    (pipeline_wiring env_t.ok (parsed zeroed "ls | sort | wc".toList command_t.zero)
      (fun _ => rfl) (fun _ => rfl) (fun _ _ => rfl)).1.trans (by decide),
    (pipeline_wiring env_t.ok (parsed zeroed "ls | sort | wc".toList command_t.zero)
      (fun _ => rfl) (fun _ => rfl) (fun _ _ => rfl)).2.2.2.2.1.trans (by decide)⟩

/-! ## Every process of the tree -/

theorem dispatch_descendants (env : env_t) (c : command_t) (name : List Char) (next : proc) :
    ∀ x ∈ (dispatch env c name next).descendants, x ∈ next.descendants := by
  simp only [dispatch]
  repeat' split
  all_goals
    simp only [proc.descendants, List.not_mem_nil, false_implies, implies_true, imp_self]

theorem stage_child_descendants (env : env_t) (amount : Nat) (wr : List fd_t) (c : command_t)
    (index : Nat) (next : proc) :
    ∀ x ∈ (stage_child env amount wr c index next).descendants, x ∈ next.descendants := by
  have hb : ∀ x ∈ (close_loop wr (amount * 2)
      (match c.name with
        | none => proc.done outcome.crashed
        | some name => dispatch env c name next)).descendants, x ∈ next.descendants := by
    rw [close_loop_eq, acts_descendants]
    cases c.name with
    | none => intro x hx; simp [proc.descendants] at hx
    | some name => exact dispatch_descendants env c name next
  simp only [stage_child]
  split_ifs <;>
    first
    | exact hb
    | (simp only [proc.descendants, List.not_mem_nil, false_implies, implies_true]
       try exact hb)

theorem stage_loop_descendant (env : env_t) (amount : Nat) (wr : List fd_t) (finish : proc)
    (hfin : finish.descendants = []) :
    ∀ (cs : List command_t) (index : Nat) (s : Option Nat) (p : proc),
      (s, p) ∈ (stage_loop env amount wr finish cs index).descendants →
      ∃ j c next, cs.get? j = some c ∧ s = some ((index + 2 * j) / 2) ∧
        p = stage_child env amount wr c (index + 2 * j) next := by
  intro cs
  induction cs with
  | nil => intro index s p h; simp [stage_loop, hfin] at h
  | cons c cs ih =>
    intro index s p h
    rw [stage_loop] at h
    have step : (s, p) ∈ (stage_loop env amount wr finish cs (index + 2)).descendants →
        ∃ j c2 next, (c :: cs).get? j = some c2 ∧ s = some ((index + 2 * j) / 2) ∧
          p = stage_child env amount wr c2 (index + 2 * j) next := by
      intro h
      obtain ⟨j, c2, next, hj, hs, hc⟩ := ih (index + 2) s p h
      refine ⟨j + 1, c2, next, hj, ?_, ?_⟩
      · rw [hs]; congr 2; omega
      · rw [hc, show index + 2 + 2 * j = index + 2 * (j + 1) by omega]
    by_cases hf : env.fork_stage index = true
    · simp only [hf, if_true, proc.descendants, List.mem_cons, Prod.mk.injEq,
        List.mem_append] at h
      rcases h with ⟨h1, h2⟩ | h | h
      · exact ⟨0, c, _, rfl, h1, h2⟩
      · exact step (stage_child_descendants env amount wr c index _ _ h)
      · exact step h
    · simp [hf, proc.descendants] at h

theorem pipe_loop_descendants (env : env_t) (k : List fd_t → proc) :
    ∀ (n i : Nat) (wr : List fd_t) (x : Option Nat × proc),
      x ∈ (pipe_loop env k n i wr).descendants → ∃ wr2, x ∈ (k wr2).descendants := by
  intro n
  induction n with
  | zero => intro i wr x h; exact ⟨wr, h⟩
  | succ n ih =>
    intro i wr x h
    rw [pipe_loop] at h
    by_cases hp : env.pipe i = true
    · simp only [hp, if_true, proc.descendants] at h
      exact ih _ _ x h
    · simp [hp, proc.descendants] at h

theorem finish_descendants (wr : List fd_t) (n m : Nat) (o : outcome) :
    (close_loop wr n (wait_loop m (proc.done o))).descendants = [] := by
  rw [close_loop_eq, wait_loop_eq, acts_descendants, acts_descendants]
  rfl

theorem createpipe_descendant (env : env_t) (command : command_t) (amount : Nat) (o : outcome)
    (s : Option Nat) (p : proc)
    (h : (s, p) ∈ (createpipe env command amount (fun _ => proc.done o)).descendants) :
    ∃ j c wr next, (chain command).get? j = some c ∧ s = some j ∧
      p = stage_child env amount wr c (2 * j) next := by
  rw [createpipe] at h
  obtain ⟨wr, h⟩ := pipe_loop_descendants env _ _ _ _ _ h
  obtain ⟨j, c, next, hj, hs, hp⟩ :=
    stage_loop_descendant env amount wr _ (finish_descendants _ _ _ _) _ _ _ _ h
  refine ⟨j, c, wr, next, hj, ?_, ?_⟩
  · rw [hs]; congr 1; omega
  · rw [hp, Nat.zero_add]

theorem redirect_descendants (env : env_t) (command : command_t) (o : outcome) :
    (redirect env command (fun _ => proc.done o)).descendants = [] := by
  simp only [redirect, redirect_output, redirect_input]
  repeat' split
  all_goals rfl

theorem process_command_child_descendant (env : env_t) (command : command_t) (name : List Char)
    (s : Option Nat) (p : proc)
    (h : (s, p) ∈ (process_command_child env command name).descendants) :
    ∃ j c wr next, (chain command).get? j = some c ∧ s = some j ∧
      p = stage_child env (amountpipes command) wr c (2 * j) next := by
  simp only [process_command_child] at h
  split at h
  · simp [proc.descendants] at h
  split at h
  · exact createpipe_descendant env command _ _ s p h
  · simp only [proc.descendants] at h
    split at h
    · simp [proc.descendants] at h
    · split at h
      · simp [proc.descendants] at h
      · rw [redirect_descendants] at h
        simp at h

theorem process_command_descendant (env : env_t) (command : command_t) (s : Nat) (p : proc)
    (h : (some s, p) ∈ (process_command env command).descendants) :
    ∃ c wr next, (chain command).get? s = some c ∧
      p = stage_child env (amountpipes command) wr c (2 * s) next := by
  simp only [process_command] at h
  repeat' split at h
  all_goals simp only [proc.descendants, List.not_mem_nil, List.mem_cons, Prod.mk.injEq,
    List.append_nil, false_and, false_or, reduceCtorEq] at h
  obtain ⟨j, c, wr, next, hj, hs, hp⟩ := process_command_child_descendant env command _ _ _ h
  have := Option.some.inj hs
  subst this
  exact ⟨c, wr, next, hj, hp⟩

theorem stage_child_exec_fails (env : env_t) (amount : Nat) (wr : List fd_t) (c : command_t)
    (index : Nat) (next : proc) (name : List Char) (r : Int) (hname : c.name = some name)
    (h1 : cstr name ≠ "uniq".toList) (h2 : cstr name ≠ "palindrome".toList)
    (h3 : cstr name ≠ "mycp".toList) (h4 : cstr name ≠ "chatroom".toList)
    (hx : env.execvp name c.args = some r) (hr : r < 0) :
    (stage_child env amount wr c index next).outcome = outcome.exited 1 := by
  have hb : (close_loop wr (amount * 2)
      (match c.name with
        | none => proc.done outcome.crashed
        | some name => dispatch env c name next)).outcome = outcome.exited 1 := by
    rw [close_loop_eq, acts_outcome, hname]
    simp only [dispatch, strcmp_eq, beq_iff_eq, h1, h2, h3, h4, if_false, hx, hr, if_true,
      proc.outcome]
  simp only [stage_child]
  split_ifs <;> first | exact hb | rfl

/-- Claim C13, counterexample.  With `nosuch` impossible to execute, the child that
`process_command` forks for the line `nosuch` does not end: `process_command` returns -1 in
it, which is not `EXIT`, so the child is back in the loop of `main`.  In the pipeline
`ls | nosuch` the process of the second command ends with status 1, not 127. -/
theorem exec_failure_counterexample :
    ∃ c1 c2, parse_command zeroed "nosuch".toList command_t.zero = some c1 ∧
      parse_command zeroed "ls | nosuch".toList command_t.zero = some c2 ∧
      (process_command (env_t.missing "nosuch".toList) c1).descendants.map
        (fun d => (d.1, d.2.outcome, back_in_main d.2.outcome)) =
        [(none, outcome.returned (-1), true)] ∧
      (process_command (env_t.missing "nosuch".toList) c2).descendants.map
        (fun d => (d.1, d.2.outcome)) =
        [(none, outcome.exited 0), (some 0, outcome.replaced), (some 1, outcome.exited 1)] :=
  ⟨_, _, parse_command_of_fits (by decide) zeroed command_t.zero,
    parse_command_of_fits (by decide) zeroed command_t.zero, by decide, by decide⟩

/-- Claim C13, as amended.  Take any command, any answers of the system and any process in
the tree of `process_command` that was forked by `createpipe` for the position `s` of the
chain.  If the command at that position is not one of the handlers `uniq`, `palindrome`,
`mycp`, `chatroom` and `execvp` of its name fails, that process ends with `exit(1)`; it does
not return from `process_command` into the loop of `main`. -/
theorem failed_exec_in_pipeline (env : env_t) (command : command_t) (s : Nat) (child : proc)
    (c : command_t) (name : List Char) (r : Int)
    (hchild : (some s, child) ∈ (process_command env command).descendants)
    (hc : (chain command).get? s = some c) (hname : c.name = some name)
    (h1 : cstr name ≠ "uniq".toList) (h2 : cstr name ≠ "palindrome".toList)
    (h3 : cstr name ≠ "mycp".toList) (h4 : cstr name ≠ "chatroom".toList)
    (hx : env.execvp name c.args = some r) (hr : r < 0) :
    child.outcome = outcome.exited 1 ∧ back_in_main child.outcome = false := by
  obtain ⟨c2, wr, next, hc2, hp⟩ := process_command_descendant env command s child hchild
  rw [hc] at hc2
  have := Option.some.inj hc2
  subst this
  have ho := stage_child_exec_fails env (amountpipes command) wr c (2 * s) next name r hname
    h1 h2 h3 h4 hx hr
  rw [hp, ho]
  exact ⟨rfl, rfl⟩

/-- Witness for C13 at the line `ls | nosuch | wc` with `nosuch` impossible to execute: the
process forked for position 1. -/
theorem failed_exec_in_pipeline_witness :
    ∃ c, parse_command zeroed "ls | nosuch | wc".toList command_t.zero = some c ∧
      ∃ child, (some 1, child) ∈
          (process_command (env_t.missing "nosuch".toList) c).descendants ∧
        child.outcome = outcome.exited 1 ∧ back_in_main child.outcome = false :=
  ⟨parsed zeroed "ls | nosuch | wc".toList command_t.zero,
    parse_command_of_fits (by decide) zeroed command_t.zero,
    match h : ((process_command (env_t.missing "nosuch".toList)
        (parsed zeroed "ls | nosuch | wc".toList command_t.zero)).descendants.get? 2) with
    | none => absurd h (by decide)
    | some (s, child) =>
      have hs : s = some 1 := by
        have : ((process_command (env_t.missing "nosuch".toList)
            (parsed zeroed "ls | nosuch | wc".toList command_t.zero)).descendants.get? 2).map
              Prod.fst = some (some 1) := by decide
        rw [h] at this
        exact Option.some.inj this
      have hm : (some 1, child) ∈ (process_command (env_t.missing "nosuch".toList)
          (parsed zeroed "ls | nosuch | wc".toList command_t.zero)).descendants := by
        rw [← hs]
        exact List.get?_mem h
      ⟨child, hm,
        failed_exec_in_pipeline (env_t.missing "nosuch".toList)
          (parsed zeroed "ls | nosuch | wc".toList command_t.zero) 1 child
          ((chain (parsed zeroed "ls | nosuch | wc".toList command_t.zero)).get
            ⟨1, by decide⟩)
          "nosuch".toList (-1) hm (List.get?_eq_get _) (by decide) (by decide) (by decide)
          (by decide) (by decide) (by decide) (by decide)⟩⟩

/-! ## redirect -/

theorem redirect_crash (env : env_t) (command : command_t) (ret : Int → proc)
    (h : command.redirects.getD 1 none = none) :
    redirect env command ret = proc.done outcome.crashed := by
  have : amountredirections env command = none := by
    rw [amountredirections, show List.range 3 = [0, 1, 2] from rfl]
    simp only [List.foldlM_cons, h]
    cases command.redirects.getD 0 none <;> rfl
  rw [redirect, this]

theorem process_command_child_plain (env : env_t) (command : command_t) (name : List Char)
    (hlen : strlen name ≤ 250) (h1 : cstr name ≠ "mycp".toList) (h2 : cstr name ≠ "palindrome".toList)
    (h3 : cstr name ≠ "chatroom".toList) (h4 : (chain command).length = 1) :
    process_command_child env command name =
      proc.act (action.execv ("/bin/".toList ++ cstr name) command.args)
        (match env.execv ("/bin/".toList ++ cstr name) command.args with
          | none => proc.done outcome.replaced
          | some r =>
            if r < 0 then
              proc.act (action.perror "Command not found!") (proc.done (outcome.returned (-1)))
            else redirect env command (fun _ => proc.done (outcome.exited 0))) := by
  have hc : (strcmp_eq name "mycp".toList || strcmp_eq name "palindrome".toList ||
      strcmp_eq name "chatroom".toList || decide (amountpipes command > 0)) = false := by
    simp only [strcmp_eq, Bool.or_eq_false_iff, beq_eq_false_iff_ne, ne_eq, amountpipes_eq, h4,
      decide_eq_false_iff_not]
    exact ⟨⟨⟨h1, h2⟩, h3⟩, by omega⟩
  have hfit : ¬ (5 + strlen name + 1 > MAX_STRING_LENGTH) := by
    simp only [MAX_STRING_LENGTH]
    omega
  simp only [process_command_child]
  rw [if_neg hfit, hc]
  rfl

/-- Claim C12, evaluated at the line `cat <in.txt`.  The command has the path `in.txt` in
slot 0 of `redirects`.  Whatever the system answers, no process of `process_command` makes a
call that opens a file: the only place that opens one, `redirect`, stands behind a successful
`execv`.  The pipeline `cat <in.txt | wc` opens no file either, `createpipe` never reading
`redirects`.  Where `redirect` does run its block for the input, on the command parsed from
`cat <in.txt >out.txt >>log`, the file it puts on descriptor 0 is the one named in slot 1,
`out.txt`, and it is opened with `creat`. -/
theorem input_redirection_not_opened (env : env_t) :
    ∃ c1 c2 c3, parse_command zeroed "cat <in.txt".toList command_t.zero = some c1 ∧
      parse_command zeroed "cat <in.txt | wc".toList command_t.zero = some c2 ∧
      parse_command zeroed "cat <in.txt >out.txt >>log".toList command_t.zero = some c3 ∧
      c1.redirects.getD 0 none = some "in.txt".toList ∧
      (process_command env c1).calls.filter action.opens = [] ∧
      (process_command env_t.ok c2).calls.filter action.opens = [] ∧
      (redirect env_t.ok c3 (fun _ => proc.done (outcome.exited 0))).trace =
        [action.creat (some "out.txt".toList) 0o644,
          action.dup2 (fd_t.created (some "out.txt".toList)) 1,
          action.close (fd_t.created (some "out.txt".toList)),
          action.creat (some "out.txt".toList) 0o644,
          action.dup2 (fd_t.created (some "out.txt".toList)) 0,
          action.close (fd_t.created (some "out.txt".toList))] := by
  refine ⟨_, _, _, parse_command_of_fits (by decide) zeroed command_t.zero,
    parse_command_of_fits (by decide) zeroed command_t.zero,
    parse_command_of_fits (by decide) zeroed command_t.zero, by decide, ?_, by decide,
    by decide⟩
  rw [process_command_launch env _ (by decide : _ = some "cat".toList) (by decide) (by decide)
    (Or.inl (by decide)),
    process_command_child_plain env _ _ (by decide) (by decide) (by decide) (by decide)
      (by decide),
    redirect_crash env _ _ (by decide)]
  cases env.fork_shell
  · rfl
  · simp only [if_true, proc.calls, proc.trace, proc.descendants, List.map_cons, List.map_nil]
    cases env.execv ("/bin/".toList ++ cstr "cat".toList)
        (parsed zeroed "cat <in.txt".toList command_t.zero).args with
    | none => rfl
    | some r => by_cases hr : r < 0 <;> simp [hr, proc.trace, proc.descendants, action.opens]

/-- Claim C19, evaluated at the line `palindrome abba | wc` with every call succeeding and
the handler returning.  The processes forked in the tree of `process_command` are the child
of the shell, one for position 0 and two for position 1.  The process for position 0 calls
the handler `palindrome` and then goes on in the loop of `createpipe`: it forks a process for
position 1 itself, closes the pipe again and calls `wait` twice. -/
theorem handler_child_goes_on :
    ∃ c, parse_command zeroed "palindrome abba | wc".toList command_t.zero = some c ∧
      (process_command env_t.ok c).descendants.map
        (fun d => (d.1, d.2.children.map Prod.fst)) =
        [(none, [some 0, some 1]), (some 0, [some 1]), (some 1, []), (some 1, [])] ∧
      ((process_command env_t.ok c).descendants.get? 1).map (fun d => d.2.trace) =
        some [action.dup2 (fd_t.pipe_write 0) 1, action.close (fd_t.pipe_read 0),
          action.close (fd_t.pipe_write 0),
          action.call "palindrome".toList [some "palindrome".toList, some "abba".toList, none],
          action.close (fd_t.pipe_read 0), action.close (fd_t.pipe_write 0), action.wait,
          action.wait] :=
  ⟨_, parse_command_of_fits (by decide) zeroed command_t.zero, by decide, by decide⟩

/-! ## The last byte of the line -/

theorem getLast?_append_cons_of_ne_nil {α : Type} (l : List α) (b : α) {r : List α}
    (hr : r ≠ []) : (l ++ b :: r).getLast? = r.getLast? := by
  obtain ⟨c, r2, rfl⟩ := List.exists_cons_of_ne_nil hr
  rw [show l ++ b :: c :: r2 = (l ++ [b]) ++ c :: r2 by simp, List.getLast?_append_cons]

theorem getLast?_words : ∀ (n : Nat) (t : List Char), t.length ≤ n → NUL ∉ t →
    (∀ c, t.getLast? = some c → blank c = false) →
    t.getLast? = (words t).getLast?.bind List.getLast? := by
  intro n
  induction n with
  | zero =>
    intro t hl _ _
    have : t = [] := List.length_eq_zero.1 (Nat.le_zero.1 hl)
    subst this
    rfl
  | succ n ih =>
    intro t hl hN hb
    cases t with
    | nil => rfl
    | cons a t =>
      by_cases ha : blank a = true
      · rw [words_cons_blank ha]
        have ht : t ≠ [] := by
          intro e
          subst e
          have := hb a rfl
          rw [ha] at this
          exact absurd this (by decide)
        have hlast : (a :: t).getLast? = t.getLast? :=
          getLast?_append_cons_of_ne_nil [] a ht
        rw [hlast]
        exact ih t (by simp only [List.length_cons] at hl; omega)
          (fun h => hN (List.mem_cons_of_mem _ h)) (fun c hc => hb c (hlast ▸ hc))
      · have hd : (a :: t).dropWhile blank = a :: t := by
          simp only [List.dropWhile_cons, ha, Bool.false_eq_true, if_false]
        have hsplit := tok_at_append_tok_end (a :: t)
        rw [hd] at hsplit
        have haN : a ≠ NUL := fun e => hN (by rw [e]; exact List.mem_cons_self _ _)
        have hne : tok_at (a :: t) ≠ [] := by
          rw [Ne, tok_at_eq_nil_iff, hd]
          exact haN
        rw [words_unfold hne]
        cases he : tok_end (a :: t) with
        | nil =>
          rw [he, List.append_nil] at hsplit
          simp only [peek_nil, if_true, List.getLast?_singleton, Option.some_bind]
          rw [hsplit]
        | cons b r =>
          rw [he] at hsplit
          have hbm : b ∈ a :: t := by rw [← hsplit]; simp
          have hbN : b ≠ NUL := fun e => hN (e ▸ hbm)
          have hbt : tokch b = false := by
            have := tokch_peek_dropWhile ((a :: t).dropWhile blank)
            rw [show ((a :: t).dropWhile blank).dropWhile tokch = tok_end (a :: t) from rfl, he]
              at this
            exact this
          have hbb : blank b = true := by
            by_contra hx
            have : tokch b = true := tokch_iff.2 ⟨hbN, by simpa using hx⟩
            rw [hbt] at this
            exact absurd this (by decide)
          have hr : r ≠ [] := by
            intro e
            subst e
            have h1 : (a :: t).getLast? = some b := by
              rw [← hsplit]; simp
            have := hb b h1
            rw [hbb] at this
            exact absurd this (by decide)
          have hlast : (a :: t).getLast? = r.getLast? := by
            rw [← hsplit]
            exact getLast?_append_cons_of_ne_nil _ b hr
          have hlen : r.length ≤ n := by
            have h1 : (a :: t).length = (tok_at (a :: t)).length + (r.length + 1) := by
              have := congrArg List.length hsplit
              simp only [List.length_append, List.length_cons] at this ⊢
              omega
            have h2 : 0 < (tok_at (a :: t)).length := List.length_pos.2 hne
            omega
          have hrN : NUL ∉ r := fun h => hN (by rw [← hsplit]; simp [h])
          have hih := ih r hlen hrN (fun c hc => hb c (hlast ▸ hc))
          have hw : words r ≠ [] := by
            intro e
            rw [e] at hih
            obtain ⟨c, r2, rfl⟩ := List.exists_cons_of_ne_nil hr
            cases r2 <;> simp [List.getLast?_cons_cons] at hih
          simp only [peek_zero_cons, hbN, if_false, List.drop_one, List.tail_cons]
          rw [hlast, hih]
          congr 1
          exact (getLast?_append_cons_of_ne_nil [] _ hw).symm

theorem last_byte_words (m : List Char) :
    last_byte m = (words m).getLast?.bind List.getLast? := by
  have h1 : NUL ∉ cstr (trimmed m) := not_mem_cstr _
  have h2 : ∀ c, (cstr (trimmed m)).getLast? = some c → blank c = false := by
    intro c hc
    rw [cstr_trimmed] at hc
    have hne : (cstr (m.dropWhile blank)).rdropWhile blank ≠ [] := by
      intro e; rw [e] at hc; simp at hc
    have := List.rdropWhile_last_not blank (cstr (m.dropWhile blank)) hne
    rw [List.getLast?_eq_getLast _ hne] at hc
    rw [← Option.some.inj hc]
    simpa using this
  rw [last_byte, getLast?_words _ _ (le_refl _) h1 h2, words_cstr, words_trimmed]

/-- Claim C20, evaluated at the line `a | b |` standing in a buffer that still holds, behind
the terminator of the line, the bytes `cd&` of a longer line typed before.  The line holds a
`|` followed by the command `b |`, and its last byte is `|`, so no command should have a
flag.  The call for the piece behind the second `|` overwrites the terminator, reads on in
the bytes behind the line and sets `background` from the `&` it finds there: the chain has a
third command, named `cd&`, with `background` set, while the first two have it unset.  The
heap holds zero bytes here. -/
theorem flags_behind_open_pipe :
    last_byte ("a | b |".toList ++ NUL :: "cd&".toList) = some '|' ∧
      (parse_command zeroed ("a | b |".toList ++ NUL :: "cd&".toList) command_t.zero).map
          (fun c => (chain c).map (fun σ => (σ.name, σ.background, σ.auto_complete)))
        = some [(some ['a'], false, false), (some ['b'], false, false),
            (some "cd&".toList, true, false)] :=
  ⟨by decide, by decide⟩

/-! ## Reading a written chain again -/

theorem redirect_step_of_plain_arg {a : List Char} (h : plain_arg a = some a)
    (r : List (Option (List Char))) : redirect_step r a = r := by
  unfold plain_arg at h
  split at h
  · exact absurd h (by simp)
  · rename_i hn
    simp only [not_or] at hn
    simp only [redirect_step, hn.2.1, hn.2.2, if_false]

theorem plain_args_stable : ∀ (as : List (List Char)), (∀ a ∈ as, stable_argument a) →
    plain_args as = as := by
  intro as
  induction as with
  | nil => intro _; rfl
  | cons a as ih =>
    intro h
    have ha := (h a (List.mem_cons_self _ _)).2.2
    rw [plain_args, List.filterMap_cons, ha]
    exact congrArg (a :: ·) (ih (fun b hb => h b (List.mem_cons_of_mem _ hb)))

theorem foldl_redirect_step_stable : ∀ (as : List (List Char)) (r : List (Option (List Char))),
    (∀ a ∈ as, stable_argument a) → as.foldl redirect_step r = r := by
  intro as
  induction as with
  | nil => intro r _; rfl
  | cons a as ih =>
    intro r h
    rw [List.foldl_cons, redirect_step_of_plain_arg (h a (List.mem_cons_self _ _)).2.2]
    exact ih r (fun b hb => h b (List.mem_cons_of_mem _ hb))

theorem plain_args_redirection_words (σ : command_t) :
    plain_args (redirection_words σ) = [] := by
  simp only [redirection_words, plain_args, List.filterMap_append]
  cases σ.redirects.getD 0 none <;> cases σ.redirects.getD 1 none <;>
    cases σ.redirects.getD 2 none <;>
    simp [plain_arg, peek]

theorem foldl_redirection_words (σ : command_t) (h3 : σ.redirects.length = 3)
    (h1 : peek ((σ.redirects.getD 1 none).getD []) 0 ≠ '>') :
    (redirection_words σ).foldl redirect_step [none, none, none] = σ.redirects := by
  match hr : σ.redirects, h3 with
  | [r0, r1, r2], _ =>
    rw [hr] at h1
    simp only [redirection_words, hr, List.getD_cons_zero, List.getD_cons_succ]
    have e0 : ('<' : Char) ≠ '>' := by decide
    have e1 : ('>' : Char) ≠ '<' := by decide
    cases r0 <;> cases r1 <;> cases r2 <;>
      simp [redirect_step, peek, e0, e1] at h1 ⊢ <;> simp [h1]

theorem redirection_words_word (σ : command_t)
    (hp : ∀ p ∈ σ.redirects.reduceOption, ∀ ch ∈ p, tokch ch = true) :
    ∀ t ∈ redirection_words σ, is_word t ∧ t ≠ ['|'] ∧ t ≠ ['&'] := by
  have hw : ∀ i p, σ.redirects.getD i none = some p → ∀ ch ∈ p, ch ≠ ' ' ∧ ch ≠ '\t' ∧ ch ≠ NUL := by
    intro i p hi ch hch
    have hmem : p ∈ σ.redirects.reduceOption := by
      rw [List.reduceOption_mem_iff]
      rw [List.getD_eq_getElem?_getD] at hi
      cases hg : σ.redirects[i]? with
      | none => rw [hg] at hi; simp at hi
      | some x =>
        rw [hg] at hi
        simp only [Option.getD_some] at hi
        rw [hi] at hg
        exact List.getElem?_mem hg
    have := tokch_iff.1 (hp p hmem ch hch)
    have hb := this.2
    simp only [blank, Bool.or_eq_false_iff, beq_eq_false_iff_ne, ne_eq] at hb
    exact ⟨hb.1, hb.2, this.1⟩
  intro t ht
  simp only [redirection_words, List.mem_append] at ht
  rcases ht with (ht | ht) | ht
  · cases h0 : σ.redirects.getD 0 none with
    | none => rw [h0] at ht; simp at ht
    | some p =>
      rw [h0] at ht
      simp only [List.mem_singleton] at ht
      subst ht
      refine ⟨⟨by simp, ?_⟩, by simp, by simp⟩
      intro c hc
      rcases List.mem_cons.1 hc with rfl | hc
      · decide
      · exact hw 0 p h0 c hc
  · cases h0 : σ.redirects.getD 1 none with
    | none => rw [h0] at ht; simp at ht
    | some p =>
      rw [h0] at ht
      simp only [List.mem_singleton] at ht
      subst ht
      refine ⟨⟨by simp, ?_⟩, by simp, by simp⟩
      intro c hc
      rcases List.mem_cons.1 hc with rfl | hc
      · decide
      · exact hw 1 p h0 c hc
  · cases h0 : σ.redirects.getD 2 none with
    | none => rw [h0] at ht; simp at ht
    | some p =>
      rw [h0] at ht
      simp only [List.mem_singleton] at ht
      subst ht
      refine ⟨⟨by simp, ?_⟩, by simp, by simp⟩
      intro c hc
      rcases List.mem_cons.1 hc with rfl | hc
      · decide
      · rcases List.mem_cons.1 hc with rfl | hc
        · decide
        · exact hw 2 p h0 c hc

theorem plain_stage_name {bg : Bool} {σ : command_t} (hσ : plain_stage bg σ) :
    σ.name = some (σ.name.getD []) := by
  cases hn : σ.name with
  | none =>
    have := hσ.1.1
    rw [hn] at this
    exact absurd rfl this
  | some n => rfl

theorem stage_tokens_plain {bg : Bool} {σ : command_t} (hσ : plain_stage bg σ)
    (T : List (List Char)) (m : List Char) (hw : words m = stage_words σ ++ T) :
    first_token m = σ.name.getD [] ∧
      stage_tokens m = plain_arguments σ ++ redirection_words σ ++
        T.takeWhile (fun t => t != ['|']) ∧
      ((words m).tail).dropWhile (fun t => t != ['|']) =
        T.dropWhile (fun t => t != ['|']) := by
  have hall : ∀ t ∈ plain_arguments σ ++ redirection_words σ, (t != ['|']) = true := by
    intro t ht
    rcases List.mem_append.1 ht with ht | ht
    · simpa using (hσ.2.2.1 t ht).2.1
    · simpa using (redirection_words_word σ hσ.2.2.2.2.1 t ht).2.1
  have htail : (words m).tail = (plain_arguments σ ++ redirection_words σ) ++ T := by
    rw [hw, stage_words]; rfl
  refine ⟨?_, ?_, ?_⟩
  · rw [first_token_words, hw, stage_words]; rfl
  · rw [stage_tokens_words, htail, List.takeWhile_append_of_pos hall]
  · rw [htail, List.dropWhile_append_of_pos hall]

theorem parse_plain_stage {bg : Bool} {σ : command_t} (hσ : plain_stage bg σ)
    (T : List (List Char)) (hT : T = [] ∨ T = [['&']] ∨ ∃ post, T = ['|'] :: post)
    (m : List Char) (cmd : command_t) (hw : words m = stage_words σ ++ T)
    (hb : cmd.background = false) (ha : cmd.auto_complete = false)
    (hr : cmd.redirects = [none, none, none])
    (hfin : (last_byte m == some '&') = bg ∧ (last_byte m == some '?') = false)
    (malloc : Nat → command_t) :
    stage_view (parsed malloc m cmd) = stage_view σ := by
  obtain ⟨h1, h2, _⟩ := stage_tokens_plain hσ T m hw
  have hT2 : plain_args (T.takeWhile (fun t => t != ['|'])) = [] ∧
      ∀ r, (T.takeWhile (fun t => t != ['|'])).foldl redirect_step r = r := by
    rcases hT with rfl | rfl | ⟨post, rfl⟩
    · exact ⟨rfl, fun _ => rfl⟩
    · exact ⟨by decide, fun _ => rfl⟩
    · exact ⟨by simp [plain_args], fun _ => by simp⟩
  have hargs : plain_args (stage_tokens m) = plain_arguments σ := by
    rw [h2, plain_args, List.filterMap_append, List.filterMap_append]
    have e1 := plain_args_stable _ hσ.2.2.1
    have e2 := plain_args_redirection_words σ
    have e3 := hT2.1
    rw [plain_args] at e1 e2 e3
    rw [e1, e2, e3, List.append_nil, List.append_nil]
  have hred : (stage_tokens m).foldl redirect_step [none, none, none] = σ.redirects := by
    rw [h2, List.foldl_append, List.foldl_append, hT2.2,
      foldl_redirect_step_stable _ _ hσ.2.2.1,
      foldl_redirection_words σ hσ.2.2.2.1 hσ.2.2.2.2.2.1]
  rw [parsed_fields]
  simp only [stage_view, hb, ha, hr, Bool.false_or, hfin.1, hfin.2, hargs, hred, h1]
  rw [hσ.2.1, ← plain_stage_name hσ, hσ.2.2.2.2.2.2.1, hσ.2.2.2.2.2.2.2]

theorem stage_words_ne_nil (σ : command_t) : stage_words σ ≠ [] := List.cons_ne_nil _ _

theorem stage_words_word {bg : Bool} {σ : command_t} (hσ : plain_stage bg σ) :
    ∀ w ∈ stage_words σ, is_word w := by
  intro w hw
  rw [stage_words, List.mem_cons, List.mem_append] at hw
  rcases hw with rfl | hw | hw
  · exact hσ.1
  · exact (hσ.2.2.1 w hw).1
  · exact (redirection_words_word σ hσ.2.2.2.2.1 w hw).1

theorem chain_of_length_one {c : command_t} (h : (chain c).length = 1) : chain c = [c] := by
  rw [chain_eq] at h ⊢
  cases hn : c.next with
  | none => rfl
  | some n =>
    rw [hn] at h
    have := chain_length_pos n
    simp only [List.length_cons] at h
    omega

theorem parse_stage_words (bg : Bool) (amp : List (List Char))
    (hamp : amp = [] ∨ amp = [['&']]) {σ : command_t} (hσ : plain_stage bg σ)
    (malloc : Nat → command_t) (m : List Char) (cmd : command_t)
    (hw : words m = stage_words σ ++ amp)
    (hb : cmd.background = false) (ha : cmd.auto_complete = false)
    (hr : cmd.redirects = [none, none, none]) (hn : cmd.next = none)
    (hfin : (last_byte m == some '&') = bg ∧ (last_byte m == some '?') = false) :
    (chain (parsed malloc m cmd)).map stage_view = [stage_view σ] ∧
      ((words m).tail).dropWhile (fun t => t != ['|']) = [] := by
  have hv := parse_plain_stage hσ amp
    (by rcases hamp with h | h
        · exact Or.inl h
        · exact Or.inr (Or.inl h)) m cmd hw hb ha hr hfin malloc
  have hd := (stage_tokens_plain hσ amp m hw).2.2
  have hnil : amp.dropWhile (fun t => t != ['|']) = [] := by
    rcases hamp with rfl | rfl
    · rfl
    · decide
  rw [hnil] at hd
  refine ⟨?_, hd⟩
  rw [chain_parse_command _ _ hn]
  simp only [(pipe_rest_words m).1 hd, List.map_cons, List.map_nil]
  rw [hv]

/-- A chain of one command that can be written as words, every word behind the name shorter
than the 1024 bytes of `temp_buf`, is read again from the line it is written as. -/
theorem reparse_serialize (malloc : Nat → command_t) (c : command_t)
    (hone : (chain c).length = 1) (hplain : plain_stage c.background c)
    (hshort : ∀ w ∈ (stage_words c).tail, w.length < 1024)
    (hlast : c.background = false →
      last_byte (serialize [' '] c) ≠ some '&' ∧ last_byte (serialize [' '] c) ≠ some '?') :
    ∃ c2, parse_command malloc (serialize [' '] c) command_t.zero = some c2 ∧
      (chain c2).map stage_view = (chain c).map stage_view := by
  have hch := chain_of_length_one hone
  have hac : c.auto_complete = false := hplain.2.2.2.2.2.2.2
  have hsw := stage_words_ne_nil c
  have hser : serialize [' '] c =
      spaced (stage_words c ++ (if c.background then [['&']] else [])) := by
    rw [serialize, hch, hac]
    simp only [List.map_cons, List.map_nil, pipeline, stage_text]
    cases c.background
    · simp
    · simp only [if_true, Bool.false_eq_true, if_false, List.append_nil]
      rw [spaced_concat _ _ hsw]
      rfl
  have hwords : words (serialize [' '] c) =
      stage_words c ++ (if c.background then [['&']] else []) := by
    rw [hser, ← List.append_nil (spaced _), words]
    apply tokens_spaced _ [] _ rfl
    intro w hw
    rcases List.mem_append.1 hw with hw | hw
    · exact stage_words_word hplain w hw
    · cases hb : c.background with
      | false => rw [hb] at hw; simp at hw
      | true =>
        rw [hb] at hw
        simp only [if_true, List.mem_singleton] at hw
        subst hw
        exact ⟨by decide, by decide⟩
  have hfin : (last_byte (serialize [' '] c) == some '&') = c.background ∧
      (last_byte (serialize [' '] c) == some '?') = false := by
    cases hb : c.background with
    | false =>
      have := hlast hb
      exact ⟨by simpa using this.1, by simpa using this.2⟩
    | true =>
      rw [last_byte_words, hwords, hb]
      simp only [if_true, List.getLast?_concat, Option.some_bind]
      exact ⟨by decide, by decide⟩
  have hp := parse_stage_words c.background (if c.background then [['&']] else [])
    (by cases c.background
        · exact Or.inl rfl
        · exact Or.inr rfl)
    hplain malloc _ command_t.zero hwords rfl rfl rfl rfl hfin
  have hfit : fits (serialize [' '] c) = true := by
    refine fits_of_short ?_ ?_
    · intro t ht
      rw [hwords] at ht
      obtain ⟨n, rest, hnr⟩ := List.exists_cons_of_ne_nil hsw
      rw [hnr] at ht hshort
      simp only [List.cons_append, List.tail_cons, List.mem_append] at ht hshort
      rcases ht with ht | ht
      · exact hshort t ht
      · cases hb : c.background with
        | false => rw [hb] at ht; simp at ht
        | true =>
          rw [hb] at ht
          simp only [if_true, List.mem_singleton] at ht
          subst ht
          decide
    · intro e
      have hm := List.mem_of_mem_getLast? e
      have hall := List.dropWhile_eq_nil_iff.1 hp.2 _ hm
      exact absurd hall (by decide)
  refine ⟨_, parse_command_of_fits hfit malloc command_t.zero, ?_⟩
  rw [hp.1, hch]
  rfl

/-- Claim C18, counterexample.  The line `ls ?` gives one command with the arguments `ls`,
`?` and `auto_complete` set.  Written back with the flag it is `ls ? ?` (or `ls ??` when
the flag character is attached), and parsing that gives three arguments (or the argument
`??`): the chain is not the one the line gave. -/
theorem round_trip_counterexample :
    ∃ c c2 c3, parse_command zeroed "ls ?".toList command_t.zero = some c ∧
      (chain c).map stage_view =
        [(some "ls".toList, [some "ls".toList, some "?".toList, none], [none, none, none],
          false, true)] ∧
      serialize [' '] c = "ls ? ?".toList ∧
      parse_command zeroed (serialize [' '] c) command_t.zero = some c2 ∧
      (chain c2).map stage_view =
        [(some "ls".toList, [some "ls".toList, some "?".toList, some "?".toList, none],
          [none, none, none], false, true)] ∧
      serialize [] c = "ls ??".toList ∧
      parse_command zeroed (serialize [] c) command_t.zero = some c3 ∧
      (chain c3).map stage_view =
        [(some "ls".toList, [some "ls".toList, some "??".toList, none],
          [none, none, none], false, true)] :=
  ⟨_, _, _, parse_command_of_fits (by decide) zeroed command_t.zero,
    by decide, by decide, parse_command_of_fits (by decide) zeroed command_t.zero, by decide,
    by decide, parse_command_of_fits (by decide) zeroed command_t.zero, by decide⟩

/-- Claim C18, as amended.  Let `parse_command` leave for a line a chain of one command
that has `auto_complete` unset, whose name is a word, whose stored arguments are words that
are not `|`, not `&`, do not begin with `<` or `>` and are not wrapped in quotes, and whose
path of slot 1 does not begin with `>`.  Write the command back: its name, its arguments and
its redirections `<path`, `>path`, `>>path` separated by single spaces, and `" &"` at the
end when `background` is set.  If the words written behind the name are shorter than the
1024 bytes of `temp_buf` and, with `background` unset, the line written does not end in `&`
or `?`, then `parse_command` returns on that line, whatever the heap holds, and gives a chain
with the same name, the same arguments in the same order, the same redirections and the same
flags. -/
theorem round_trip (malloc malloc2 : Nat → command_t) (L : List Char) (c : command_t)
    (hparse : parse_command malloc L command_t.zero = some c)
    (hone : (chain c).length = 1) (hplain : plain_stage c.background c)
    (hshort : ∀ w ∈ (stage_words c).tail, w.length < 1024)
    (hlast : c.background = false →
      last_byte (serialize [' '] c) ≠ some '&' ∧ last_byte (serialize [' '] c) ≠ some '?') :
    ∃ c2, parse_command malloc2 (serialize [' '] c) command_t.zero = some c2 ∧
      (chain c2).map stage_view = (chain c).map stage_view := by
  have _ := hparse
  exact reparse_serialize malloc2 c hone hplain hshort hlast

/-- Witness for C18 as amended, at the line `grep -n 'foo' <in.txt >out.txt &`, which is
written back as `grep -n foo <in.txt >out.txt &` and read again on a heap of stale blocks. -/
theorem round_trip_witness :
    ∃ c c2, parse_command zeroed "grep -n 'foo' <in.txt >out.txt &".toList command_t.zero
          = some c ∧
      serialize [' '] c = "grep -n foo <in.txt >out.txt &".toList ∧
      parse_command stale (serialize [' '] c) command_t.zero = some c2 ∧
      (chain c2).map stage_view = (chain c).map stage_view :=
  let ⟨c2, h1, h2⟩ :=
    round_trip zeroed stale "grep -n 'foo' <in.txt >out.txt &".toList
      (parsed zeroed "grep -n 'foo' <in.txt >out.txt &".toList command_t.zero)
      (parse_command_of_fits (by decide) zeroed command_t.zero)
      (by decide) (by decide) (by decide) (by decide)
  ⟨_, c2, parse_command_of_fits (by decide) zeroed command_t.zero, by decide, h1, h2⟩

end Shellax
